import Mathlib

/-!
# The edge importer of `cmd/import/main.go`

A shallow embedding of the batch importer: the per-row parse loop with its
`switch` over the column index, the acceptance test with the plausibility
warnings, the projection loop that builds one or two `Node` values per
accepted row, and the encoding of the record set by `json.Marshal`.

The input is the sequence of records the CSV reader yields, each a list of
field texts.  The read loop only tests the reader's error for `io.EOF`, so a
record returned together with another error (a wrong number of fields, or no
field at all) is processed like any other.  Log output is the list of message
texts in the order written.
The Go library functions the parse loop calls (`strconv.ParseInt`,
`strconv.ParseFloat`), the `%d` verb of `fmt.Sprintf` and the struct encoder
of `encoding/json` are modelled after the behaviour of the Go standard
library.  The JSON document is kept as a tree, the keys and values that are
written, not as its bytes.
-/

set_option autoImplicit false

namespace GoRouting

/-! ## 64-bit floats -/

/-- An IEEE 754 binary64 value, given by its three bit fields: the sign bit,
the 11-bit biased exponent and the 52-bit fraction. -/
structure Float64 where
  sign : Bool
  expo : Nat
  frac : Nat
deriving DecidableEq, Repr

namespace Float64

/-- The zero value of a Go `float64` variable, `+0`. -/
def zero : Float64 := ⟨false, 0, 0⟩

/-- Infinity with the given sign (`math.Inf`). -/
def inf (neg : Bool) : Float64 := ⟨neg, 2047, 0⟩

/-- The value returned by `math.NaN()`, bit pattern `0x7FF8000000000001`. -/
def nan : Float64 := ⟨false, 2047, 2 ^ 51 + 1⟩

/-- Not-a-number: all exponent bits set and a non-zero fraction. -/
def isNaN (x : Float64) : Bool := x.expo == 2047 && x.frac != 0

/-- Positive or negative zero. -/
def isZero (x : Float64) : Bool := x.expo == 0 && x.frac == 0

/-- Neither an infinity nor a NaN. -/
def isFinite (x : Float64) : Bool := decide (x.expo < 2047)

/-- The Go comparison `x > 0`: false for NaN, for both zeros and for every
value with the sign bit set. -/
def gtZero (x : Float64) : Bool := !x.isNaN && !x.sign && !x.isZero

/-- The Go comparison `x <= 0`: false for NaN, true for both zeros and for
every other value with the sign bit set. -/
def leZero (x : Float64) : Bool := !x.isNaN && (x.sign || x.isZero)

end Float64

/-! ## `strconv.ParseInt(value, 10, 64)` -/

/-- A decimal digit byte, `'0' <= c && c <= '9'`. -/
def isDigit (c : Char) : Bool := decide (48 ≤ c.toNat ∧ c.toNat ≤ 57)

/-- The value `c - '0'` of a digit byte. -/
def digitVal (c : Char) : Nat := c.toNat - 48

/-- The digit loop of `strconv.ParseUint` in base 10, on the exact value:
`none` as soon as a byte is not a decimal digit. -/
def parseDigits : List Char → Nat → Option Nat
  | [], n => some n
  | c :: cs, n => if isDigit c then parseDigits cs (n * 10 + digitVal c) else none

/-- `strconv.ParseUint(s, 10, 64)` up to the range check, which `ParseInt`
redoes with its own, smaller cutoff: the empty text is an error. -/
def parseUint (s : List Char) : Option Nat :=
  match s with
  | [] => none
  | _ :: _ => parseDigits s 0

/-- The range check of `strconv.ParseInt` for `bitSize = 64`, with
`cutoff = 1 << 63`: `un >= cutoff` is an error without a minus sign,
`un > cutoff` with one. -/
def rangeInt64 (neg : Bool) (un : Nat) : Option Int :=
  if neg then (if un > 2 ^ 63 then none else some (-(un : Int)))
  else (if un ≥ 2 ^ 63 then none else some (un : Int))

/-- `strconv.ParseInt(value, 10, 64)`: `none` stands for a non-nil error
(`ErrSyntax` or `ErrRange`; the importer only tests `err != nil`), `some n`
for the result `n` with a nil error. -/
def ParseInt (value : String) : Option Int :=
  match value.toList with
  | [] => none
  | c :: cs =>
    if c = '+' then (parseUint cs).bind (rangeInt64 false)
    else if c = '-' then (parseUint cs).bind (rangeInt64 true)
    else (parseUint (c :: cs)).bind (rangeInt64 false)

/-! ## `strconv.ParseFloat(value, 64)` -/

/-- Floor of the binary logarithm, by halving; `fuel` bounds the number of
halvings. -/
def log2Fuel : Nat → Nat → Nat
  | 0, _ => 0
  | fuel + 1, n => if 2 ≤ n then log2Fuel fuel (n / 2) + 1 else 0

/-- Floor of the binary logarithm of `n` (0 for `n = 0`). -/
def floorLog2 (n : Nat) : Nat := log2Fuel n n

/-- The floor of the binary logarithm of the positive rational `num / den`. -/
def ratLog2 (num den : Nat) : Int :=
  let est : Int := (floorLog2 num : Int) - (floorLog2 den : Int)
  if 0 ≤ est then
    (if den * 2 ^ est.toNat ≤ num then est else est - 1)
  else
    (if den ≤ num * 2 ^ (-est).toNat then est else est - 1)

/-- Correct rounding of `num / den` to binary64, to nearest with ties to
even, with the given sign: the result every conversion path of
`strconv.ParseFloat` computes.  A value that rounds to `2^1024` or above is
out of range (`ErrRange`): `none`.  A value that rounds to zero is a zero
with the sign kept, without error. -/
def roundToFloat64 (neg : Bool) (num den : Nat) : Option Float64 :=
  if num = 0 then some ⟨neg, 0, 0⟩
  else
    let q : Int := max (ratLog2 num den - 52) (-1074)
    let n := if 0 ≤ q then num else num * 2 ^ (-q).toNat
    let d := if 0 ≤ q then den * 2 ^ q.toNat else den
    let k := n / d
    let r := n % d
    let k1 := if d < 2 * r ∨ (2 * r = d ∧ k % 2 = 1) then k + 1 else k
    let enc := (q + 1074).toNat * 2 ^ 52 + k1
    if 2047 * 2 ^ 52 ≤ enc then none
    else some ⟨neg, enc / 2 ^ 52, enc % 2 ^ 52⟩

/-- `commonPrefixLenIgnoreCase(s, pre)`: the length of the longest common
start of `s` and the lower-case text `pre`, upper-case ASCII letters of `s`
taken as their lower-case forms. -/
def commonPrefixLenIgnoreCase : List Char → List Char → Nat
  | c :: s, p :: pre => if c.toLower = p then commonPrefixLenIgnoreCase s pre + 1 else 0
  | _, _ => 0

/-- The infinity branch of `special`: `n` is the common length with
"infinity", cut back to 3 when strictly between 3 and 8. -/
def specialInf (neg : Bool) (nsign : Nat) (s : List Char) : Option (Float64 × Nat) :=
  let n := commonPrefixLenIgnoreCase s "infinity".toList
  let n := if 3 < n ∧ n < 8 then 3 else n
  if n = 3 ∨ n = 8 then some (Float64.inf neg, nsign + n) else none

/-- `special(s)` of `strconv`: the special values at the start of `s` with
the number of bytes they take: an optionally signed "inf" or "infinity" and
an unsigned "nan", in any letter case. -/
def special (s : List Char) : Option (Float64 × Nat) :=
  match s with
  | [] => none
  | c :: rest =>
    if c = '+' ∨ c = '-' then specialInf (c = '-') 1 rest
    else if c = 'i' ∨ c = 'I' then specialInf false 0 s
    else if c = 'n' ∨ c = 'N' then
      (if commonPrefixLenIgnoreCase s "nan".toList = 3 then some (Float64.nan, 3) else none)
    else none

/-- A hexadecimal letter digit, `'a' <= lower(c) && lower(c) <= 'f'`. -/
def isHexLetter (c : Char) : Bool :=
  decide ((97 ≤ c.toNat ∧ c.toNat ≤ 102) ∨ (65 ≤ c.toNat ∧ c.toNat ≤ 70))

/-- The value `lower(c) - 'a' + 10` of a hexadecimal letter digit. -/
def hexLetterVal (c : Char) : Nat := c.toLower.toNat - 97 + 10

/-- The variables of the mantissa loop of `readFloat`.  The mantissa is kept
exactly (all `nd` digits of it), where the Go code keeps the first 19 (16 in
base 16) and a truncation flag. -/
structure MantState where
  sawdot : Bool
  sawdigits : Bool
  nd : Nat
  dp : Int
  mantissa : Nat
  underscores : Bool
deriving DecidableEq, Repr

/-- The mantissa loop of `readFloat`: returns the variables at the first byte
that is no part of the mantissa, and the text from that byte on. -/
def readMantissa (hex : Bool) : List Char → MantState → MantState × List Char
  | [], st => (st, [])
  | c :: cs, st =>
    if c = '_' then readMantissa hex cs { st with underscores := true }
    else if c = '.' then
      (if st.sawdot then (st, c :: cs)
       else readMantissa hex cs { st with sawdot := true, dp := st.nd })
    else if isDigit c then
      (if c = '0' ∧ st.nd = 0 then
        readMantissa hex cs { st with sawdigits := true, dp := st.dp - 1 }
       else
        readMantissa hex cs { st with sawdigits := true, nd := st.nd + 1,
                                      mantissa := st.mantissa * (if hex then 16 else 10) + digitVal c })
    else if hex ∧ isHexLetter c then
      readMantissa hex cs { st with sawdigits := true, nd := st.nd + 1,
                                    mantissa := st.mantissa * 16 + hexLetterVal c }
    else (st, c :: cs)

/-- The exponent digit loop of `readFloat`: digits and underscores are taken,
and the exponent stops growing once it has reached 10000. -/
def readExpDigits : List Char → Nat → Bool → Nat × Bool × List Char
  | [], e, us => (e, us, [])
  | c :: cs, e, us =>
    if c = '_' then readExpDigits cs e true
    else if isDigit c then readExpDigits cs (if e < 10000 then e * 10 + digitVal c else e) us
    else (e, us, c :: cs)

/-- The loop of `underscoreOK` over the number proper; `saw` is the kind of
the last byte seen: `'0'` a digit or the base marker, `'_'` an underscore,
`'!'` anything else, `'^'` the start. -/
def underscoreLoop (hex : Bool) : List Char → Char → Bool
  | [], saw => saw != '_'
  | c :: cs, saw =>
    if isDigit c ∨ (hex ∧ isHexLetter c) then underscoreLoop hex cs '0'
    else if c = '_' then (if saw != '0' then false else underscoreLoop hex cs '_')
    else if saw = '_' then false
    else underscoreLoop hex cs '!'

/-- A base marker letter after a leading `0`: `b`, `o` or `x` in either
case. -/
def isBaseLetter (c : Char) : Bool := c.toLower = 'b' || c.toLower = 'o' || c.toLower = 'x'

/-- `underscoreOK(s)`: underscores only between digits, or between the base
marker and a digit. -/
def underscoreOK (s : List Char) : Bool :=
  let s := match s with
    | c :: cs => if c = '-' ∨ c = '+' then cs else c :: cs
    | [] => []
  match s with
  | c0 :: c1 :: cs =>
    if c0 = '0' ∧ isBaseLetter c1 then underscoreLoop (c1.toLower = 'x') cs '0'
    else underscoreLoop false s '^'
  | _ => underscoreLoop false s '^'

/-- The result of `readFloat` when it succeeds: the sign, whether the number
is hexadecimal, the exact mantissa, the exponent of the base (10, or 2 for a
hexadecimal number) by which the mantissa is scaled, and the text left
unread. -/
structure ReadFloat where
  neg : Bool
  hex : Bool
  mantissa : Nat
  exp : Int
  rest : List Char
deriving DecidableEq, Repr

/-- The optional exponent part of `readFloat`, from the byte after the
mantissa: returns the decimal point position moved by the exponent, the
underscore flag and the text left, or `none` where `readFloat` returns
without `ok`. -/
def readExponent (hex : Bool) (dp : Int) (us : Bool) (rest : List Char) :
    Option (Int × Bool × List Char) :=
  match rest with
  | c :: cs =>
    if c.toLower = (if hex then 'p' else 'e') then
      match cs with
      | [] => none
      | c1 :: cs1 =>
        let esign : Int := if c1 = '-' then -1 else 1
        let ds := if c1 = '+' ∨ c1 = '-' then cs1 else c1 :: cs1
        match ds with
        | [] => none
        | d :: _ =>
          if isDigit d then
            let r := readExpDigits ds 0 us
            some (dp + (r.1 : Int) * esign, r.2.1, r.2.2)
          else none
    else if hex then none
    else some (dp, us, rest)
  | [] => if hex then none else some (dp, us, [])

/-- `readFloat(s)` of `strconv`: the sign, the base, the mantissa and the
exponent of the number at the start of `s`, or `none` where the Go function
returns without `ok`. -/
def readFloat (s : List Char) : Option ReadFloat :=
  match s with
  | [] => none
  | c :: cs =>
    let neg := decide (c = '-')
    let t := if c = '+' ∨ c = '-' then cs else s
    let hex := match t with
      | c0 :: c1 :: _ :: _ => decide (c0 = '0' ∧ c1.toLower = 'x')
      | _ => false
    let t := if hex then t.drop 2 else t
    let m := readMantissa hex t ⟨false, false, 0, 0, 0, false⟩
    let st := m.1
    if !st.sawdigits then none
    else
      let dp : Int := if st.sawdot then st.dp else st.nd
      let dp := if hex then dp * 4 else dp
      let ndMant : Int := if hex then (st.nd : Int) * 4 else st.nd
      match readExponent hex dp st.underscores m.2 with
      | none => none
      | some (dp, us, rest) =>
        if us && !underscoreOK (s.take (s.length - rest.length)) then none
        else some ⟨neg, hex, st.mantissa, if st.mantissa ≠ 0 then dp - ndMant else 0, rest⟩

/-- `strconv.ParseFloat(value, 64)`: `none` stands for a non-nil error
(`ErrSyntax`, or `ErrRange` for a value that rounds to an infinity; the
importer only tests `err != nil`), `some f` for the result `f` with a nil
error.  The whole text has to be taken by the special value or the number. -/
def ParseFloat (value : String) : Option Float64 :=
  let s := value.toList
  match special s with
  | some (f, n) => if n = s.length then some f else none
  | none =>
    match readFloat s with
    | none => none
    | some r =>
      if r.rest ≠ [] then none
      else
        let b : Nat := if r.hex then 2 else 10
        if 0 ≤ r.exp then roundToFloat64 r.neg (r.mantissa * b ^ r.exp.toNat) 1
        else roundToFloat64 r.neg r.mantissa (b ^ (-r.exp).toNat)

/-! ## `fmt.Sprintf("_:%d", n)` -/

/-- The byte `'0' + d` of a decimal digit `d`. -/
def digitChar (d : Nat) : Char := Char.ofNat (48 + d)

/-- The digit loop of the `%d` verb: the decimal digits of `u` are written
from the least significant one, in front of `acc`, until `u < 10`; `fuel`
bounds the number of divisions. -/
def fmtDigits : Nat → Nat → List Char → List Char
  | 0, _, acc => acc
  | fuel + 1, u, acc =>
    if u < 10 then digitChar u :: acc
    else fmtDigits fuel (u / 10) (digitChar (u % 10) :: acc)

/-- The `%d` verb on a signed integer: the decimal digits of the absolute
value, after a minus sign when the integer is negative. -/
def formatInt (n : Int) : String :=
  String.mk ((if n < 0 then ['-'] else []) ++ fmtDigits (n.natAbs + 1) n.natAbs [])

/-- `fmt.Sprintf("_:%d", n)`: the blank-node key of node `n`. -/
def sprintfUid (n : Int) : String := "_:" ++ formatInt n

/-! ## The data types of `main.go` -/

/-- `type CSVRecord struct`; a Go `error` is `none` for `nil` and `some msg`
for an error with message `msg`. -/
structure CSVRecord where
  EdgeID : Int
  SourceNode : Int
  TargetNode : Int
  EdgeCost : Float64
  EdgeReverseCost : Float64
  EdgeMode : String
  EdgeDistanceKM : Float64
  ParseError : Option String
deriving DecidableEq, Repr

/-- The zero value of `CSVRecord`, the value of `var csvRecord CSVRecord`. -/
def CSVRecord.zero : CSVRecord :=
  ⟨0, 0, 0, Float64.zero, Float64.zero, "", Float64.zero, none⟩

/-- `type Edge struct`. -/
structure Edge where
  TargetID : String
  NodeID : Int
  EdgeID : Int
  Reverse : Bool
  Cost : Float64
  Distance : Float64
  Mode : String
deriving DecidableEq, Repr

/-- `type Node struct`. -/
structure Node where
  ID : String
  NodeID : Int
  ConnectTo : Edge
deriving DecidableEq, Repr

/-! ## The parse loop -/

/-- The state of the loop over the columns of one record: the record under
construction and the log written so far. -/
structure RowState where
  csvRecord : CSVRecord
  log : List String
deriving DecidableEq, Repr

/-- The line written by `log.Printf("Unexpected type in column %d\n", idx)`. -/
def unexpectedType (idx : Nat) : String := "Unexpected type in column " ++ toString idx

/-- What the failure branch of a case does: the log line, then the error
stored in `csvRecord.ParseError`. -/
def failColumn (idx : Nat) (msg : String) (st : RowState) : RowState :=
  { csvRecord := { st.csvRecord with ParseError := some msg },
    log := st.log ++ [unexpectedType idx] }

/-- One iteration of `for idx, value := range record`, the `switch idx`.
In a failure branch the `break` leaves the `switch` statement; in a success
branch the `continue` goes to the next iteration.  Nothing follows the
`switch` in the loop body, so in both branches the loop goes on with the next
column.  An index above 6 matches no case. -/
def parseColumn (idx : Nat) (value : String) (st : RowState) : RowState :=
  match idx with
  | 0 =>
    match ParseInt value with
    | none => failColumn idx "incorrect field" st
    | some intValue => { st with csvRecord := { st.csvRecord with EdgeID := intValue } }
  | 1 =>
    match ParseInt value with
    | none => failColumn idx "incorrect field" st
    | some intValue => { st with csvRecord := { st.csvRecord with SourceNode := intValue } }
  | 2 =>
    match ParseInt value with
    | none => failColumn idx "incorrect field" st
    | some intValue => { st with csvRecord := { st.csvRecord with TargetNode := intValue } }
  | 3 =>
    match ParseFloat value with
    | none => failColumn idx "incorrect field" st
    | some intValue => { st with csvRecord := { st.csvRecord with EdgeCost := intValue } }
  | 4 =>
    match ParseFloat value with
    | none => failColumn idx "incorrect field" st
    | some intValue => { st with csvRecord := { st.csvRecord with EdgeReverseCost := intValue } }
  | 5 =>
    if value = "" then failColumn idx "empty edge mode value" st
    else { st with csvRecord := { st.csvRecord with EdgeMode := value } }
  | 6 =>
    match ParseFloat value with
    | none => failColumn idx "incorrect field" st
    | some intValue => { st with csvRecord := { st.csvRecord with EdgeDistanceKM := intValue } }
  | _ => st

/-- The loop `for idx, value := range record`, from column index `idx` on. -/
def parseColumns : Nat → List String → RowState → RowState
  | _, [], st => st
  | idx, value :: rest, st => parseColumns (idx + 1) rest (parseColumn idx value st)

/-- The parse of one record on its own: the loop over its columns, started
on the zero `CSVRecord` and an empty log. -/
def parseRow (record : List String) : RowState :=
  parseColumns 0 record ⟨CSVRecord.zero, []⟩

/-- The state of the read loop: the accepted records and the log. -/
structure ImportState where
  csvData : List CSVRecord
  log : List String
deriving DecidableEq, Repr

/-- The three plausibility tests on an accepted record, in the order of the
source; each writes its line when its field is `<= 0`. -/
def warnings (csvRecord : CSVRecord) (log : List String) : List String :=
  let log := if csvRecord.EdgeDistanceKM.leZero then log ++ ["No distance"] else log
  let log := if csvRecord.EdgeCost.leZero then log ++ ["No cost"] else log
  if csvRecord.EdgeReverseCost.leZero then log ++ ["No reverse Edge"] else log

/-- One iteration of the read loop for a record the reader yields: the parse
of its columns, then, when `csvRecord.ParseError == nil`, the append to
`csvData` and the plausibility warnings. -/
def readRecord (st : ImportState) (record : List String) : ImportState :=
  let rs := parseColumns 0 record ⟨CSVRecord.zero, st.log⟩
  match rs.csvRecord.ParseError with
  | none => ⟨st.csvData ++ [rs.csvRecord], warnings rs.csvRecord rs.log⟩
  | some _ => ⟨st.csvData, rs.log⟩

/-- The read loop over all the records of the input, up to `io.EOF`. -/
def readAll (records : List (List String)) : ImportState :=
  records.foldl readRecord ⟨[], []⟩

/-! ## The projection loop -/

/-- `sourceNode` of the loop body: the forward node of a record. -/
def sourceNode (csvRecord : CSVRecord) : Node :=
  { ID := sprintfUid csvRecord.SourceNode,
    NodeID := csvRecord.SourceNode,
    ConnectTo :=
      { TargetID := sprintfUid csvRecord.TargetNode,
        NodeID := csvRecord.TargetNode,
        EdgeID := csvRecord.EdgeID,
        Reverse := false,
        Cost := csvRecord.EdgeCost,
        Distance := csvRecord.EdgeDistanceKM,
        Mode := csvRecord.EdgeMode } }

/-- `SourceNodeReverse` of the loop body: the reverse node of a record. -/
def SourceNodeReverse (csvRecord : CSVRecord) : Node :=
  { ID := sprintfUid csvRecord.TargetNode,
    NodeID := csvRecord.TargetNode,
    ConnectTo :=
      { TargetID := sprintfUid csvRecord.SourceNode,
        NodeID := csvRecord.SourceNode,
        EdgeID := csvRecord.EdgeID,
        Reverse := true,
        Cost := csvRecord.EdgeReverseCost,
        Distance := csvRecord.EdgeDistanceKM,
        Mode := csvRecord.EdgeMode } }

/-- One iteration of `for _, csvRecord := range csvData`: the forward node is
appended, then the reverse node when `csvRecord.EdgeReverseCost > 0`. -/
def projectRecord (nodes : List Node) (csvRecord : CSVRecord) : List Node :=
  let nodes := nodes ++ [sourceNode csvRecord]
  if csvRecord.EdgeReverseCost.gtZero then nodes ++ [SourceNodeReverse csvRecord] else nodes

/-- The projection loop over `csvData`, started on `var nodes []Node`. -/
def projectAll (csvData : List CSVRecord) : List Node :=
  csvData.foldl projectRecord []

/-- The nodes the loop body appends for one record. -/
def projectRow (csvRecord : CSVRecord) : List Node := projectRecord [] csvRecord

/-- The record set of a run of `main` on the records the reader yields: the
read loop, then the projection loop over the accepted records (the dial and
the schema call in between are taken to succeed). -/
def importNodes (records : List (List String)) : List Node :=
  projectAll (readAll records).csvData

/-- The log of a run of `main` up to the projection loop: the lines of the
read loop, then the line with the number of accepted records. -/
def importLog (records : List (List String)) : List String :=
  (readAll records).log ++ ["Number of nodes " ++ toString (readAll records).csvData.length]

/-- Column `idx` with text `value` fails coercion: the condition of the
failure branch of `case idx`. -/
def columnFails (idx : Nat) (value : String) : Bool :=
  match idx with
  | 0 => (ParseInt value).isNone
  | 1 => (ParseInt value).isNone
  | 2 => (ParseInt value).isNone
  | 3 => (ParseFloat value).isNone
  | 4 => (ParseFloat value).isNone
  | 5 => decide (value = "")
  | 6 => (ParseFloat value).isNone
  | _ => false

/-! ## `json.Marshal(nodes)` -/

/-- A JSON document as a tree: what `encoding/json` writes, before its
rendering as bytes.  The members of an object are kept in the order
written. -/
inductive JSON where
  | null
  | bool (b : Bool)
  | int (n : Int)
  | float (f : Float64)
  | str (s : String)
  | array (elems : List JSON)
  | object (members : List (String × JSON))

/-- A string field tagged `omitempty`: left out when the string is empty
(`isEmptyValue`: `v.Len() == 0`). -/
def strMember (key : String) (s : String) : List (String × JSON) :=
  if s = "" then [] else [(key, JSON.str s)]

/-- An `int64` field tagged `omitempty`: left out when the integer is 0
(`isEmptyValue`: `v.Int() == 0`). -/
def intMember (key : String) (n : Int) : List (String × JSON) :=
  if n = 0 then [] else [(key, JSON.int n)]

/-- A `float64` field tagged `omitempty`: left out when the float compares
equal to 0 (`isEmptyValue`: `v.Float() == 0`, true of both zeros); otherwise
the float encoder runs, which returns an `UnsupportedValueError` for an
infinity or a NaN: `none`. -/
def floatMember (key : String) (f : Float64) : Option (List (String × JSON)) :=
  if f.isZero then some []
  else if f.isFinite then some [(key, JSON.float f)]
  else none

/-- The struct encoder on an `Edge`, field by field in the order of the
declaration, with the keys of the `json` tags; `Reverse` has no `omitempty`.
`none` stands for a non-nil error. -/
def marshalEdge (e : Edge) : Option JSON :=
  match floatMember "connect_to|cost" e.Cost with
  | none => none
  | some cost =>
    match floatMember "connect_to|distance" e.Distance with
    | none => none
    | some distance =>
      some (JSON.object
        (strMember "uid" e.TargetID ++ intMember "node_id" e.NodeID ++
          intMember "connect_to|edge_id" e.EdgeID ++
          [("connect_to|reverse", JSON.bool e.Reverse)] ++ cost ++ distance ++
          strMember "connect_to|mode" e.Mode))

/-- The struct encoder on a `Node`.  The field `ConnectTo` is a struct:
`isEmptyValue` is false of every struct value, so its `omitempty` never
leaves it out. -/
def marshalNode (n : Node) : Option JSON :=
  match marshalEdge n.ConnectTo with
  | none => none
  | some edge =>
    some (JSON.object
      (strMember "uid" n.ID ++ intMember "node_id" n.NodeID ++ [("connect_to", edge)]))

/-- The elements of the slice encoded in order; the first error ends the
encoding. -/
def marshalElems : List Node → Option (List JSON)
  | [] => some []
  | n :: rest =>
    match marshalNode n with
    | none => none
    | some j =>
      match marshalElems rest with
      | none => none
      | some js => some (j :: js)

/-- `json.Marshal(nodes)` on the slice of the projection loop.  The slice
starts as `var nodes []Node`, the nil slice, and is only ever appended to, so
it is nil exactly when it has no element; a nil slice is encoded as `null`. -/
def marshalNodes (nodes : List Node) : Option JSON :=
  match nodes with
  | [] => some JSON.null
  | _ :: _ => (marshalElems nodes).map JSON.array

/-- The content of `output.json` after a run, as a JSON tree; `none` when
`json.Marshal` returns an error, on which `log.Fatal` ends the run before
the file is written. -/
def outputArtifact (records : List (List String)) : Option JSON :=
  marshalNodes (importNodes records)

/-! ## The integer texts of the specification -/

/-- The words of the specification for an integer column: `value` is a valid
base-10 signed 64-bit integer denoting `n`, that is an optional sign followed
by one or more decimal digits, whose value `n` lies in `[-2^63, 2^63 - 1]`.
The value of the digits is their base-10 value, most significant digit
first. -/
def IsInt64Text (value : String) (n : Int) : Prop :=
  ∃ (sign digits : List Char),
    value.toList = sign ++ digits ∧
    (sign = [] ∨ sign = ['+'] ∨ sign = ['-']) ∧
    digits ≠ [] ∧
    (∀ c ∈ digits, isDigit c = true) ∧
    n = (if sign = ['-'] then -1 else 1) *
          ((Nat.ofDigits (10 : Nat) (digits.reverse.map digitVal) : Nat) : Int) ∧
    -2 ^ 63 ≤ n ∧ n ≤ 2 ^ 63 - 1

/-! ## The float texts of the specification -/

/-- The magnitude of a finite double as a rational number: `frac * 2^-1074`
for a zero or a subnormal (biased exponent 0), and
`(2^52 + frac) * 2^(expo - 1075)`, that is `(1 + frac / 2^52) * 2^(expo - 1023)`,
for a normal double. -/
def Float64.magnitude (f : Float64) : ℚ :=
  if f.expo = 0 then (f.frac : ℚ) * 2 ^ (-1074 : ℤ)
  else ((2 ^ 52 + f.frac : ℕ) : ℚ) * 2 ^ ((f.expo : ℤ) - 1075)

/-- The words "the denoted 64-bit float": `f` is a finite double whose
magnitude is nearest to `x` among the finite doubles, and on a tie the one
with the even fraction. -/
def IsNearestFloat64 (x : ℚ) (f : Float64) : Prop :=
  f.expo < 2047 ∧ f.frac < 2 ^ 52 ∧
    ∀ g : Float64, g.expo < 2047 → g.frac < 2 ^ 52 →
      |f.magnitude - x| ≤ |g.magnitude - x| ∧
      (|g.magnitude - x| = |f.magnitude - x| → g.magnitude = f.magnitude ∨ f.frac % 2 = 0)

/-- The base-10 value of a list of digit bytes, most significant first. -/
def digitsValue (digits : List Char) : Nat :=
  Nat.ofDigits 10 (digits.reverse.map digitVal)

/-- The exponent part of a number in conventional notation: nothing, for the
exponent 0, or the letter `e` or `E`, an optional sign and one or more
decimal digits. -/
def IsExponentText (expo : List Char) (ex : Int) : Prop :=
  (expo = [] ∧ ex = 0) ∨
  ∃ (e : Char) (esign digits : List Char),
    expo = e :: (esign ++ digits) ∧ (e = 'e' ∨ e = 'E') ∧
    digits ≠ [] ∧ (∀ c ∈ digits, isDigit c = true) ∧
    (((esign = [] ∨ esign = ['+']) ∧ ex = (digitsValue digits : Int)) ∨
      (esign = ['-'] ∧ ex = -(digitsValue digits : Int)))

/-- The words "conventional notation": `value` is an optional sign, the
digits `ip`, optionally a point and the digits `fp`, with at least one digit
in all, and an optional exponent part denoting `ex`; `neg` tells a minus
sign. -/
def IsDecimalText (value : String) (neg : Bool) (ip fp : List Char) (ex : Int) : Prop :=
  ∃ (sign point expo : List Char),
    value.toList = sign ++ (ip ++ (point ++ (fp ++ expo))) ∧
    ((sign = [] ∧ neg = false) ∨ (sign = ['+'] ∧ neg = false) ∨
      (sign = ['-'] ∧ neg = true)) ∧
    (∀ c ∈ ip, isDigit c = true) ∧ (∀ c ∈ fp, isDigit c = true) ∧
    (point = ['.'] ∨ (point = [] ∧ fp = [])) ∧
    ip ++ fp ≠ [] ∧
    IsExponentText expo ex

/-- The magnitude a text in conventional notation denotes: the base-10 value
of its digits, scaled by the powers of ten of the exponent and of the
digits after the point. -/
def decimalValue (ip fp : List Char) (ex : Int) : ℚ :=
  (digitsValue (ip ++ fp) : ℚ) * (10 : ℚ) ^ (ex - (fp.length : ℤ))

/-! ## Values of the library models

The models of `strconv.ParseInt`, `strconv.ParseFloat` and the `%d` verb at
inputs whose Go results are known. -/

/-- The double nearest to 0.1 is `0x3FB999999999999A`. -/
theorem ParseFloat_tenth : ParseFloat "0.1" = some ⟨false, 1019, 0x999999999999A⟩ := by
  decide

/-- A minus sign in front of zero gives the negative zero. -/
theorem ParseFloat_negative_zero : ParseFloat "-0" = some ⟨true, 0, 0⟩ := by decide

/-- A hexadecimal number with its binary exponent: `0x1p-2` is 0.25. -/
theorem ParseFloat_hex_quarter : ParseFloat "0x1p-2" = some ⟨false, 1021, 0⟩ := by decide

/-- Text that is no number is an error, as is the empty text. -/
theorem ParseFloat_not_a_number : ParseFloat "notafloat" = none ∧ ParseFloat "" = none := by
  decide

/-- The two ends of the `int64` range parse, the next integer above does
not. -/
theorem ParseInt_range :
    ParseInt "-9223372036854775808" = some (-9223372036854775808) ∧
    ParseInt "9223372036854775807" = some 9223372036854775807 ∧
    ParseInt "9223372036854775808" = none := by
  decide

/-- Text with a byte that is no digit, a lone sign and the empty text are
errors. -/
theorem ParseInt_not_a_number :
    ParseInt "1x" = none ∧ ParseInt "1.0" = none ∧ ParseInt "-" = none ∧ ParseInt "" = none := by
  decide

/-- The `%d` verb at zero and at the two ends of the `int64` range. -/
theorem formatInt_values :
    formatInt 0 = "0" ∧ formatInt 9223372036854775807 = "9223372036854775807" ∧
    formatInt (-9223372036854775808) = "-9223372036854775808" := by
  decide

/-! ## Lemmas on the comparisons with zero -/

theorem Float64.leZero_of_gtZero (x : Float64) (h : x.gtZero = true) : x.leZero = false := by
  unfold Float64.gtZero at h
  unfold Float64.leZero
  cases hn : x.isNaN <;> cases hs : x.sign <;> cases hz : x.isZero <;> simp_all

theorem Float64.gtZero_of_leZero (x : Float64) (h : x.leZero = true) : x.gtZero = false := by
  cases hg : x.gtZero
  · rfl
  · rw [Float64.leZero_of_gtZero x hg] at h
    exact absurd h (by decide)

/-! ## Lemmas on the parse loop -/

/-- The log handed to an iteration is only ever extended at its end. -/
theorem parseColumn_log_append (idx : Nat) (value : String) (r : CSVRecord)
    (L K : List String) :
    parseColumn idx value ⟨r, L ++ K⟩ =
      ⟨(parseColumn idx value ⟨r, K⟩).csvRecord, L ++ (parseColumn idx value ⟨r, K⟩).log⟩ := by
  rcases idx with _ | _ | _ | _ | _ | _ | _ | _ <;>
    simp only [parseColumn, failColumn] <;> (try split) <;> simp

theorem parseColumns_log_append (record : List String) :
    ∀ (idx : Nat) (r : CSVRecord) (L K : List String),
      parseColumns idx record ⟨r, L ++ K⟩ =
        ⟨(parseColumns idx record ⟨r, K⟩).csvRecord,
          L ++ (parseColumns idx record ⟨r, K⟩).log⟩ := by
  induction record with
  | nil => intro idx r L K; rfl
  | cons value rest ih =>
    intro idx r L K
    simp only [parseColumns]
    rw [parseColumn_log_append idx value r L K]
    exact ih (idx + 1) _ L _

/-- The record parsed in the read loop is the record of `parseRow`, and the
log grows by the lines of `parseRow`. -/
theorem parseColumns_start (record : List String) (L : List String) :
    parseColumns 0 record ⟨CSVRecord.zero, L⟩ =
      ⟨(parseRow record).csvRecord, L ++ (parseRow record).log⟩ := by
  have h := parseColumns_log_append record 0 CSVRecord.zero L []
  simpa [parseRow] using h

/-! ## Lemmas on the read loop and the projection loop -/

theorem readRecord_csvData (st : ImportState) (record : List String) :
    (readRecord st record).csvData =
      st.csvData ++ (if (parseRow record).csvRecord.ParseError = none
        then [(parseRow record).csvRecord] else []) := by
  unfold readRecord
  simp only [parseColumns_start]
  cases h : (parseRow record).csvRecord.ParseError <;> simp

theorem foldl_readRecord_csvData (records : List (List String)) :
    ∀ st : ImportState,
      (records.foldl readRecord st).csvData =
        st.csvData ++ (records.map (fun record => (parseRow record).csvRecord)).filter
          (fun R => R.ParseError.isNone) := by
  induction records with
  | nil => intro st; simp
  | cons record rest ih =>
    intro st
    simp only [List.foldl_cons, List.map_cons]
    rw [ih, readRecord_csvData]
    cases h : (parseRow record).csvRecord.ParseError <;> simp [List.filter_cons, h]

theorem readAll_csvData (records : List (List String)) :
    (readAll records).csvData =
      (records.map (fun record => (parseRow record).csvRecord)).filter
        (fun R => R.ParseError.isNone) := by
  simp [readAll, foldl_readRecord_csvData]

theorem projectRecord_append (nodes : List Node) (csvRecord : CSVRecord) :
    projectRecord nodes csvRecord = nodes ++ projectRow csvRecord := by
  unfold projectRow projectRecord
  cases csvRecord.EdgeReverseCost.gtZero <;> simp

theorem foldl_projectRecord (csvData : List CSVRecord) :
    ∀ nodes : List Node,
      csvData.foldl projectRecord nodes = nodes ++ csvData.flatMap projectRow := by
  induction csvData with
  | nil => intro nodes; simp
  | cons R rest ih =>
    intro nodes
    simp only [List.foldl_cons, List.flatMap_cons]
    rw [ih, projectRecord_append, List.append_assoc]

theorem projectAll_eq_flatMap (csvData : List CSVRecord) :
    projectAll csvData = csvData.flatMap projectRow := by
  simp [projectAll, foldl_projectRecord]

/-- The record set of a run, in closed form. -/
theorem importNodes_eq (records : List (List String)) :
    importNodes records =
      ((records.map (fun record => (parseRow record).csvRecord)).filter
        (fun R => R.ParseError.isNone)).flatMap projectRow := by
  simp [importNodes, projectAll_eq_flatMap, readAll_csvData]

theorem importNodes_single (record : List String) :
    importNodes [record] =
      if (parseRow record).csvRecord.ParseError = none
      then projectRow (parseRow record).csvRecord else [] := by
  rw [importNodes_eq]
  cases h : (parseRow record).csvRecord.ParseError <;> simp [List.filter_cons, h]

theorem importNodes_append (xs ys : List (List String)) :
    importNodes (xs ++ ys) = importNodes xs ++ importNodes ys := by
  simp [importNodes_eq, List.flatMap_append]

/-! ## The error marker through the parse loop -/

theorem columnFails_lt (idx : Nat) (value : String) (h : columnFails idx value = true) :
    idx < 7 := by
  rcases idx with _ | _ | _ | _ | _ | _ | _ | _ <;> simp_all [columnFails]

/-- After one column the marker is set exactly when it was set before or the
column fails. -/
theorem parseColumn_error_isSome (idx : Nat) (value : String) (st : RowState) :
    (parseColumn idx value st).csvRecord.ParseError.isSome =
      (st.csvRecord.ParseError.isSome || columnFails idx value) := by
  rcases idx with _ | _ | _ | _ | _ | _ | _ | _ <;>
    simp only [parseColumn, columnFails, failColumn] <;> (try split) <;> simp_all

theorem parseColumns_error_isSome (record : List String) :
    ∀ (idx : Nat) (st : RowState),
      (parseColumns idx record st).csvRecord.ParseError.isSome = true ↔
        (st.csvRecord.ParseError.isSome = true ∨
          ∃ j value, record[j]? = some value ∧ columnFails (idx + j) value = true) := by
  induction record with
  | nil => intro idx st; simp [parseColumns]
  | cons value rest ih =>
    intro idx st
    simp only [parseColumns]
    rw [ih (idx + 1), parseColumn_error_isSome, Bool.or_eq_true]
    constructor
    · rintro ((h | h) | ⟨j, v, hj, hv⟩)
      · exact Or.inl h
      · exact Or.inr ⟨0, value, by simp, by simpa using h⟩
      · refine Or.inr ⟨j + 1, v, by simpa using hj, ?_⟩
        have : idx + (j + 1) = idx + 1 + j := by omega
        rw [this]; exact hv
    · rintro (h | ⟨j, v, hj, hv⟩)
      · exact Or.inl (Or.inl h)
      · cases j with
        | zero =>
          simp only [List.getElem?_cons_zero, Option.some.injEq] at hj
          subst hj
          exact Or.inl (Or.inr (by simpa using hv))
        | succ j =>
          refine Or.inr ⟨j, v, by simpa using hj, ?_⟩
          have : idx + 1 + j = idx + (j + 1) := by omega
          rw [this]; exact hv

/-- The marker of a parsed row is set exactly when one of its first seven
columns fails coercion. -/
theorem parseRow_error_iff (record : List String) :
    (parseRow record).csvRecord.ParseError ≠ none ↔
      ∃ idx value, idx < 7 ∧ record[idx]? = some value ∧ columnFails idx value = true := by
  have h := parseColumns_error_isSome record 0 ⟨CSVRecord.zero, []⟩
  rw [← Option.isSome_iff_ne_none]
  unfold parseRow
  rw [h]
  constructor
  · rintro (h0 | ⟨j, v, hj, hv⟩)
    · simp [CSVRecord.zero] at h0
    · rw [Nat.zero_add] at hv
      exact ⟨j, v, columnFails_lt j v hv, hj, hv⟩
  · rintro ⟨j, v, _, hj, hv⟩
    exact Or.inr ⟨j, v, hj, by rw [Nat.zero_add]; exact hv⟩

theorem parseColumns_error_stays (record : List String) (idx : Nat) (st : RowState)
    (h : st.csvRecord.ParseError ≠ none) :
    (parseColumns idx record st).csvRecord.ParseError ≠ none := by
  rw [← Option.isSome_iff_ne_none] at h ⊢
  exact (parseColumns_error_isSome record idx st).mpr (Or.inl h)

theorem projectRow_ne_nil (R : CSVRecord) : projectRow R ≠ [] := by
  unfold projectRow projectRecord
  cases R.EdgeReverseCost.gtZero <;> simp

/-! ## The fields through the parse loop -/

/-- A column index above 6 matches no case of the `switch`. -/
theorem parseColumn_ge_seven (idx : Nat) (value : String) (st : RowState) (h : 7 ≤ idx) :
    parseColumn idx value st = st := by
  rcases idx with _ | _ | _ | _ | _ | _ | _ | _ <;> first | omega | rfl

theorem parseColumns_ge_seven (record : List String) :
    ∀ (idx : Nat) (st : RowState), 7 ≤ idx → parseColumns idx record st = st := by
  induction record with
  | nil => intro idx st _; rfl
  | cons value rest ih =>
    intro idx st h
    simp only [parseColumns]
    rw [parseColumn_ge_seven idx value st h]
    exact ih (idx + 1) st (by omega)

/-- The columns from the eighth on change nothing. -/
theorem parseRow_take_seven (record : List String) :
    parseRow record = parseRow (record.take 7) := by
  unfold parseRow
  rcases record with _ | ⟨c0, _ | ⟨c1, _ | ⟨c2, _ | ⟨c3, _ | ⟨c4, _ | ⟨c5, _ | ⟨c6, rest⟩⟩⟩⟩⟩⟩⟩ <;>
    simp [parseColumns, parseColumns_ge_seven]

/-- One iteration writes no field but the one of its column. -/
theorem parseColumn_untouched (idx : Nat) (value : String) (st : RowState) :
    (idx ≠ 0 → (parseColumn idx value st).csvRecord.EdgeID = st.csvRecord.EdgeID) ∧
    (idx ≠ 1 → (parseColumn idx value st).csvRecord.SourceNode = st.csvRecord.SourceNode) ∧
    (idx ≠ 2 → (parseColumn idx value st).csvRecord.TargetNode = st.csvRecord.TargetNode) ∧
    (idx ≠ 3 → (parseColumn idx value st).csvRecord.EdgeCost = st.csvRecord.EdgeCost) ∧
    (idx ≠ 4 →
      (parseColumn idx value st).csvRecord.EdgeReverseCost = st.csvRecord.EdgeReverseCost) ∧
    (idx ≠ 5 → (parseColumn idx value st).csvRecord.EdgeMode = st.csvRecord.EdgeMode) ∧
    (idx ≠ 6 →
      (parseColumn idx value st).csvRecord.EdgeDistanceKM = st.csvRecord.EdgeDistanceKM) := by
  rcases idx with _ | _ | _ | _ | _ | _ | _ | _ <;>
    simp only [parseColumn, failColumn] <;> (try split) <;> simp

/-- The loop writes no field whose column index lies before its start or
after the last column of the record. -/
theorem parseColumns_untouched (record : List String) :
    ∀ (idx : Nat) (st : RowState),
      ((0 < idx ∨ idx + record.length ≤ 0) →
        (parseColumns idx record st).csvRecord.EdgeID = st.csvRecord.EdgeID) ∧
      ((1 < idx ∨ idx + record.length ≤ 1) →
        (parseColumns idx record st).csvRecord.SourceNode = st.csvRecord.SourceNode) ∧
      ((2 < idx ∨ idx + record.length ≤ 2) →
        (parseColumns idx record st).csvRecord.TargetNode = st.csvRecord.TargetNode) ∧
      ((3 < idx ∨ idx + record.length ≤ 3) →
        (parseColumns idx record st).csvRecord.EdgeCost = st.csvRecord.EdgeCost) ∧
      ((4 < idx ∨ idx + record.length ≤ 4) →
        (parseColumns idx record st).csvRecord.EdgeReverseCost =
          st.csvRecord.EdgeReverseCost) ∧
      ((5 < idx ∨ idx + record.length ≤ 5) →
        (parseColumns idx record st).csvRecord.EdgeMode = st.csvRecord.EdgeMode) ∧
      ((6 < idx ∨ idx + record.length ≤ 6) →
        (parseColumns idx record st).csvRecord.EdgeDistanceKM =
          st.csvRecord.EdgeDistanceKM) := by
  induction record with
  | nil => intro idx st; simp [parseColumns]
  | cons value rest ih =>
    intro idx st
    simp only [parseColumns, List.length_cons]
    obtain ⟨i0, i1, i2, i3, i4, i5, i6⟩ := ih (idx + 1) (parseColumn idx value st)
    obtain ⟨s0, s1, s2, s3, s4, s5, s6⟩ := parseColumn_untouched idx value st
    refine ⟨fun h => ?_, fun h => ?_, fun h => ?_, fun h => ?_, fun h => ?_, fun h => ?_,
      fun h => ?_⟩
    · rw [i0 (by omega), s0 (by omega)]
    · rw [i1 (by omega), s1 (by omega)]
    · rw [i2 (by omega), s2 (by omega)]
    · rw [i3 (by omega), s3 (by omega)]
    · rw [i4 (by omega), s4 (by omega)]
    · rw [i5 (by omega), s5 (by omega)]
    · rw [i6 (by omega), s6 (by omega)]

/-- A column that does not fail writes no log line and leaves the marker as
it was. -/
theorem parseColumn_of_not_fails (idx : Nat) (value : String) (st : RowState)
    (h : columnFails idx value = false) :
    (parseColumn idx value st).log = st.log ∧
      (parseColumn idx value st).csvRecord.ParseError = st.csvRecord.ParseError := by
  rcases idx with _ | _ | _ | _ | _ | _ | _ | _ <;>
    simp only [parseColumn, columnFails, failColumn] at h ⊢ <;> (try split) <;> simp_all

theorem parseColumns_log_of_no_failure (record : List String) :
    ∀ (idx : Nat) (st : RowState),
      (∀ j value, record[j]? = some value → columnFails (idx + j) value = false) →
        (parseColumns idx record st).log = st.log := by
  induction record with
  | nil => intro idx st _; rfl
  | cons value rest ih =>
    intro idx st h
    simp only [parseColumns]
    rw [ih (idx + 1)]
    · exact (parseColumn_of_not_fails idx value st (by simpa using h 0 value (by simp))).1
    · intro j v hj
      have := h (j + 1) v (by simpa using hj)
      have e : idx + 1 + j = idx + (j + 1) := by omega
      rw [e]; exact this

/-- An accepted row has written no log line in the parse loop. -/
theorem parseRow_log_of_accepted (record : List String)
    (h : (parseRow record).csvRecord.ParseError = none) : (parseRow record).log = [] := by
  have hno : ¬ ∃ idx value, idx < 7 ∧ record[idx]? = some value ∧
      columnFails idx value = true := by
    rw [← parseRow_error_iff]; simp [h]
  unfold parseRow
  rw [parseColumns_log_of_no_failure record 0]
  intro j v hj
  rw [Nat.zero_add]
  cases hf : columnFails j v
  · rfl
  · exact absurd ⟨j, v, columnFails_lt j v hf, hj, hf⟩ hno

/-! ## Lemmas on the plausibility warnings -/

theorem warnings_append (R : CSVRecord) (L : List String) :
    warnings R L = L ++ warnings R [] := by
  unfold warnings
  cases R.EdgeDistanceKM.leZero <;> cases R.EdgeCost.leZero <;>
    cases R.EdgeReverseCost.leZero <;> simp

theorem readRecord_of_accepted (st : ImportState) (record : List String)
    (h : (parseRow record).csvRecord.ParseError = none) :
    readRecord st record =
      ⟨st.csvData ++ [(parseRow record).csvRecord],
        st.log ++ warnings (parseRow record).csvRecord []⟩ := by
  unfold readRecord
  simp only [parseColumns_start, h, parseRow_log_of_accepted record h, List.append_nil]
  rw [warnings_append]

/-! ## The projector (C1 to C4) -/

/-- C1: for an accepted row `R` (its parse leaves `ParseError` nil) the
records emitted are those the projection loop body appends for `R`; one of
them has `reverse = true` if and only if `R.EdgeReverseCost > 0`; when
`R.EdgeReverseCost <= 0` exactly one record is emitted, with `reverse = false`
and `cost = R.EdgeCost`; when `R.EdgeReverseCost > 0` exactly two are, the
forward one first and the reverse one second. -/
theorem C1_reverse_iff_positive (record : List String)
    (h : (parseRow record).csvRecord.ParseError = none) :
    importNodes [record] = projectRow (parseRow record).csvRecord ∧
    ((∃ n ∈ importNodes [record], n.ConnectTo.Reverse = true) ↔
      (parseRow record).csvRecord.EdgeReverseCost.gtZero = true) ∧
    ((parseRow record).csvRecord.EdgeReverseCost.leZero = true →
      ∃ n, importNodes [record] = [n] ∧ n.ConnectTo.Reverse = false ∧
        n.ConnectTo.Cost = (parseRow record).csvRecord.EdgeCost) ∧
    ((parseRow record).csvRecord.EdgeReverseCost.gtZero = true →
      ∃ f v, importNodes [record] = [f, v] ∧ f.ConnectTo.Reverse = false ∧
        v.ConnectTo.Reverse = true) := by
  have hrow : importNodes [record] = projectRow (parseRow record).csvRecord := by
    rw [importNodes_single, if_pos h]
  rw [hrow]
  refine ⟨rfl, ?_, ?_, ?_⟩
  · cases hg : (parseRow record).csvRecord.EdgeReverseCost.gtZero <;>
      simp [projectRow, projectRecord, hg, sourceNode, SourceNodeReverse]
  · intro hle
    have hg := Float64.gtZero_of_leZero _ hle
    exact ⟨sourceNode (parseRow record).csvRecord,
      by simp [projectRow, projectRecord, hg], rfl, rfl⟩
  · intro hg
    exact ⟨sourceNode (parseRow record).csvRecord,
      SourceNodeReverse (parseRow record).csvRecord,
      by simp [projectRow, projectRecord, hg], rfl, rfl⟩

/-- C1 at the accepted row `10,1,2,5.0,4.5,car,1.2`. -/
theorem C1_reverse_iff_positive_witness :
    (parseRow ["10", "1", "2", "5.0", "4.5", "car", "1.2"]).csvRecord.ParseError = none ∧
    ∃ f v, importNodes [["10", "1", "2", "5.0", "4.5", "car", "1.2"]] = [f, v] ∧
      f.ConnectTo.Reverse = false ∧ v.ConnectTo.Reverse = true :=
  ⟨by decide,
    (C1_reverse_iff_positive ["10", "1", "2", "5.0", "4.5", "car", "1.2"]
      (by decide)).2.2.2 (by decide)⟩

/-- C2: for an accepted row `R` the first record emitted is the forward
projection: `uid` is "_:" followed by the decimal form of `R.SourceNode`,
`node_id` is `R.SourceNode`, the edge has `uid` "_:" followed by the decimal
form of `R.TargetNode`, `node_id = R.TargetNode`, `edge_id = R.EdgeID`,
`reverse = false`, `cost = R.EdgeCost`, `distance = R.EdgeDistanceKM` and
`mode = R.EdgeMode`.  Scenario S1: the row `10,1,2,5.0,0,car,1.2` yields
exactly that one record, with cost 5 and distance the double nearest to
1.2. -/
theorem C2_forward_projection (record : List String)
    (h : (parseRow record).csvRecord.ParseError = none) :
    (∃ rest, importNodes [record] =
      { ID := "_:" ++ formatInt (parseRow record).csvRecord.SourceNode,
        NodeID := (parseRow record).csvRecord.SourceNode,
        ConnectTo :=
          { TargetID := "_:" ++ formatInt (parseRow record).csvRecord.TargetNode,
            NodeID := (parseRow record).csvRecord.TargetNode,
            EdgeID := (parseRow record).csvRecord.EdgeID,
            Reverse := false,
            Cost := (parseRow record).csvRecord.EdgeCost,
            Distance := (parseRow record).csvRecord.EdgeDistanceKM,
            Mode := (parseRow record).csvRecord.EdgeMode } } :: rest) ∧
    importNodes [["10", "1", "2", "5.0", "0", "car", "1.2"]] =
      [{ ID := "_:1", NodeID := 1,
         ConnectTo :=
          { TargetID := "_:2", NodeID := 2, EdgeID := 10, Reverse := false,
            Cost := ⟨false, 1025, 2 ^ 50⟩,
            Distance := ⟨false, 1023, 0x3333333333333⟩,
            Mode := "car" } }] := by
  refine ⟨?_, by decide⟩
  rw [importNodes_single, if_pos h]
  cases hg : (parseRow record).csvRecord.EdgeReverseCost.gtZero <;>
    simp [projectRow, projectRecord, hg, sourceNode, sprintfUid]

/-- C2 at the accepted row `7,-3,4,2.5,1,bike,0.25`. -/
theorem C2_forward_projection_witness :
    (parseRow ["7", "-3", "4", "2.5", "1", "bike", "0.25"]).csvRecord.ParseError = none ∧
    ∃ rest, importNodes [["7", "-3", "4", "2.5", "1", "bike", "0.25"]] =
      { ID := "_:-3", NodeID := -3,
        ConnectTo :=
          { TargetID := "_:4", NodeID := 4, EdgeID := 7, Reverse := false,
            Cost := ⟨false, 1024, 2 ^ 50⟩,
            Distance := ⟨false, 1021, 0⟩,
            Mode := "bike" } } :: rest := by
  have hw := (C2_forward_projection ["7", "-3", "4", "2.5", "1", "bike", "0.25"]
    (by decide)).1
  refine ⟨by decide, ?_⟩
  obtain ⟨rest, hrest⟩ := hw
  refine ⟨rest, hrest.trans ?_⟩
  congr 1

/-- C3: for an accepted row `R` with `R.EdgeReverseCost > 0` two records are
emitted, and the second, the reverse record, has the endpoints of the first,
the forward record, swapped (its `uid` and `node_id` are the forward record's
target `uid` and `node_id`, and the other way round), `reverse = true`,
`cost = R.EdgeReverseCost`, and the `edge_id`, `distance` and `mode` of the
forward record. -/
theorem C3_reverse_projection (record : List String)
    (h : (parseRow record).csvRecord.ParseError = none)
    (hpos : (parseRow record).csvRecord.EdgeReverseCost.gtZero = true) :
    ∃ f v, importNodes [record] = [f, v] ∧
      f.ConnectTo.Reverse = false ∧
      v.ID = f.ConnectTo.TargetID ∧ v.NodeID = f.ConnectTo.NodeID ∧
      v.ConnectTo.TargetID = f.ID ∧ v.ConnectTo.NodeID = f.NodeID ∧
      v.ConnectTo.Reverse = true ∧
      v.ConnectTo.Cost = (parseRow record).csvRecord.EdgeReverseCost ∧
      v.ConnectTo.EdgeID = f.ConnectTo.EdgeID ∧
      v.ConnectTo.Distance = f.ConnectTo.Distance ∧
      v.ConnectTo.Mode = f.ConnectTo.Mode := by
  refine ⟨sourceNode (parseRow record).csvRecord,
    SourceNodeReverse (parseRow record).csvRecord, ?_,
    rfl, rfl, rfl, rfl, rfl, rfl, rfl, rfl, rfl, rfl⟩
  rw [importNodes_single, if_pos h]
  simp [projectRow, projectRecord, hpos]

/-- C3 at the row of scenario S2, `10,1,2,5.0,4.5,car,1.2`: the reverse
record is the second of the two records. -/
theorem C3_reverse_projection_witness :
    (parseRow ["10", "1", "2", "5.0", "4.5", "car", "1.2"]).csvRecord.ParseError = none ∧
    (parseRow ["10", "1", "2", "5.0", "4.5", "car", "1.2"]).csvRecord.EdgeReverseCost.gtZero
      = true ∧
    ∃ f v, importNodes [["10", "1", "2", "5.0", "4.5", "car", "1.2"]] = [f, v] ∧
      f.ConnectTo.Reverse = false ∧
      v.ID = f.ConnectTo.TargetID ∧ v.NodeID = f.ConnectTo.NodeID ∧
      v.ConnectTo.TargetID = f.ID ∧ v.ConnectTo.NodeID = f.NodeID ∧
      v.ConnectTo.Reverse = true ∧
      v.ConnectTo.Cost =
        (parseRow ["10", "1", "2", "5.0", "4.5", "car", "1.2"]).csvRecord.EdgeReverseCost ∧
      v.ConnectTo.EdgeID = f.ConnectTo.EdgeID ∧
      v.ConnectTo.Distance = f.ConnectTo.Distance ∧
      v.ConnectTo.Mode = f.ConnectTo.Mode :=
  ⟨by decide, by decide,
    C3_reverse_projection ["10", "1", "2", "5.0", "4.5", "car", "1.2"] (by decide) (by decide)⟩

/-- C4: the record set of a run is the concatenation, in input order, of the
projections of the accepted rows only; the projection of a row is its forward
record, followed at once by its reverse record if it has one; the records of
an earlier part of the input all come before those of a later part.
Scenario S6: rows A (forward only), B (both directions), C (forward only)
give A-forward, B-forward, B-reverse, C-forward. -/
theorem C4_input_order (records : List (List String)) :
    importNodes records =
      ((records.map (fun record => (parseRow record).csvRecord)).filter
        (fun R => R.ParseError.isNone)).flatMap projectRow ∧
    (∀ R : CSVRecord, projectRow R = [sourceNode R] ∨
      projectRow R = [sourceNode R, SourceNodeReverse R]) ∧
    (∀ earlier later : List (List String),
      importNodes (earlier ++ later) = importNodes earlier ++ importNodes later) ∧
    (importNodes [["1", "1", "2", "5.0", "0", "car", "1.2"],
                  ["2", "2", "3", "6.0", "4.5", "car", "2.5"],
                  ["3", "3", "4", "7.0", "-1", "car", "0.5"]]).map
        (fun n => (n.ConnectTo.EdgeID, n.ConnectTo.Reverse)) =
      [(1, false), (2, false), (2, true), (3, false)] := by
  refine ⟨importNodes_eq records, ?_, importNodes_append, by decide⟩
  intro R
  cases hg : R.EdgeReverseCost.gtZero <;> simp [projectRow, projectRecord, hg]

/-! ## The parser (C5 to C9) -/

/-- C5: a row contributes zero records if and only if at least one of its
first seven columns fails coercion; once the marker of a row is set, no
later column of the row clears it; scenarios S3 (`notafloat` in column 3) and
S5 (empty mode) yield no record. -/
theorem C5_rejected_iff_column_fails (record : List String) :
    (importNodes [record] = [] ↔
      ∃ idx value, idx < 7 ∧ record[idx]? = some value ∧ columnFails idx value = true) ∧
    (∀ (idx : Nat) (later : List String) (st : RowState),
      st.csvRecord.ParseError ≠ none →
        (parseColumns idx later st).csvRecord.ParseError ≠ none) ∧
    importNodes [["10", "1", "2", "notafloat", "4.5", "car", "1.2"]] = [] ∧
    importNodes [["10", "1", "2", "5.0", "4.5", "", "1.2"]] = [] := by
  refine ⟨?_, fun idx later st h => parseColumns_error_stays later idx st h,
    by decide, by decide⟩
  rw [← parseRow_error_iff, importNodes_single]
  by_cases h : (parseRow record).csvRecord.ParseError = none
  · simp [h, projectRow_ne_nil]
  · simp [h]

/-- C6, evaluation at the row `x,y,2,5.0,4.5,car,1.2`, whose first failing
column is column 0: the parse loop goes on after the failure.  It writes a
second log line for column 1, and it coerces and stores the columns 2 to 6. -/
theorem C6_parser_goes_on_after_failure :
    columnFails 0 "x" = true ∧
    (parseRow ["x", "y", "2", "5.0", "4.5", "car", "1.2"]).log =
      ["Unexpected type in column 0", "Unexpected type in column 1"] ∧
    (parseRow ["x", "y", "2", "5.0", "4.5", "car", "1.2"]).csvRecord.TargetNode = 2 ∧
    (parseRow ["x", "y", "2", "5.0", "4.5", "car", "1.2"]).csvRecord.EdgeCost =
      ⟨false, 1025, 2 ^ 50⟩ ∧
    (parseRow ["x", "y", "2", "5.0", "4.5", "car", "1.2"]).csvRecord.EdgeMode = "car" := by
  decide

/-- C7, evaluation at the row `x,1,2,5.0,4.5,,1.2`, whose first failing
column is column 0 and whose mode column is empty: the marker left on the
row is the one of the mode column, the last failing column, and both log
lines are written. -/
theorem C7_marker_of_last_failing_column :
    columnFails 0 "x" = true ∧
    (parseRow ["x", "1", "2", "5.0", "4.5", "", "1.2"]).csvRecord.ParseError =
      some "empty edge mode value" ∧
    (parseRow ["x", "1", "2", "5.0", "4.5", "", "1.2"]).log =
      ["Unexpected type in column 0", "Unexpected type in column 5"] := by
  decide

/-- C8 fails at the row `10,1,2` of three columns: it carries no marker, it
does not carry seven coerced values, its `EdgeMode` is empty, and the one
record emitted for it has an empty mode. -/
theorem C8_short_row_counterexample :
    (parseRow ["10", "1", "2"]).csvRecord.ParseError = none ∧
    (parseRow ["10", "1", "2"]).csvRecord.EdgeMode = "" ∧
    importNodes [["10", "1", "2"]] =
      [{ ID := "_:1", NodeID := 1,
         ConnectTo :=
          { TargetID := "_:2", NodeID := 2, EdgeID := 10, Reverse := false,
            Cost := Float64.zero, Distance := Float64.zero, Mode := "" } }] := by
  decide

/-- C8, amended: a parsed row of at least seven columns either carries a
marker or carries the seven coerced values of its first seven columns; an
accepted row of at least six columns has a non-empty `EdgeMode`, the text
of its mode column, and so has every record emitted for it. -/
theorem C8_marker_or_all_seven (record : List String) :
    (7 ≤ record.length →
      (parseRow record).csvRecord.ParseError ≠ none ∨
      (record[0]?.bind ParseInt = some (parseRow record).csvRecord.EdgeID ∧
       record[1]?.bind ParseInt = some (parseRow record).csvRecord.SourceNode ∧
       record[2]?.bind ParseInt = some (parseRow record).csvRecord.TargetNode ∧
       record[3]?.bind ParseFloat = some (parseRow record).csvRecord.EdgeCost ∧
       record[4]?.bind ParseFloat = some (parseRow record).csvRecord.EdgeReverseCost ∧
       record[5]? = some (parseRow record).csvRecord.EdgeMode ∧
       record[6]?.bind ParseFloat = some (parseRow record).csvRecord.EdgeDistanceKM)) ∧
    (6 ≤ record.length → (parseRow record).csvRecord.ParseError = none →
      record[5]? = some (parseRow record).csvRecord.EdgeMode ∧
      (parseRow record).csvRecord.EdgeMode ≠ "" ∧
      ∀ n ∈ importNodes [record], n.ConnectTo.Mode ≠ "") := by
  constructor
  · intro hlen
    by_cases hacc : (parseRow record).csvRecord.ParseError = none
    swap
    · exact Or.inl hacc
    right
    have hno : ∀ idx value, record[idx]? = some value → columnFails idx value = false := by
      intro idx value hv
      cases hf : columnFails idx value
      · rfl
      · exact absurd hacc
          ((parseRow_error_iff record).mpr ⟨idx, value, columnFails_lt idx value hf, hv, hf⟩)
    rcases record with _ | ⟨c0, _ | ⟨c1, _ | ⟨c2, _ | ⟨c3, _ | ⟨c4, _ | ⟨c5, _ | ⟨c6, rest⟩⟩⟩⟩⟩⟩⟩ <;>
      simp at hlen
    have h0 := hno 0 c0 (by simp)
    have h1 := hno 1 c1 (by simp)
    have h2 := hno 2 c2 (by simp)
    have h3 := hno 3 c3 (by simp)
    have h4 := hno 4 c4 (by simp)
    have h5 := hno 5 c5 (by simp)
    have h6 := hno 6 c6 (by simp)
    simp only [columnFails, Option.isNone_eq_false_iff, Option.isSome_iff_exists,
      decide_eq_false_iff_not] at h0 h1 h2 h3 h4 h5 h6
    obtain ⟨v0, h0⟩ := h0
    obtain ⟨v1, h1⟩ := h1
    obtain ⟨v2, h2⟩ := h2
    obtain ⟨v3, h3⟩ := h3
    obtain ⟨v4, h4⟩ := h4
    obtain ⟨v6, h6⟩ := h6
    simp [parseRow, parseColumns, parseColumn, parseColumns_ge_seven, h0, h1, h2, h3, h4, h5,
      h6]
  · intro hlen hacc
    rcases record with _ | ⟨c0, _ | ⟨c1, _ | ⟨c2, _ | ⟨c3, _ | ⟨c4, _ | ⟨c5, rest⟩⟩⟩⟩⟩⟩ <;>
      simp at hlen
    have h5 : c5 ≠ "" := by
      intro hc
      exact absurd hacc
        ((parseRow_error_iff _).mpr ⟨5, c5, by omega, by simp, by simp [columnFails, hc]⟩)
    have hmode : (parseRow (c0 :: c1 :: c2 :: c3 :: c4 :: c5 :: rest)).csvRecord.EdgeMode
        = c5 := by
      unfold parseRow
      simp only [parseColumns]
      rw [(parseColumns_untouched rest 6 _).2.2.2.2.2.1 (Or.inl (by omega))]
      simp [parseColumn, h5]
    refine ⟨by simp [hmode], by rw [hmode]; exact h5, ?_⟩
    intro n hn
    rw [importNodes_single, if_pos hacc] at hn
    have hn2 : n.ConnectTo.Mode =
        (parseRow (c0 :: c1 :: c2 :: c3 :: c4 :: c5 :: rest)).csvRecord.EdgeMode := by
      unfold projectRow projectRecord at hn
      cases hg : (parseRow (c0 :: c1 :: c2 :: c3 :: c4 :: c5 :: rest)).csvRecord.EdgeReverseCost.gtZero <;>
        simp [hg] at hn
      · rw [hn]; rfl
      · rcases hn with hn | hn <;> rw [hn] <;> rfl
    rw [hn2, hmode]
    exact h5

/-- C8 (amended) at the accepted row `10,1,2,5.0,4.5,car,1.2`. -/
theorem C8_marker_or_all_seven_witness :
    7 ≤ ["10", "1", "2", "5.0", "4.5", "car", "1.2"].length ∧
    (parseRow ["10", "1", "2", "5.0", "4.5", "car", "1.2"]).csvRecord.ParseError = none ∧
    (["10", "1", "2", "5.0", "4.5", "car", "1.2"][5]? =
        some (parseRow ["10", "1", "2", "5.0", "4.5", "car", "1.2"]).csvRecord.EdgeMode ∧
      (parseRow ["10", "1", "2", "5.0", "4.5", "car", "1.2"]).csvRecord.EdgeMode ≠ "" ∧
      ∀ n ∈ importNodes [["10", "1", "2", "5.0", "4.5", "car", "1.2"]],
        n.ConnectTo.Mode ≠ "") :=
  ⟨by decide, by decide,
    (C8_marker_or_all_seven ["10", "1", "2", "5.0", "4.5", "car", "1.2"]).2
      (by decide) (by decide)⟩

/-- C9: a row of fewer than seven columns whose present columns all coerce
gets no marker and is accepted (appended to `csvData`), and the fields of
its missing columns hold their zero values; the parse of any row, record,
marker and log, is that of the row cut to its first seven columns. -/
theorem C9_short_and_long_rows (record : List String) :
    (record.length < 7 →
      (∀ idx value, record[idx]? = some value → columnFails idx value = false) →
      (parseRow record).csvRecord.ParseError = none ∧
      (∀ st : ImportState,
        (readRecord st record).csvData = st.csvData ++ [(parseRow record).csvRecord]) ∧
      (record.length ≤ 0 → (parseRow record).csvRecord.EdgeID = 0) ∧
      (record.length ≤ 1 → (parseRow record).csvRecord.SourceNode = 0) ∧
      (record.length ≤ 2 → (parseRow record).csvRecord.TargetNode = 0) ∧
      (record.length ≤ 3 → (parseRow record).csvRecord.EdgeCost = Float64.zero) ∧
      (record.length ≤ 4 → (parseRow record).csvRecord.EdgeReverseCost = Float64.zero) ∧
      (record.length ≤ 5 → (parseRow record).csvRecord.EdgeMode = "") ∧
      (record.length ≤ 6 → (parseRow record).csvRecord.EdgeDistanceKM = Float64.zero)) ∧
    parseRow record = parseRow (record.take 7) := by
  refine ⟨?_, parseRow_take_seven record⟩
  intro _ hno
  have hacc : (parseRow record).csvRecord.ParseError = none := by
    by_contra hne
    obtain ⟨idx, value, _, hv, hf⟩ := (parseRow_error_iff record).mp hne
    rw [hno idx value hv] at hf
    exact absurd hf (by decide)
  obtain ⟨u0, u1, u2, u3, u4, u5, u6⟩ :=
    parseColumns_untouched record 0 ⟨CSVRecord.zero, []⟩
  refine ⟨hacc, fun st => ?_, fun h => ?_, fun h => ?_, fun h => ?_, fun h => ?_,
    fun h => ?_, fun h => ?_, fun h => ?_⟩
  · rw [readRecord_of_accepted st record hacc]
  · exact u0 (Or.inr (by omega))
  · exact u1 (Or.inr (by omega))
  · exact u2 (Or.inr (by omega))
  · exact u3 (Or.inr (by omega))
  · exact u4 (Or.inr (by omega))
  · exact u5 (Or.inr (by omega))
  · exact u6 (Or.inr (by omega))

/-- C9 at the three-column row `10,1,2`: accepted, with zero cost, reverse
cost and distance and an empty mode. -/
theorem C9_short_and_long_rows_witness :
    ["10", "1", "2"].length < 7 ∧
    (parseRow ["10", "1", "2"]).csvRecord.ParseError = none ∧
    (readRecord ⟨[], []⟩ ["10", "1", "2"]).csvData = [(parseRow ["10", "1", "2"]).csvRecord] ∧
    (parseRow ["10", "1", "2"]).csvRecord.EdgeCost = Float64.zero ∧
    (parseRow ["10", "1", "2"]).csvRecord.EdgeReverseCost = Float64.zero ∧
    (parseRow ["10", "1", "2"]).csvRecord.EdgeMode = "" ∧
    (parseRow ["10", "1", "2"]).csvRecord.EdgeDistanceKM = Float64.zero := by
  have hw := (C9_short_and_long_rows ["10", "1", "2"]).1 (by decide) (by
    intro idx value hv
    rcases idx with _ | _ | _ | _ <;> simp at hv <;> subst hv <;> decide)
  exact ⟨by decide, hw.1, by simpa using hw.2.1 ⟨[], []⟩, hw.2.2.2.2.2.1 (by decide),
    hw.2.2.2.2.2.2.1 (by decide), hw.2.2.2.2.2.2.2.1 (by decide),
    hw.2.2.2.2.2.2.2.2 (by decide)⟩

/-! ## The validator (C10) -/

/-- C10: for an accepted row the read loop appends the parsed record to
`csvData` as it is, whatever it logs, and the lines it logs for the row are
warnings only: "No distance" is among them if and only if
`EdgeDistanceKM <= 0`, "No cost" if and only if `EdgeCost <= 0`, and
"No reverse Edge" if and only if `EdgeReverseCost <= 0`.  Scenario S4: the
row `10,1,2,5.0,0,car,0` logs "No distance" and "No reverse Edge" and yields
one record. -/
theorem C10_warnings (st : ImportState) (record : List String)
    (h : (parseRow record).csvRecord.ParseError = none) :
    (readRecord st record).csvData = st.csvData ++ [(parseRow record).csvRecord] ∧
    (∃ W : List String, (readRecord st record).log = st.log ++ W ∧
      ("No distance" ∈ W ↔ (parseRow record).csvRecord.EdgeDistanceKM.leZero = true) ∧
      ("No cost" ∈ W ↔ (parseRow record).csvRecord.EdgeCost.leZero = true) ∧
      ("No reverse Edge" ∈ W ↔ (parseRow record).csvRecord.EdgeReverseCost.leZero = true) ∧
      (∀ l ∈ W, l = "No distance" ∨ l = "No cost" ∨ l = "No reverse Edge")) ∧
    (readAll [["10", "1", "2", "5.0", "0", "car", "0"]]).log =
      ["No distance", "No reverse Edge"] ∧
    (importNodes [["10", "1", "2", "5.0", "0", "car", "0"]]).length = 1 := by
  rw [readRecord_of_accepted st record h]
  refine ⟨rfl, ⟨warnings (parseRow record).csvRecord [], rfl, ?_⟩, by decide, by decide⟩
  unfold warnings
  cases (parseRow record).csvRecord.EdgeDistanceKM.leZero <;>
    cases (parseRow record).csvRecord.EdgeCost.leZero <;>
    cases (parseRow record).csvRecord.EdgeReverseCost.leZero <;>
    simp

/-- C10 at the accepted row `10,1,2,0,4.5,car,1.2` after an earlier log line:
the row is appended and "No cost" is the one line logged for it. -/
theorem C10_warnings_witness :
    (parseRow ["10", "1", "2", "0", "4.5", "car", "1.2"]).csvRecord.ParseError = none ∧
    (readRecord ⟨[], ["No distance"]⟩ ["10", "1", "2", "0", "4.5", "car", "1.2"]).csvData =
      [] ++ [(parseRow ["10", "1", "2", "0", "4.5", "car", "1.2"]).csvRecord] ∧
    (readRecord ⟨[], ["No distance"]⟩ ["10", "1", "2", "0", "4.5", "car", "1.2"]).log =
      ["No distance", "No cost"] :=
  ⟨by decide,
    (C10_warnings ⟨[], ["No distance"]⟩ ["10", "1", "2", "0", "4.5", "car", "1.2"]
      (by decide)).1,
    by decide⟩

/-! ## The `%d` verb read back -/

theorem digitChar_spec :
    ∀ d, d < 10 → isDigit (digitChar d) = true ∧ digitVal (digitChar d) = d := by
  decide

theorem fmtDigits_acc (fuel : Nat) :
    ∀ (u : Nat) (acc : List Char), fmtDigits fuel u acc = fmtDigits fuel u [] ++ acc := by
  induction fuel with
  | zero => intro u acc; rfl
  | succ fuel ih =>
    intro u acc
    simp only [fmtDigits]
    split
    · simp
    · rw [ih (u / 10) (digitChar (u % 10) :: acc), ih (u / 10) [digitChar (u % 10)]]
      simp

theorem parseDigits_append (xs : List Char) :
    ∀ (ys : List Char) (n : Nat),
      parseDigits (xs ++ ys) n = (parseDigits xs n).bind (parseDigits ys) := by
  induction xs with
  | nil => intro ys n; rfl
  | cons c cs ih =>
    intro ys n
    simp only [List.cons_append, parseDigits]
    split
    · exact ih ys _
    · rfl

/-- The digits the `%d` verb writes for `u` read back as `u`. -/
theorem parseDigits_fmtDigits (fuel : Nat) :
    ∀ u, u < fuel → parseDigits (fmtDigits fuel u []) 0 = some u := by
  induction fuel with
  | zero => intro u h; omega
  | succ fuel ih =>
    intro u h
    simp only [fmtDigits]
    split
    · rename_i hu
      obtain ⟨h1, h2⟩ := digitChar_spec u hu
      simp [parseDigits, h1, h2]
    · rename_i hu
      obtain ⟨h1, h2⟩ := digitChar_spec (u % 10) (Nat.mod_lt _ (by decide))
      rw [fmtDigits_acc, parseDigits_append, ih (u / 10) (by omega)]
      simp only [Option.some_bind, parseDigits, h1, h2, if_true]
      congr 1
      omega

theorem fmtDigits_ne_nil (fuel u : Nat) (acc : List Char) :
    fmtDigits (fuel + 1) u acc ≠ [] := by
  simp only [fmtDigits]
  split
  · simp
  · rw [fmtDigits_acc]; simp

/-- The first byte of the digits written is a digit. -/
theorem fmtDigits_head (u : Nat) :
    ∃ c cs, fmtDigits (u + 1) u [] = c :: cs ∧ isDigit c = true := by
  have hp := parseDigits_fmtDigits (u + 1) u (by omega)
  rcases hl : fmtDigits (u + 1) u [] with _ | ⟨c, cs⟩
  · exact absurd hl (fmtDigits_ne_nil u u [])
  · refine ⟨c, cs, rfl, ?_⟩
    rw [hl] at hp
    simp only [parseDigits] at hp
    by_contra hc
    simp [hc] at hp

theorem fmtDigits_injective (m n : Nat)
    (h : fmtDigits (m + 1) m [] = fmtDigits (n + 1) n []) : m = n := by
  have hm := parseDigits_fmtDigits (m + 1) m (by omega)
  have hn := parseDigits_fmtDigits (n + 1) n (by omega)
  rw [h, hn] at hm
  exact (Option.some.inj hm).symm

/-- The `%d` verb is injective. -/
theorem formatInt_injective (m n : Int) (h : formatInt m = formatInt n) : m = n := by
  unfold formatInt at h
  have hl := congrArg String.data h
  simp only at hl
  obtain ⟨cm, csm, hcm, hdm⟩ := fmtDigits_head m.natAbs
  obtain ⟨cn, csn, hcn, hdn⟩ := fmtDigits_head n.natAbs
  by_cases hm : m < 0 <;> by_cases hn : n < 0
  · simp only [hm, hn, if_true, List.cons_append, List.nil_append, List.cons.injEq,
      true_and] at hl
    have := fmtDigits_injective _ _ hl
    omega
  · simp only [hm, hn, if_true, if_false, List.cons_append, List.nil_append] at hl
    rw [hcn] at hl
    have hc : cn = '-' := (List.cons.inj hl).1.symm
    rw [hc] at hdn
    exact absurd hdn (by decide)
  · simp only [hm, hn, if_true, if_false, List.cons_append, List.nil_append] at hl
    rw [hcm] at hl
    have hc : cm = '-' := (List.cons.inj hl).1
    rw [hc] at hdm
    exact absurd hdm (by decide)
  · simp only [hm, hn, if_false, List.nil_append] at hl
    have := fmtDigits_injective _ _ hl
    omega

theorem sprintfUid_injective (m n : Int) (h : sprintfUid m = sprintfUid n) : m = n := by
  apply formatInt_injective
  unfold sprintfUid at h
  have hl := congrArg String.data h
  simp only [String.data_append, List.append_cancel_left_eq] at hl
  exact String.ext hl


theorem formatInt_negative (k : Int) (h : k < 0) : formatInt k = "-" ++ formatInt (-k) := by
  have h2 : ¬ (-k < 0) := by omega
  unfold formatInt
  simp only [h, h2, if_true, if_false, Int.natAbs_neg]
  rfl

theorem ParseInt_cons (c : Char) (cs : List Char) :
    ParseInt (String.mk (c :: cs)) =
      if c = '+' then (parseUint cs).bind (rangeInt64 false)
      else if c = '-' then (parseUint cs).bind (rangeInt64 true)
      else (parseUint (c :: cs)).bind (rangeInt64 false) := rfl

/-- The text the `%d` verb writes for an `int64` reads back, with
`strconv.ParseInt`, as the same integer. -/
theorem ParseInt_formatInt (k : Int) (hlo : -2 ^ 63 ≤ k) (hhi : k < 2 ^ 63) :
    ParseInt (formatInt k) = some k := by
  obtain ⟨c, cs, hc, hd⟩ := fmtDigits_head k.natAbs
  have hp := parseDigits_fmtDigits (k.natAbs + 1) k.natAbs (by omega)
  have hplus : c ≠ '+' := by
    intro e; rw [e] at hd; exact absurd hd (by decide)
  have hminus : c ≠ '-' := by
    intro e; rw [e] at hd; exact absurd hd (by decide)
  unfold formatInt
  rw [hc] at hp ⊢
  by_cases hk : k < 0
  · have hle : ¬ (k.natAbs > 2 ^ 63) := by omega
    simp only [hk, if_true, List.cons_append, List.nil_append]
    rw [ParseInt_cons]
    simp only [if_neg (show ¬ ('-' = '+') by decide), if_true, parseUint, hp,
      Option.some_bind, rangeInt64, if_neg hle, Option.some.injEq]
    omega
  · have hlt : ¬ (k.natAbs ≥ 2 ^ 63) := by omega
    simp only [hk, if_false, List.nil_append]
    rw [ParseInt_cons]
    simp only [if_neg hplus, if_neg hminus, parseUint, hp, Option.some_bind, rangeInt64,
      if_neg hlt, Option.some.injEq, Bool.false_eq_true, if_false]
    omega

/-- A record of a run is the forward node of an accepted row or the reverse
node of an accepted row with `EdgeReverseCost > 0`. -/
theorem mem_importNodes (records : List (List String)) (n : Node)
    (h : n ∈ importNodes records) :
    ∃ R ∈ (readAll records).csvData,
      n = sourceNode R ∨ (R.EdgeReverseCost.gtZero = true ∧ n = SourceNodeReverse R) := by
  unfold importNodes at h
  rw [projectAll_eq_flatMap, List.mem_flatMap] at h
  obtain ⟨R, hR, hn⟩ := h
  refine ⟨R, hR, ?_⟩
  unfold projectRow projectRecord at hn
  cases hg : R.EdgeReverseCost.gtZero <;> simp [hg] at hn
  · exact Or.inl hn
  · rcases hn with hn | hn
    · exact Or.inl hn
    · exact Or.inr ⟨rfl, hn⟩


/-! ## The digit loop and the base-10 value -/

/-- The digit loop succeeds exactly on digits, with the base-10 value of the
digits added to the shifted start value. -/
theorem parseDigits_eq_some (cs : List Char) :
    ∀ (n m : Nat), parseDigits cs n = some m ↔
      ((∀ c ∈ cs, isDigit c = true) ∧
        m = n * 10 ^ cs.length + Nat.ofDigits 10 (cs.reverse.map digitVal)) := by
  induction cs with
  | nil =>
    intro n m
    simp only [parseDigits, Option.some.injEq, List.not_mem_nil, false_implies, implies_true,
      true_and, List.length_nil, pow_zero, mul_one, List.reverse_nil, List.map_nil,
      Nat.ofDigits_nil, add_zero]
    exact eq_comm
  | cons c cs ih =>
    intro n m
    simp only [parseDigits]
    by_cases hc : isDigit c = true
    · simp only [hc, if_true, ih, List.mem_cons, forall_eq_or_imp, true_and,
        List.reverse_cons, List.map_append, List.map_cons, List.map_nil, Nat.ofDigits_append,
        Nat.ofDigits_singleton, List.length_map, List.length_reverse, List.length_cons]
      constructor
      · rintro ⟨h1, h2⟩
        refine ⟨h1, ?_⟩
        rw [h2]; ring
      · rintro ⟨h1, h2⟩
        refine ⟨h1, ?_⟩
        rw [h2]; ring
    · simp [hc]

/-! ## Placeholder keys (C11, C17) -/

/-- C11: in the record set of any run every record has
`uid = derive(node_id)` and, in its edge, `uid = derive(node_id)`, where
`derive(n)` is "_:" followed by the decimal representation of `n`: for a
negative `n` a minus sign and the representation of `-n`, for any `n` of the
`int64` range the text that `strconv.ParseInt` reads back as `n`, and for a
non-negative `n` one or more digits, and digits only, whose base-10 value is
`n`. -/
theorem C11_placeholder_of_node_id (records : List (List String)) :
    (∀ n ∈ importNodes records,
      n.ID = "_:" ++ formatInt n.NodeID ∧
      n.ConnectTo.TargetID = "_:" ++ formatInt n.ConnectTo.NodeID) ∧
    (∀ k : Int, k < 0 → formatInt k = "-" ++ formatInt (-k)) ∧
    (∀ k : Int, -2 ^ 63 ≤ k → k < 2 ^ 63 → ParseInt (formatInt k) = some k) ∧
    (∀ u : Nat, ∃ digits : List Char, formatInt (u : Int) = String.mk digits ∧
      digits ≠ [] ∧ (∀ c ∈ digits, isDigit c = true) ∧
      Nat.ofDigits 10 (digits.reverse.map digitVal) = u) := by
  refine ⟨?_, formatInt_negative, ParseInt_formatInt, ?_⟩
  · intro n hn
    obtain ⟨R, _, h | ⟨_, h⟩⟩ := mem_importNodes records n hn <;> rw [h] <;> exact ⟨rfl, rfl⟩
  · intro u
    have hp := parseDigits_fmtDigits (u + 1) u (by omega)
    obtain ⟨hd, hv⟩ := (parseDigits_eq_some _ 0 u).mp hp
    refine ⟨fmtDigits (u + 1) u [], ?_, fmtDigits_ne_nil u u [], hd, ?_⟩
    · have hu : ¬ ((u : Int) < 0) := by omega
      unfold formatInt
      simp [hu]
    · simpa using hv.symm

/-- C17: the placeholder derivation is injective on the integers, those of
the `int64` range among them; so in the record set of any run two
placeholder keys, of a source or of a target, are equal only when their
node identifiers are. -/
theorem C17_placeholder_injective :
    (∀ m n : Int, sprintfUid m = sprintfUid n → m = n) ∧
    (∀ (records : List (List String)), ∀ a ∈ importNodes records,
      ∀ b ∈ importNodes records,
        (a.ID = b.ID → a.NodeID = b.NodeID) ∧
        (a.ID = b.ConnectTo.TargetID → a.NodeID = b.ConnectTo.NodeID) ∧
        (a.ConnectTo.TargetID = b.ConnectTo.TargetID →
          a.ConnectTo.NodeID = b.ConnectTo.NodeID)) := by
  refine ⟨sprintfUid_injective, ?_⟩
  intro records a ha b hb
  have key : ∀ n ∈ importNodes records,
      n.ID = sprintfUid n.NodeID ∧ n.ConnectTo.TargetID = sprintfUid n.ConnectTo.NodeID := by
    intro n hn
    obtain ⟨R, _, h | ⟨_, h⟩⟩ := mem_importNodes records n hn <;> rw [h] <;> exact ⟨rfl, rfl⟩
  obtain ⟨ha1, ha2⟩ := key a ha
  obtain ⟨hb1, hb2⟩ := key b hb
  refine ⟨fun h => ?_, fun h => ?_, fun h => ?_⟩
  · rw [ha1, hb1] at h; exact sprintfUid_injective _ _ h
  · rw [ha1, hb2] at h; exact sprintfUid_injective _ _ h
  · rw [ha2, hb2] at h; exact sprintfUid_injective _ _ h


/-! ## The shape of the record set (C18, C19) -/

theorem Float64.leZero_or_gtZero (x : Float64) (h : x.isNaN = false) :
    x.leZero = true ∨ x.gtZero = true := by
  unfold Float64.leZero Float64.gtZero
  rw [h]
  cases x.sign <;> cases x.isZero <;> simp

theorem Float64.not_leZero_of_isNaN (x : Float64) (h : x.isNaN = true) :
    x.leZero = false ∧ x.gtZero = false := by
  unfold Float64.leZero Float64.gtZero
  rw [h]
  simp

/-- The log of a run on one accepted row is the warnings of the row. -/
theorem readAll_single_log (record : List String)
    (h : (parseRow record).csvRecord.ParseError = none) :
    (readAll [record]).log = warnings (parseRow record).csvRecord [] := by
  simp [readAll, readRecord_of_accepted _ record h]

theorem mem_warnings_reverse (R : CSVRecord) :
    "No reverse Edge" ∈ warnings R [] ↔ R.EdgeReverseCost.leZero = true := by
  unfold warnings
  cases R.EdgeDistanceKM.leZero <;> cases R.EdgeCost.leZero <;>
    cases R.EdgeReverseCost.leZero <;> simp

theorem exists_reverse_iff (R : CSVRecord) :
    (∃ n ∈ projectRow R, n.ConnectTo.Reverse = true) ↔ R.EdgeReverseCost.gtZero = true := by
  cases hg : R.EdgeReverseCost.gtZero <;>
    simp [projectRow, projectRecord, hg, sourceNode, SourceNodeReverse]

/-- C18 fails at the accepted row `1,2,3,4,NaN,c,1`, whose reverse cost is the
NaN that `strconv.ParseFloat` returns for the text "NaN": the warning
"No reverse Edge" is not logged for the row, and no reverse record is emitted
for it. -/
theorem C18_nan_counterexample :
    (parseRow ["1", "2", "3", "4", "NaN", "c", "1"]).csvRecord.ParseError = none ∧
    (parseRow ["1", "2", "3", "4", "NaN", "c", "1"]).csvRecord.EdgeReverseCost = Float64.nan ∧
    "No reverse Edge" ∉ (readAll [["1", "2", "3", "4", "NaN", "c", "1"]]).log ∧
    ∀ n ∈ importNodes [["1", "2", "3", "4", "NaN", "c", "1"]], n.ConnectTo.Reverse = false := by
  decide

/-- C18, amended: for an accepted row the warning "No reverse Edge" and a
reverse record never come both; exactly one of them comes when the reverse
cost of the row is not a NaN, and neither comes when it is a NaN. -/
theorem C18_warning_or_reverse (record : List String)
    (h : (parseRow record).csvRecord.ParseError = none) :
    ¬ ("No reverse Edge" ∈ (readAll [record]).log ∧
        ∃ n ∈ importNodes [record], n.ConnectTo.Reverse = true) ∧
    ((parseRow record).csvRecord.EdgeReverseCost.isNaN = false →
      ("No reverse Edge" ∈ (readAll [record]).log ∨
        ∃ n ∈ importNodes [record], n.ConnectTo.Reverse = true)) ∧
    ((parseRow record).csvRecord.EdgeReverseCost.isNaN = true →
      "No reverse Edge" ∉ (readAll [record]).log ∧
        ¬ ∃ n ∈ importNodes [record], n.ConnectTo.Reverse = true) := by
  rw [readAll_single_log record h, importNodes_single, if_pos h, mem_warnings_reverse,
    exists_reverse_iff]
  refine ⟨?_, ?_, ?_⟩
  · rintro ⟨hle, hgt⟩
    rw [Float64.gtZero_of_leZero _ hle] at hgt
    exact absurd hgt (by decide)
  · intro hn
    exact Float64.leZero_or_gtZero _ hn
  · intro hn
    obtain ⟨h1, h2⟩ := Float64.not_leZero_of_isNaN _ hn
    simp [h1, h2]

/-- C18 (amended) at the accepted row `10,1,2,5.0,0,car,1.2`, whose reverse
cost is no NaN: the warning is logged and no reverse record is emitted. -/
theorem C18_warning_or_reverse_witness :
    (parseRow ["10", "1", "2", "5.0", "0", "car", "1.2"]).csvRecord.ParseError = none ∧
    (parseRow ["10", "1", "2", "5.0", "0", "car", "1.2"]).csvRecord.EdgeReverseCost.isNaN
      = false ∧
    ¬ ("No reverse Edge" ∈ (readAll [["10", "1", "2", "5.0", "0", "car", "1.2"]]).log ∧
        ∃ n ∈ importNodes [["10", "1", "2", "5.0", "0", "car", "1.2"]],
          n.ConnectTo.Reverse = true) ∧
    ("No reverse Edge" ∈ (readAll [["10", "1", "2", "5.0", "0", "car", "1.2"]]).log ∨
        ∃ n ∈ importNodes [["10", "1", "2", "5.0", "0", "car", "1.2"]],
          n.ConnectTo.Reverse = true) :=
  ⟨by decide, by decide,
    (C18_warning_or_reverse ["10", "1", "2", "5.0", "0", "car", "1.2"] (by decide)).1,
    (C18_warning_or_reverse ["10", "1", "2", "5.0", "0", "car", "1.2"] (by decide)).2.1
      (by decide)⟩


theorem projectRow_cases (R : CSVRecord) :
    projectRow R = [sourceNode R] ∨ projectRow R = [sourceNode R, SourceNodeReverse R] := by
  cases hg : R.EdgeReverseCost.gtZero <;> simp [projectRow, projectRecord, hg]

theorem length_flatMap_projectRow (csvData : List CSVRecord) :
    csvData.length ≤ (csvData.flatMap projectRow).length ∧
      (csvData.flatMap projectRow).length ≤ 2 * csvData.length := by
  induction csvData with
  | nil => simp
  | cons R rest ih =>
    simp only [List.flatMap_cons, List.length_append, List.length_cons]
    rcases projectRow_cases R with h | h <;> rw [h] <;>
      simp only [List.length_cons, List.length_nil] <;> omega

/-- In the concatenation of the projections every reverse node comes right
after the forward node of the same record. -/
theorem reverse_after_forward (csvData : List CSVRecord) :
    ∀ (i : Nat) (v : Node), (csvData.flatMap projectRow)[i]? = some v →
      v.ConnectTo.Reverse = true →
      ∃ j R, i = j + 1 ∧ (csvData.flatMap projectRow)[j]? = some (sourceNode R) ∧
        v = SourceNodeReverse R := by
  induction csvData with
  | nil => intro i v h; simp at h
  | cons R rest ih =>
    intro i v h hv
    simp only [List.flatMap_cons] at h ⊢
    by_cases hi : i < (projectRow R).length
    · rw [List.getElem?_append_left hi] at h
      rcases projectRow_cases R with hp | hp
      · rw [hp] at h hi
        simp only [List.length_singleton, Nat.lt_one_iff] at hi
        subst hi
        simp only [List.getElem?_cons_zero, Option.some.injEq] at h
        rw [← h] at hv
        exact absurd hv (by simp [sourceNode])
      · rw [hp] at h hi ⊢
        simp only [List.length_cons, List.length_nil] at hi
        rcases i with _ | _ | i
        · simp only [List.getElem?_cons_zero, Option.some.injEq] at h
          rw [← h] at hv
          exact absurd hv (by simp [sourceNode])
        · simp only [List.getElem?_cons_succ, List.getElem?_cons_zero, Option.some.injEq] at h
          exact ⟨0, R, rfl, by simp, h.symm⟩
        · omega
    · have hle : (projectRow R).length ≤ i := by omega
      rw [List.getElem?_append_right hle] at h
      obtain ⟨j, R2, hj, hf, hr⟩ := ih _ v h hv
      refine ⟨(projectRow R).length + j, R2, by omega, ?_, hr⟩
      rw [List.getElem?_append_right (by omega)]
      simpa using hf

theorem head_flatMap_projectRow (csvData : List CSVRecord) (first : Node)
    (h : (csvData.flatMap projectRow).head? = some first) :
    first.ConnectTo.Reverse = false := by
  cases csvData with
  | nil => simp at h
  | cons R rest =>
    simp only [List.flatMap_cons] at h
    rcases projectRow_cases R with hp | hp <;> rw [hp] at h <;>
      simp only [List.cons_append, List.head?_cons, Option.some.injEq] at h <;>
      rw [← h] <;> rfl

/-- C19: in the record set of any run the first record has `reverse = false`;
every record with `reverse = true` comes right after a record with
`reverse = false` that has the same `edge_id`, `distance` and `mode` and whose
source and target, placeholder key and node identifier, are the target and
the source of the reverse record; and the number of records lies between the
number of accepted rows and twice that number. -/
theorem C19_reverse_follows_forward (records : List (List String)) :
    (∀ first, (importNodes records).head? = some first →
      first.ConnectTo.Reverse = false) ∧
    (∀ (i : Nat) (v : Node), (importNodes records)[i]? = some v →
      v.ConnectTo.Reverse = true →
      ∃ j f, i = j + 1 ∧ (importNodes records)[j]? = some f ∧
        f.ConnectTo.Reverse = false ∧
        f.ConnectTo.EdgeID = v.ConnectTo.EdgeID ∧
        f.ConnectTo.Distance = v.ConnectTo.Distance ∧
        f.ConnectTo.Mode = v.ConnectTo.Mode ∧
        f.ID = v.ConnectTo.TargetID ∧ f.NodeID = v.ConnectTo.NodeID ∧
        f.ConnectTo.TargetID = v.ID ∧ f.ConnectTo.NodeID = v.NodeID) ∧
    (readAll records).csvData.length ≤ (importNodes records).length ∧
    (importNodes records).length ≤ 2 * (readAll records).csvData.length := by
  have hn : importNodes records = (readAll records).csvData.flatMap projectRow := by
    simp [importNodes, projectAll_eq_flatMap]
  rw [hn]
  refine ⟨head_flatMap_projectRow _, ?_, length_flatMap_projectRow _⟩
  intro i v h hv
  obtain ⟨j, R, hj, hf, hr⟩ := reverse_after_forward _ i v h hv
  refine ⟨j, sourceNode R, hj, hf, ?_⟩
  rw [hr]
  exact ⟨rfl, rfl, rfl, rfl, rfl, rfl, rfl, rfl⟩


/-! ## The integer columns (C16) -/

theorem parseUint_eq_some (s : List Char) (un : Nat) :
    parseUint s = some un ↔
      (s ≠ [] ∧ (∀ c ∈ s, isDigit c = true) ∧
        un = Nat.ofDigits 10 (s.reverse.map digitVal)) := by
  cases s with
  | nil => simp [parseUint]
  | cons c cs =>
    simp only [parseUint, parseDigits_eq_some, Nat.zero_mul, Nat.zero_add, ne_eq,
      reduceCtorEq, not_false_eq_true, true_and]

theorem rangeInt64_false_eq_some (un : Nat) (n : Int) :
    rangeInt64 false un = some n ↔ (un < 2 ^ 63 ∧ n = (un : Int)) := by
  unfold rangeInt64
  by_cases h : un ≥ 2 ^ 63
  · simp [h]; omega
  · simp [h, eq_comm]


theorem rangeInt64_true_eq_some (un : Nat) (n : Int) :
    rangeInt64 true un = some n ↔ (un ≤ 2 ^ 63 ∧ n = -(un : Int)) := by
  unfold rangeInt64
  by_cases h : un > 2 ^ 63
  · simp [h]; omega
  · simp [h, eq_comm]

/-- `strconv.ParseInt(value, 10, 64)` returns `n` without error exactly when
`value` is a valid base-10 signed 64-bit integer denoting `n`. -/
theorem ParseInt_eq_some_iff (value : String) (n : Int) :
    ParseInt value = some n ↔ IsInt64Text value n := by
  unfold ParseInt IsInt64Text
  rcases hl : value.toList with _ | ⟨c, cs⟩
  · constructor
    · intro h0
      exact absurd h0 (by simp)
    · rintro ⟨sign, digits, hv, _, hne, _⟩
      have := List.append_eq_nil.mp hv.symm
      exact absurd this.2 hne
  · simp only
    by_cases hplus : c = '+'
    · subst hplus
      simp only [if_true, Option.bind_eq_some, parseUint_eq_some, rangeInt64_false_eq_some]
      constructor
      · rintro ⟨un, ⟨hne, hd, hun⟩, hlt, hn⟩
        refine ⟨['+'], cs, rfl, Or.inr (Or.inl rfl), hne, hd, ?_, ?_, ?_⟩
        · rw [hn, hun]; simp
        · omega
        · omega
      · rintro ⟨sign, digits, hv, hs, hne, hd, hn, hlo, hhi⟩
        rcases hs with hs | hs | hs
        · subst hs
          simp only [List.nil_append] at hv
          have := hd '+' (by rw [← hv]; simp)
          exact absurd this (by decide)
        · subst hs
          simp only [List.cons_append, List.nil_append, List.cons.injEq, true_and] at hv
          subst hv
          simp only [if_neg (show ¬ (['+'] = ['-']) by decide), one_mul] at hn
          exact ⟨_, ⟨hne, hd, rfl⟩, by omega, hn⟩
        · subst hs
          simp only [List.cons_append, List.nil_append, List.cons.injEq] at hv
          exact absurd hv.1 (by decide)
    · by_cases hminus : c = '-'
      · subst hminus
        simp only [if_neg hplus, if_true, Option.bind_eq_some, parseUint_eq_some,
          rangeInt64_true_eq_some]
        constructor
        · rintro ⟨un, ⟨hne, hd, hun⟩, hlt, hn⟩
          refine ⟨['-'], cs, rfl, Or.inr (Or.inr rfl), hne, hd, ?_, ?_, ?_⟩
          · rw [hn, hun]; simp
          · omega
          · omega
        · rintro ⟨sign, digits, hv, hs, hne, hd, hn, hlo, hhi⟩
          rcases hs with hs | hs | hs
          · subst hs
            simp only [List.nil_append] at hv
            have := hd '-' (by rw [← hv]; simp)
            exact absurd this (by decide)
          · subst hs
            simp only [List.cons_append, List.nil_append, List.cons.injEq] at hv
            exact absurd hv.1 (by decide)
          · subst hs
            simp only [List.cons_append, List.nil_append, List.cons.injEq, true_and] at hv
            subst hv
            simp only [if_true, neg_mul, one_mul] at hn
            exact ⟨_, ⟨hne, hd, rfl⟩, by omega, hn⟩
      · simp only [if_neg hplus, if_neg hminus, Option.bind_eq_some, parseUint_eq_some,
          rangeInt64_false_eq_some]
        constructor
        · rintro ⟨un, ⟨hne, hd, hun⟩, hlt, hn⟩
          refine ⟨[], c :: cs, rfl, Or.inl rfl, hne, hd, ?_, ?_, ?_⟩
          · rw [hn, hun]; simp
          · omega
          · omega
        · rintro ⟨sign, digits, hv, hs, hne, hd, hn, hlo, hhi⟩
          rcases hs with hs | hs | hs
          · subst hs
            simp only [List.nil_append] at hv
            subst hv
            simp only [if_neg (show ¬ (([] : List Char) = ['-']) by decide), one_mul] at hn
            exact ⟨_, ⟨hne, hd, rfl⟩, by omega, hn⟩
          · subst hs
            simp only [List.cons_append, List.nil_append, List.cons.injEq] at hv
            exact absurd hv.1 hplus
          · subst hs
            simp only [List.cons_append, List.nil_append, List.cons.injEq] at hv
            exact absurd hv.1 hminus

/-- C16: for an integer column (index 0, 1 or 2) coercion succeeds exactly
when the text is a valid base-10 signed 64-bit integer: an optional sign and
then one or more decimal digits, of value in `[-2^63, 2^63 - 1]`; on success
the field of the column holds exactly that integer; the empty text, a text
with a byte that is no digit and values out of range fail. -/
theorem C16_integer_columns :
    (∀ (value : String) (n : Int), ParseInt value = some n ↔ IsInt64Text value n) ∧
    (∀ (idx : Nat) (value : String), idx < 3 →
      (columnFails idx value = false ↔ ∃ n, IsInt64Text value n)) ∧
    (∀ (value : String) (n : Int) (st : RowState), IsInt64Text value n →
      (parseColumn 0 value st).csvRecord.EdgeID = n ∧
      (parseColumn 1 value st).csvRecord.SourceNode = n ∧
      (parseColumn 2 value st).csvRecord.TargetNode = n) ∧
    IsInt64Text "-42" (-42) ∧
    columnFails 0 "" = true ∧ columnFails 1 "12a" = true ∧ columnFails 2 "1.5" = true ∧
    columnFails 0 "9223372036854775808" = true ∧
    columnFails 1 "-9223372036854775809" = true ∧
    columnFails 2 "-9223372036854775808" = false := by
  refine ⟨ParseInt_eq_some_iff, ?_, ?_, ?_, by decide, by decide, by decide, by decide,
    by decide, by decide⟩
  · intro idx value hidx
    have hcf : columnFails idx value = (ParseInt value).isNone := by
      rcases idx with _ | _ | _ | _
      · rfl
      · rfl
      · rfl
      · omega
    rw [hcf]
    constructor
    · intro h
      cases hp : ParseInt value with
      | none => rw [hp] at h; exact absurd h (by decide)
      | some n => exact ⟨n, (ParseInt_eq_some_iff value n).mp hp⟩
    · rintro ⟨n, hn⟩
      rw [(ParseInt_eq_some_iff value n).mpr hn]
      rfl
  · intro value n st hn
    have hp := (ParseInt_eq_some_iff value n).mpr hn
    simp [parseColumn, hp]
  · exact (ParseInt_eq_some_iff "-42" (-42)).mp (by decide)


/-! ## The float columns (C15) -/

theorem encode_isFinite (neg : Bool) (enc : Nat) (f : Float64)
    (h : (if 2047 * 2 ^ 52 ≤ enc then none
      else some (Float64.mk neg (enc / 2 ^ 52) (enc % 2 ^ 52))) = some f) :
    f.isFinite = true := by
  by_cases hlt : 2047 * 2 ^ 52 ≤ enc
  · rw [if_pos hlt] at h
    exact absurd h (by simp)
  · rw [if_neg hlt, Option.some.injEq] at h
    rw [← h]
    simp only [Float64.isFinite, decide_eq_true_eq]
    rw [Nat.div_lt_iff_lt_mul (by positivity)]
    omega

theorem roundToFloat64_isFinite (neg : Bool) (num den : Nat) (f : Float64)
    (h : roundToFloat64 neg num den = some f) : f.isFinite = true := by
  unfold roundToFloat64 at h
  by_cases h0 : num = 0
  · rw [if_pos h0, Option.some.injEq] at h
    rw [← h]; rfl
  · rw [if_neg h0] at h
    exact encode_isFinite _ _ _ h

theorem commonPrefixLenIgnoreCase_spec (s : List Char) :
    ∀ p : List Char,
      commonPrefixLenIgnoreCase s p ≤ s.length ∧
      (s.take (commonPrefixLenIgnoreCase s p)).map Char.toLower =
        p.take (commonPrefixLenIgnoreCase s p) := by
  induction s with
  | nil => intro p; simp [commonPrefixLenIgnoreCase]
  | cons c cs ih =>
    intro p
    cases p with
    | nil => simp [commonPrefixLenIgnoreCase]
    | cons q qs =>
      simp only [commonPrefixLenIgnoreCase]
      split
      · rename_i hc
        obtain ⟨h1, h2⟩ := ih qs
        refine ⟨by simp only [List.length_cons]; omega, ?_⟩
        simp only [List.take_succ_cons, List.map_cons, hc, h2]
      · simp

theorem specialInf_whole (neg : Bool) (nsign : Nat) (s : List Char) (f : Float64) (n : Nat)
    (h : specialInf neg nsign s = some (f, n)) (hn : n = nsign + s.length) :
    f = Float64.inf neg ∧
      (s.map Char.toLower = "inf".toList ∨ s.map Char.toLower = "infinity".toList) := by
  unfold specialInf at h
  obtain ⟨hle, htake⟩ := commonPrefixLenIgnoreCase_spec s "infinity".toList
  generalize commonPrefixLenIgnoreCase s "infinity".toList = n0 at h hle htake
  simp only at h
  by_cases hmid : 3 < n0 ∧ n0 < 8
  · rw [if_pos hmid] at h
    simp only [true_or, if_true, Option.some.injEq, Prod.mk.injEq] at h
    omega
  · rw [if_neg hmid] at h
    by_cases h38 : n0 = 3 ∨ n0 = 8
    · rw [if_pos h38, Option.some.injEq, Prod.mk.injEq] at h
      obtain ⟨hf, hn2⟩ := h
      refine ⟨hf.symm, ?_⟩
      have hlen : s.length = n0 := by omega
      rw [← hlen, List.take_length] at htake
      rcases h38 with h3 | h8
      · left; rw [htake, hlen, h3]; rfl
      · right; rw [htake, hlen, h8]; rfl
    · rw [if_neg h38] at h
      exact absurd h (by simp)

/-- The texts `special` takes whole are, letter case aside, "nan", "inf" and
"infinity", the last two with an optional sign; its values are not finite. -/
theorem special_whole (s : List Char) (f : Float64) (n : Nat)
    (h : special s = some (f, n)) (hn : n = s.length) :
    f.isFinite = false ∧
      s.map Char.toLower ∈
        ["nan".toList, "inf".toList, "+inf".toList, "-inf".toList,
          "infinity".toList, "+infinity".toList, "-infinity".toList] := by
  cases s with
  | nil => simp [special] at h
  | cons c rest =>
    simp only [special] at h
    by_cases hsign : c = '+' ∨ c = '-'
    · simp only [hsign, if_true] at h
      obtain ⟨hf, hr⟩ := specialInf_whole _ 1 rest f n h (by simp [hn]; omega)
      refine ⟨by rw [hf]; rfl, ?_⟩
      rcases hsign with hc | hc <;> subst hc <;> rcases hr with hr | hr <;>
        simp only [List.map_cons, hr] <;> decide
    · simp only [hsign, if_false] at h
      by_cases hi : c = 'i' ∨ c = 'I'
      · simp only [hi, if_true] at h
        obtain ⟨hf, hr⟩ := specialInf_whole _ 0 (c :: rest) f n h (by simp [hn])
        refine ⟨by rw [hf]; rfl, ?_⟩
        rcases hr with hr | hr <;> rw [hr] <;> decide
      · simp only [hi, if_false] at h
        by_cases hnn : c = 'n' ∨ c = 'N'
        · simp only [hnn, if_true] at h
          split at h
          swap
          · exact absurd h (by simp)
          rename_i h3
          simp only [Option.some.injEq, Prod.mk.injEq] at h
          obtain ⟨hf, hn3⟩ := h
          obtain ⟨_, htake⟩ := commonPrefixLenIgnoreCase_spec (c :: rest) "nan".toList
          rw [h3] at htake
          have hlen : (c :: rest).length = 3 := by omega
          rw [← hlen, List.take_length] at htake
          refine ⟨by rw [← hf]; rfl, ?_⟩
          rw [htake, hlen]
          decide
        · simp [hnn] at h

/-- A value `strconv.ParseFloat` returns without error is finite, unless the
text is one of the special texts. -/
theorem ParseFloat_not_finite (value : String) (f : Float64)
    (h : ParseFloat value = some f) (hf : f.isFinite = false) :
    value.toList.map Char.toLower ∈
      ["nan".toList, "inf".toList, "+inf".toList, "-inf".toList,
        "infinity".toList, "+infinity".toList, "-infinity".toList] := by
  unfold ParseFloat at h
  simp only at h
  rcases hs : special value.toList with _ | ⟨g, n⟩
  · rw [hs] at h
    simp only at h
    rcases hr : readFloat value.toList with _ | r
    · rw [hr] at h; exact absurd h (by simp)
    · rw [hr] at h
      simp only at h
      split at h
      · exact absurd h (by simp)
      · split at h
        · rw [roundToFloat64_isFinite _ _ _ _ h] at hf
          exact absurd hf (by decide)
        · rw [roundToFloat64_isFinite _ _ _ _ h] at hf
          exact absurd hf (by decide)
  · rw [hs] at h
    simp only at h
    split at h
    · rename_i hn
      exact (special_whole _ g n hs hn).2
    · exact absurd h (by simp)


/-! ## Bytes -/

theorem isDigit_iff (c : Char) : isDigit c = true ↔ (48 ≤ c.toNat ∧ c.toNat ≤ 57) := by
  simp [isDigit]

theorem char_eq_of_toNat (c : Char) (n : Nat) (h : c.toNat = n) : c = Char.ofNat n := by
  rw [← h, Char.ofNat_toNat]

theorem toLower_cases (c : Char) :
    c.toLower = c ∨ (65 ≤ c.toNat ∧ c.toNat ≤ 90 ∧ c.toLower.toNat = c.toNat + 32) := by
  by_cases h : 65 ≤ c.toNat ∧ c.toNat ≤ 90
  · right
    refine ⟨h.1, h.2, ?_⟩
    obtain ⟨h1, h2⟩ := h
    have hc := char_eq_of_toNat c c.toNat rfl
    generalize c.toNat = n at hc h1 h2
    subst hc
    interval_cases n <;> decide
  · left
    unfold Char.toLower
    simp only [ge_iff_le]
    rw [if_neg h]

/-- A byte whose lower-case form is the lower-case letter `l` is `l` or its
upper-case form. -/
theorem toLower_eq_letter (c l u : Char) (hl : 97 ≤ l.toNat ∧ l.toNat ≤ 122)
    (hu : u = Char.ofNat (l.toNat - 32)) (h : c.toLower = l) : c = l ∨ c = u := by
  rcases toLower_cases c with h1 | ⟨_, _, h3⟩
  · left; rw [← h1, h]
  · right
    rw [h] at h3
    rw [hu]
    apply char_eq_of_toNat
    omega

theorem toLower_eq_e (c : Char) (h : c.toLower = 'e') : c = 'e' ∨ c = 'E' :=
  toLower_eq_letter c 'e' 'E' (by decide) (by decide) h

theorem toLower_eq_x (c : Char) (h : c.toLower = 'x') : c = 'x' ∨ c = 'X' :=
  toLower_eq_letter c 'x' 'X' (by decide) (by decide) h

theorem toLower_eq_i (c : Char) (h : c.toLower = 'i') : c = 'i' ∨ c = 'I' :=
  toLower_eq_letter c 'i' 'I' (by decide) (by decide) h

theorem toLower_eq_n (c : Char) (h : c.toLower = 'n') : c = 'n' ∨ c = 'N' :=
  toLower_eq_letter c 'n' 'N' (by decide) (by decide) h

/-- A byte below `'A'` is its own lower-case form, and the only byte with
that lower-case form. -/
theorem toLower_eq_low (c l : Char) (hl : l.toNat < 65) (h : c.toLower = l) : c = l := by
  rcases toLower_cases c with h1 | ⟨_, _, h3⟩
  · rw [← h1, h]
  · rw [h] at h3; omega

theorem isDigit_ne (c l : Char) (hd : isDigit c = true) (hl : isDigit l = false) : c ≠ l := by
  rintro rfl
  rw [hd] at hl
  exact absurd hl (by decide)

theorem isDigit_toLower (c : Char) (hd : isDigit c = true) : c.toLower = c := by
  rcases toLower_cases c with h1 | ⟨h2, _, _⟩
  · exact h1
  · rw [isDigit_iff] at hd; omega


/-! ## The mantissa loop on decimal digits -/

theorem digitsValue_cons (c : Char) (ds : List Char) :
    digitsValue (c :: ds) = digitVal c * 10 ^ ds.length + digitsValue ds := by
  unfold digitsValue
  simp only [List.reverse_cons, List.map_append, List.map_cons, List.map_nil,
    Nat.ofDigits_append, Nat.ofDigits_singleton, List.length_map, List.length_reverse]
  ring

theorem digitsValue_nil : digitsValue [] = 0 := by
  simp [digitsValue]

theorem digitsValue_append (xs ys : List Char) :
    digitsValue (xs ++ ys) = digitsValue xs * 10 ^ ys.length + digitsValue ys := by
  induction xs with
  | nil => simp [digitsValue_nil]
  | cons c cs ih =>
    simp only [List.cons_append, digitsValue_cons, ih, List.length_append]
    ring

/-- The mantissa loop over a run of decimal digits. -/
theorem readMantissa_digits (ds : List Char) (hds : ∀ c ∈ ds, isDigit c = true) :
    ∀ (rest : List Char) (st : MantState), (st.nd = 0 → st.mantissa = 0) →
      ∃ st' : MantState,
        readMantissa false (ds ++ rest) st = readMantissa false rest st' ∧
        st'.sawdot = st.sawdot ∧ st'.underscores = st.underscores ∧
        st'.mantissa = st.mantissa * 10 ^ ds.length + digitsValue ds ∧
        st'.sawdigits = (st.sawdigits || !ds.isEmpty) ∧
        (st'.nd = 0 → st'.mantissa = 0) ∧
        st'.dp - (st'.nd : ℤ) = st.dp - (st.nd : ℤ) - (ds.length : ℤ) := by
  induction ds with
  | nil =>
    intro rest st hinv
    exact ⟨st, rfl, rfl, rfl, by simp [digitsValue_nil], by simp, hinv, by simp⟩
  | cons c ds ih =>
    intro rest st hinv
    have hc : isDigit c = true := hds c (List.mem_cons_self _ _)
    have hds' : ∀ c ∈ ds, isDigit c = true := fun x hx => hds x (List.mem_cons_of_mem _ hx)
    have h1 : c ≠ '_' := isDigit_ne c '_' hc (by decide)
    have h2 : c ≠ '.' := isDigit_ne c '.' hc (by decide)
    simp only [List.cons_append, readMantissa, if_neg h1, if_neg h2, hc, if_true,
      Bool.false_eq_true, if_false]
    by_cases hskip : c = '0' ∧ st.nd = 0
    · rw [if_pos hskip]
      obtain ⟨st', e, a1, a2, a3, a4, a5, a6⟩ :=
        ih hds' rest { st with sawdigits := true, dp := st.dp - 1 } (by simpa using hinv)
      refine ⟨st', e, a1, a2, ?_, ?_, a5, ?_⟩
      · rw [a3, digitsValue_cons]
        simp only [hinv hskip.2, hskip.1]
        have : digitVal '0' = 0 := by decide
        rw [this]; ring
      · rw [a4]; simp
      · rw [a6]; simp only [List.length_cons]; push_cast; ring
    · rw [if_neg hskip]
      obtain ⟨st', e, a1, a2, a3, a4, a5, a6⟩ :=
        ih hds' rest ⟨st.sawdot, true, st.nd + 1, st.dp, st.mantissa * 10 + digitVal c,
          st.underscores⟩ (by simp)
      refine ⟨st', e, a1, a2, ?_, ?_, a5, ?_⟩
      · rw [a3, digitsValue_cons]
        simp only [List.length_cons]
        ring
      · rw [a4]; simp
      · rw [a6]; simp only [List.length_cons]; push_cast; ring

/-- The loop stops at the end of the text and at a byte that is no part of
a decimal mantissa. -/
theorem readMantissa_stop (rest : List Char) (st : MantState)
    (h : rest = [] ∨ ∃ c cs, rest = c :: cs ∧ c ≠ '_' ∧ isDigit c = false ∧
      (c = '.' → st.sawdot = true)) :
    readMantissa false rest st = (st, rest) := by
  rcases h with h | ⟨c, cs, h, h1, h2, h3⟩
  · subst h; rfl
  · subst h
    simp only [readMantissa, if_neg h1, h2, Bool.false_eq_true, if_false, false_and]
    by_cases hd : c = '.'
    · simp [hd, h3 hd]
    · simp [hd]

/-- The exponent digit loop over a run of decimal digits: the exponent is
below 100000, and it is the value of the digits when that is below 100000. -/
theorem readExpDigits_digits (ds : List Char) (hds : ∀ c ∈ ds, isDigit c = true) :
    ∀ (e0 : Nat) (us : Bool), e0 < 100000 →
      ∃ e : Nat, readExpDigits ds e0 us = (e, us, []) ∧ e < 100000 ∧
        (e0 * 10 ^ ds.length + digitsValue ds < 100000 →
          e = e0 * 10 ^ ds.length + digitsValue ds) := by
  induction ds with
  | nil =>
    intro e0 us h0
    exact ⟨e0, rfl, h0, by simp [digitsValue_nil]⟩
  | cons c ds ih =>
    intro e0 us h0
    have hc : isDigit c = true := hds c (List.mem_cons_self _ _)
    have hds' : ∀ c ∈ ds, isDigit c = true := fun x hx => hds x (List.mem_cons_of_mem _ hx)
    have h1 : c ≠ '_' := isDigit_ne c '_' hc (by decide)
    have hv : digitVal c ≤ 9 := by
      rw [isDigit_iff] at hc
      unfold digitVal; omega
    simp only [readExpDigits, if_neg h1, hc, if_true]
    have hlt : (if e0 < 10000 then e0 * 10 + digitVal c else e0) < 100000 := by
      split <;> omega
    obtain ⟨e, a1, a2, a3⟩ := ih hds' _ us hlt
    refine ⟨e, a1, a2, ?_⟩
    intro htot
    rw [digitsValue_cons, List.length_cons] at htot
    have hpos : 1 ≤ 10 ^ ds.length := Nat.one_le_pow _ _ (by norm_num)
    have he0 : e0 < 10000 := by
      by_contra hc0
      have h10 : 10 ^ (ds.length + 1) = 10 * 10 ^ ds.length := by rw [pow_succ]; ring
      have hle : 10000 * (10 * 10 ^ ds.length) ≤ e0 * (10 * 10 ^ ds.length) :=
        Nat.mul_le_mul_right _ (by omega)
      rw [h10] at htot
      generalize e0 * (10 * 10 ^ ds.length) = X at hle htot
      generalize 10 ^ ds.length = P at hle hpos
      omega
    rw [if_pos he0] at a3
    rw [digitsValue_cons, List.length_cons]
    have e1 : (e0 * 10 + digitVal c) * 10 ^ ds.length + digitsValue ds =
        e0 * 10 ^ (ds.length + 1) + (digitVal c * 10 ^ ds.length + digitsValue ds) := by
      rw [pow_succ]; ring
    rw [← e1]
    apply a3
    rw [e1]; exact htot


/-- The mantissa loop on a mantissa in conventional decimal notation: digits,
an optional point, digits, then a byte that is no part of a mantissa. -/
theorem readMantissa_decimal (ip point fp rest : List Char)
    (hip : ∀ c ∈ ip, isDigit c = true) (hfp : ∀ c ∈ fp, isDigit c = true)
    (hpoint : point = ['.'] ∨ (point = [] ∧ fp = []))
    (hrest : rest = [] ∨ ∃ c cs, rest = c :: cs ∧ c ≠ '_' ∧ isDigit c = false ∧
      (c = '.' → point = ['.'])) :
    ∃ st : MantState,
      readMantissa false (ip ++ (point ++ (fp ++ rest))) ⟨false, false, 0, 0, 0, false⟩ =
        (st, rest) ∧
      st.underscores = false ∧ st.mantissa = digitsValue (ip ++ fp) ∧
      st.sawdigits = !(ip ++ fp).isEmpty ∧
      (if st.sawdot then st.dp else (st.nd : ℤ)) - (st.nd : ℤ) = -(fp.length : ℤ) := by
  obtain ⟨st1, e1, a1, a2, a3, a4, a5, a6⟩ :=
    readMantissa_digits ip hip (point ++ (fp ++ rest)) ⟨false, false, 0, 0, 0, false⟩ (by simp)
  simp only [zero_mul, zero_add, Bool.false_or] at a1 a2 a3 a4
  rcases hpoint with hp | ⟨hp, hf⟩
  · subst hp
    obtain ⟨st2, e2, b1, b2, b3, b4, b5, b6⟩ :=
      readMantissa_digits fp hfp rest
        ⟨true, st1.sawdigits, st1.nd, st1.nd, st1.mantissa, st1.underscores⟩ a5
    simp only at b1 b2 b3 b4 b6
    have hstop : readMantissa false rest st2 = (st2, rest) := by
      apply readMantissa_stop
      rcases hrest with h | ⟨c, cs, h, h1, h2, _⟩
      · exact Or.inl h
      · exact Or.inr ⟨c, cs, h, h1, h2, fun _ => b1⟩
    refine ⟨st2, ?_, by rw [b2, a2], ?_, ?_, ?_⟩
    · rw [e1]
      have hdot : readMantissa false (['.'] ++ (fp ++ rest)) st1 =
          readMantissa false (fp ++ rest)
            ⟨true, st1.sawdigits, st1.nd, st1.nd, st1.mantissa, st1.underscores⟩ := by
        simp [readMantissa, a1]
      rw [hdot, e2, hstop]
    · rw [b3, a3, digitsValue_append]
    · rw [b4, a4]
      cases ip <;> cases fp <;> simp
    · rw [b1, if_pos rfl, b6]; ring
  · subst hp; subst hf
    have hstop : readMantissa false rest st1 = (st1, rest) := by
      apply readMantissa_stop
      rcases hrest with h | ⟨c, cs, h, h1, h2, h3⟩
      · exact Or.inl h
      · exact Or.inr ⟨c, cs, h, h1, h2, fun hc => absurd (h3 hc) (by simp)⟩
    refine ⟨st1, ?_, a2, ?_, ?_, ?_⟩
    · rw [e1]; simpa using hstop
    · rw [a3]; simp
    · rw [a4]; simp
    · rw [a1]; simp

/-- Every text starts with a run of decimal digits that ends at the end of
the text or at a byte that is no digit. -/
theorem digits_split (t : List Char) :
    ∃ ds rest : List Char, t = ds ++ rest ∧ (∀ c ∈ ds, isDigit c = true) ∧
      (rest = [] ∨ ∃ c cs, rest = c :: cs ∧ isDigit c = false) := by
  induction t with
  | nil => exact ⟨[], [], rfl, by simp, Or.inl rfl⟩
  | cons c cs ih =>
    by_cases hc : isDigit c = true
    · obtain ⟨ds, rest, e, h1, h2⟩ := ih
      refine ⟨c :: ds, rest, by rw [e]; rfl, ?_, h2⟩
      intro x hx
      rcases List.mem_cons.mp hx with h | h
      · rw [h]; exact hc
      · exact h1 x h
    · exact ⟨[], c :: cs, rfl, by simp, Or.inr ⟨c, cs, rfl, by simpa using hc⟩⟩

/-- Every text without an underscore starts with a mantissa in conventional
decimal notation, possibly empty. -/
theorem mantissa_split (t : List Char) (hus : '_' ∉ t) :
    ∃ ip point fp rest : List Char, t = ip ++ (point ++ (fp ++ rest)) ∧
      (∀ c ∈ ip, isDigit c = true) ∧ (∀ c ∈ fp, isDigit c = true) ∧
      (point = ['.'] ∨ (point = [] ∧ fp = [])) ∧
      (rest = [] ∨ ∃ c cs, rest = c :: cs ∧ c ≠ '_' ∧ isDigit c = false ∧
        (c = '.' → point = ['.'])) := by
  obtain ⟨ip, r1, e1, hip, hr1⟩ := digits_split t
  rcases hr1 with h | ⟨c, cs, h, hc⟩
  · exact ⟨ip, [], [], [], by rw [e1, h]; simp, hip, by simp, Or.inr ⟨rfl, rfl⟩, Or.inl rfl⟩
  · by_cases hdot : c = '.'
    · obtain ⟨fp, r2, e2, hfp, hr2⟩ := digits_split cs
      refine ⟨ip, ['.'], fp, r2, by rw [e1, h, hdot, e2]; simp, hip, hfp, Or.inl rfl, ?_⟩
      rcases hr2 with h2 | ⟨c2, cs2, h2, hc2⟩
      · exact Or.inl h2
      · refine Or.inr ⟨c2, cs2, h2, ?_, hc2, fun _ => rfl⟩
        intro hu
        apply hus
        rw [e1, h, e2, h2, hu]
        simp
    · refine ⟨ip, [], [], c :: cs, by rw [e1, h]; simp, hip, by simp, Or.inr ⟨rfl, rfl⟩, ?_⟩
      refine Or.inr ⟨c, cs, rfl, ?_, hc, fun hd => absurd hd hdot⟩
      intro hu
      apply hus
      rw [e1, h, hu]
      simp

/-! ## The exponent part -/

theorem readExpDigits_whole (ds : List Char) (hus : '_' ∉ ds) :
    ∀ (e0 e : Nat) (us us' : Bool), readExpDigits ds e0 us = (e, us', []) →
      ∀ c ∈ ds, isDigit c = true := by
  induction ds with
  | nil => intro _ _ _ _ _ c hc; simp at hc
  | cons d ds ih =>
    intro e0 e us us' h c hc
    have hd : d ≠ '_' := fun hd => hus (by rw [hd]; simp)
    have hus' : '_' ∉ ds := fun hm => hus (List.mem_cons_of_mem _ hm)
    simp only [readExpDigits, if_neg hd] at h
    by_cases hdig : isDigit d = true
    · rw [if_pos hdig] at h
      rcases List.mem_cons.mp hc with hcd | hcd
      · rw [hcd]; exact hdig
      · exact ih hus' _ _ _ _ h c hcd
    · rw [if_neg hdig] at h
      simp at h

/-- The exponent part of a text in conventional notation is read whole; the
exponent read is the one written when that is below 100000 in magnitude. -/
theorem readExponent_text (expo : List Char) (ex : Int) (h : IsExponentText expo ex) :
    ∃ ex' : Int, (∀ dp : Int, readExponent false dp false expo = some (dp + ex', false, [])) ∧
      (|ex| < 100000 → ex' = ex) := by
  rcases h with ⟨h1, h2⟩ | ⟨e, esign, digits, h1, he, hne, hdig, hsign⟩
  · subst h1; subst h2
    exact ⟨0, fun dp => by simp [readExponent], fun _ => rfl⟩
  · obtain ⟨d, ds, hd⟩ := List.exists_cons_of_ne_nil hne
    obtain ⟨n, hr, hn, hval⟩ := readExpDigits_digits digits hdig 0 false (by norm_num)
    simp only [zero_mul, zero_add] at hval
    have hdd : isDigit d = true := hdig d (by rw [hd]; simp)
    have hp : d ≠ '+' := isDigit_ne d '+' hdd (by decide)
    have hm : d ≠ '-' := isDigit_ne d '-' hdd (by decide)
    have hel : e.toLower = 'e' := by rcases he with he | he <;> rw [he] <;> decide
    rw [hd] at hr
    rcases hsign with ⟨hs | hs, hex⟩ | ⟨hs, hex⟩
    · refine ⟨n, fun dp => ?_, fun hlt => ?_⟩
      · rw [h1, hs, hd]
        simp [readExponent, hel, hp, hm, hdd, hr]
      · rw [hex] at hlt ⊢
        rw [hval (by rw [abs_lt] at hlt; omega)]
    · refine ⟨n, fun dp => ?_, fun hlt => ?_⟩
      · rw [h1, hs, hd]
        simp [readExponent, hel, hdd, hr]
      · rw [hex] at hlt ⊢
        rw [hval (by rw [abs_lt] at hlt; omega)]
    · refine ⟨-(n : Int), fun dp => ?_, fun hlt => ?_⟩
      · rw [h1, hs, hd]
        simp [readExponent, hel, hdd, hr]
      · rw [hex] at hlt ⊢
        rw [hval (by rw [abs_lt] at hlt; omega)]

/-- An exponent part read whole from a text without underscore is an exponent
in conventional notation. -/
theorem readExponent_whole (dp dp' : Int) (us' : Bool) (rest : List Char) (hus : '_' ∉ rest)
    (h : readExponent false dp false rest = some (dp', us', [])) :
    ∃ ex : Int, IsExponentText rest ex := by
  cases rest with
  | nil => exact ⟨0, Or.inl ⟨rfl, rfl⟩⟩
  | cons c cs =>
    by_cases hc : c.toLower = 'e'
    · have hce := toLower_eq_e c hc
      cases cs with
      | nil => simp [readExponent, hc] at h
      | cons c1 cs1 =>
        have hus1 : '_' ∉ c1 :: cs1 := fun hm => hus (List.mem_cons_of_mem _ hm)
        have hus2 : '_' ∉ cs1 := fun hm => hus1 (List.mem_cons_of_mem _ hm)
        by_cases hp : c1 = '+'
        · subst hp
          cases cs1 with
          | nil => simp [readExponent, hc] at h
          | cons d ds =>
            by_cases hd : isDigit d = true
            · simp [readExponent, hc, hd] at h
              have hall := readExpDigits_whole (d :: ds) hus2 _ _ _ _
                (Prod.ext rfl h.2 :
                  readExpDigits (d :: ds) 0 false = ((readExpDigits (d :: ds) 0 false).1, us', []))
              exact ⟨_, Or.inr ⟨c, ['+'], d :: ds, rfl, hce, by simp, hall,
                Or.inl ⟨Or.inr rfl, rfl⟩⟩⟩
            · simp [readExponent, hc, hd] at h
        · by_cases hm : c1 = '-'
          · subst hm
            cases cs1 with
            | nil => simp [readExponent, hc] at h
            | cons d ds =>
              by_cases hd : isDigit d = true
              · simp [readExponent, hc, hd] at h
                have hall := readExpDigits_whole (d :: ds) hus2 _ _ _ _
                  (Prod.ext rfl h.2 :
                    readExpDigits (d :: ds) 0 false = ((readExpDigits (d :: ds) 0 false).1, us', []))
                exact ⟨_, Or.inr ⟨c, ['-'], d :: ds, rfl, hce, by simp, hall,
                  Or.inr ⟨rfl, rfl⟩⟩⟩
              · simp [readExponent, hc, hd] at h
          · by_cases hd : isDigit c1 = true
            · simp [readExponent, hc, hd, hp, hm] at h
              have hall := readExpDigits_whole (c1 :: cs1) hus1 _ _ _ _
                (Prod.ext rfl h.2 :
                  readExpDigits (c1 :: cs1) 0 false = ((readExpDigits (c1 :: cs1) 0 false).1, us', []))
              exact ⟨_, Or.inr ⟨c, [], c1 :: cs1, rfl, hce, by simp, hall,
                Or.inl ⟨Or.inl rfl, rfl⟩⟩⟩
            · simp [readExponent, hc, hd, hp, hm] at h
    · simp [readExponent, hc] at h


/-! ## `readFloat` on a text without the letter x -/

/-- The function `readFloat` on a text whose tail has no letter x: the base is 10, and
the result is the mantissa loop, the exponent part and the underscore check. -/
theorem readFloat_nohex (c : Char) (cs : List Char) (hx : ∀ a ∈ cs, a.toLower ≠ 'x') :
    readFloat (c :: cs) =
      (let m := readMantissa false (if c = '+' ∨ c = '-' then cs else c :: cs)
        ⟨false, false, 0, 0, 0, false⟩
       if !m.1.sawdigits then none
       else
         match readExponent false (if m.1.sawdot then m.1.dp else m.1.nd) m.1.underscores m.2 with
         | none => none
         | some (dp, us, rest) =>
           if us && !underscoreOK ((c :: cs).take ((c :: cs).length - rest.length)) then none
           else some ⟨decide (c = '-'), false, m.1.mantissa,
             if m.1.mantissa ≠ 0 then dp - m.1.nd else 0, rest⟩) := by
  by_cases hsign : c = '+' ∨ c = '-'
  · rcases cs with _ | ⟨a, _ | ⟨b, _ | ⟨d, cs⟩⟩⟩
    · simp only [readFloat, if_pos hsign]
      rfl
    · simp only [readFloat, if_pos hsign]
      rfl
    · simp only [readFloat, if_pos hsign]
      rfl
    · have hb : b.toLower ≠ 'x' := hx b (by simp)
      have hd : decide (a = '0' ∧ b.toLower = 'x') = false := by simp [hb]
      simp only [readFloat, if_pos hsign, hd]
      rfl
  · rcases cs with _ | ⟨a, _ | ⟨b, cs⟩⟩
    · simp only [readFloat, if_neg hsign]
      rfl
    · simp only [readFloat, if_neg hsign]
      rfl
    · have ha : a.toLower ≠ 'x' := hx a (by simp)
      have hd : decide (c = '0' ∧ a.toLower = 'x') = false := by simp [ha]
      simp only [readFloat, if_neg hsign, hd]
      rfl


/-- The three ways `readFloat` ends on a text without the letter x, from the
result of the mantissa loop on the text after the sign: no digit seen, an
exponent part that is cut short, and the result built from the exponent
read. -/
theorem readFloat_body (c : Char) (cs body expo : List Char) (st : MantState)
    (hx : ∀ a ∈ cs, a.toLower ≠ 'x')
    (hbody : (if c = '+' ∨ c = '-' then cs else c :: cs) = body)
    (hm : readMantissa false body ⟨false, false, 0, 0, 0, false⟩ = (st, expo))
    (hu : st.underscores = false) :
    (st.sawdigits = false → readFloat (c :: cs) = none) ∧
    (st.sawdigits = true →
      readExponent false (if st.sawdot then st.dp else st.nd) false expo = none →
      readFloat (c :: cs) = none) ∧
    (st.sawdigits = true → ∀ (dp : Int) (us : Bool) (rest : List Char),
      readExponent false (if st.sawdot then st.dp else st.nd) false expo = some (dp, us, rest) →
      readFloat (c :: cs) =
        if (us && !underscoreOK ((c :: cs).take ((c :: cs).length - rest.length))) = true
        then none
        else some ⟨decide (c = '-'), false, st.mantissa,
          if st.mantissa ≠ 0 then dp - st.nd else 0, rest⟩) := by
  rw [readFloat_nohex c cs hx]
  simp only [hbody, hm, hu]
  refine ⟨fun hsd => ?_, fun hsd h => ?_, fun hsd dp us rest h => ?_⟩
  · simp [hsd]
  · simp [hsd, h]
  · simp [hsd, h]

/-- An exponent in conventional notation is empty or starts with the letter
e, and no byte of it is the letter x. -/
theorem IsExponentText_bytes (expo : List Char) (ex : Int) (h : IsExponentText expo ex) :
    (expo = [] ∨ ∃ c cs, expo = c :: cs ∧ c ≠ '_' ∧ isDigit c = false ∧ c ≠ '.') ∧
    (∀ a ∈ expo, a.toLower ≠ 'x') := by
  rcases h with ⟨h1, _⟩ | ⟨e, esign, digits, h1, he, _, hdig, hsign⟩
  · subst h1
    exact ⟨Or.inl rfl, by simp⟩
  · subst h1
    refine ⟨Or.inr ⟨e, esign ++ digits, rfl, ?_, ?_, ?_⟩, ?_⟩
    · rcases he with he | he <;> rw [he] <;> decide
    · rcases he with he | he <;> rw [he] <;> decide
    · rcases he with he | he <;> rw [he] <;> decide
    · intro a ha
      rcases List.mem_cons.mp ha with h | h
      · rcases he with he | he <;> rw [h, he] <;> decide
      · rcases List.mem_append.mp h with h | h
        · have : a = '+' ∨ a = '-' := by
            rcases hsign with ⟨hs | hs, _⟩ | ⟨hs, _⟩
            · rw [hs] at h; simp at h
            · rw [hs] at h; left; simpa using h
            · rw [hs] at h; right; simpa using h
          rcases this with h | h <;> rw [h] <;> decide
        · rw [isDigit_toLower a (hdig a h)]
          exact isDigit_ne a 'x' (hdig a h) (by decide)

theorem specialInf_none (neg : Bool) (nsign : Nat) (c : Char) (cs : List Char)
    (hc : c.toLower ≠ 'i') : specialInf neg nsign (c :: cs) = none := by
  have h0 : commonPrefixLenIgnoreCase (c :: cs) "infinity".toList = 0 := by
    show commonPrefixLenIgnoreCase (c :: cs) ('i' :: "nfinity".toList) = 0
    simp [commonPrefixLenIgnoreCase, hc]
  unfold specialInf
  rw [h0]
  simp

/-- A text that starts, after an optional sign, with a digit or a point is no
special value. -/
theorem special_none_of_number (sign : List Char) (h0 : Char) (tl : List Char)
    (hsign : sign = [] ∨ sign = ['+'] ∨ sign = ['-'])
    (hh : isDigit h0 = true ∨ h0 = '.') : special (sign ++ h0 :: tl) = none := by
  have hnd : ∀ l : Char, isDigit l = false → l ≠ '.' → h0 ≠ l := by
    intro l hl hl2
    rcases hh with hh | hh
    · exact isDigit_ne h0 l hh hl
    · rw [hh]; exact fun h => hl2 h.symm
  have hi : h0.toLower ≠ 'i' := by
    intro h
    rcases toLower_eq_i h0 h with h | h
    · exact hnd 'i' (by decide) (by decide) h
    · exact hnd 'I' (by decide) (by decide) h
  rcases hsign with hs | hs | hs
  · subst hs
    have h1 := hnd '+' (by decide) (by decide)
    have h2 := hnd '-' (by decide) (by decide)
    have h3 := hnd 'i' (by decide) (by decide)
    have h4 := hnd 'I' (by decide) (by decide)
    have h5 := hnd 'n' (by decide) (by decide)
    have h6 := hnd 'N' (by decide) (by decide)
    simp [special, h1, h2, h3, h4, h5, h6]
  · subst hs
    simp [special, specialInf_none _ _ h0 tl hi]
  · subst hs
    simp [special, specialInf_none _ _ h0 tl hi]

/-- The result of `strconv.ParseFloat` on a text in conventional decimal
notation, from its parts: the rounding of the mantissa scaled by the power of
ten the exponent read and the fraction digits give. -/
theorem ParseFloat_parts (value : String) (sign ip point fp expo : List Char) (neg : Bool)
    (ex ex' : Int)
    (hv : value.toList = sign ++ (ip ++ (point ++ (fp ++ expo))))
    (hsign : (sign = [] ∧ neg = false) ∨ (sign = ['+'] ∧ neg = false) ∨
      (sign = ['-'] ∧ neg = true))
    (hip : ∀ c ∈ ip, isDigit c = true) (hfp : ∀ c ∈ fp, isDigit c = true)
    (hpoint : point = ['.'] ∨ (point = [] ∧ fp = []))
    (hne : ip ++ fp ≠ [])
    (hexpo : IsExponentText expo ex)
    (hread : ∀ dp : Int, readExponent false dp false expo = some (dp + ex', false, []))
    (e : Int) (he : e = if digitsValue (ip ++ fp) ≠ 0 then ex' - (fp.length : Int) else 0) :
    ParseFloat value =
      if 0 ≤ e then roundToFloat64 neg (digitsValue (ip ++ fp) * 10 ^ e.toNat) 1
      else roundToFloat64 neg (digitsValue (ip ++ fp)) (10 ^ (-e).toNat) := by
  obtain ⟨hexpo1, hexpo2⟩ := IsExponentText_bytes expo ex hexpo
  have hrest : expo = [] ∨ ∃ c cs, expo = c :: cs ∧ c ≠ '_' ∧ isDigit c = false ∧
      (c = '.' → point = ['.']) := by
    rcases hexpo1 with h | ⟨c, cs, h, h1, h2, h3⟩
    · exact Or.inl h
    · exact Or.inr ⟨c, cs, h, h1, h2, fun hc => absurd hc h3⟩
  obtain ⟨st, hm, hu, hM, hsd, hdelta⟩ := readMantissa_decimal ip point fp expo hip hfp hpoint hrest
  have hsd1 : st.sawdigits = true := by
    rw [hsd]
    cases hl : ip ++ fp with
    | nil => exact absurd hl hne
    | cons _ _ => rfl
  obtain ⟨h0, tl, hbody, hh0⟩ : ∃ h0 tl, ip ++ (point ++ (fp ++ expo)) = h0 :: tl ∧
      (isDigit h0 = true ∨ h0 = '.') := by
    cases ip with
    | cons a as => exact ⟨a, _, rfl, Or.inl (hip a (by simp))⟩
    | nil =>
      rcases hpoint with hp | ⟨_, hf⟩
      · subst hp; exact ⟨'.', _, rfl, Or.inr rfl⟩
      · subst hf; exact absurd rfl hne
  have hxbody : ∀ a ∈ h0 :: tl, a.toLower ≠ 'x' := by
    rw [← hbody]
    intro a ha
    have hdig : ∀ a : Char, isDigit a = true → a.toLower ≠ 'x' := by
      intro a had
      rw [isDigit_toLower a had]
      exact isDigit_ne a 'x' had (by decide)
    rcases List.mem_append.mp ha with h | h
    · exact hdig a (hip a h)
    · rcases List.mem_append.mp h with h | h
      · rcases hpoint with hp | ⟨hp, _⟩
        · rw [hp] at h
          have : a = '.' := by simpa using h
          rw [this]; decide
        · rw [hp] at h; simp at h
      · rcases List.mem_append.mp h with h | h
        · exact hdig a (hfp a h)
        · exact hexpo2 a h
  have hnp : h0 ≠ '+' := by
    rcases hh0 with h | h
    · exact isDigit_ne h0 '+' h (by decide)
    · rw [h]; decide
  have hnm : h0 ≠ '-' := by
    rcases hh0 with h | h
    · exact isDigit_ne h0 '-' h (by decide)
    · rw [h]; decide
  have hspecial : special value.toList = none := by
    rw [hv, hbody]
    apply special_none_of_number _ _ _ _ hh0
    rcases hsign with ⟨h, _⟩ | ⟨h, _⟩ | ⟨h, _⟩
    · exact Or.inl h
    · exact Or.inr (Or.inl h)
    · exact Or.inr (Or.inr h)
  rw [hbody] at hm
  have hexp : (if st.mantissa ≠ 0 then
      ((if st.sawdot then st.dp else (st.nd : ℤ)) + ex') - (st.nd : ℤ) else 0) = e := by
    rw [he, hM]
    by_cases h0 : digitsValue (ip ++ fp) = 0
    · simp [h0]
    · simp only [ne_eq, h0, not_false_eq_true, if_true]
      linarith
  have hread2 := hread (if st.sawdot then st.dp else (st.nd : ℤ))
  have hrf : readFloat value.toList =
      some ⟨neg, false, digitsValue (ip ++ fp), e, []⟩ := by
    rw [hv, hbody]
    rcases hsign with ⟨hs, hn⟩ | ⟨hs, hn⟩ | ⟨hs, hn⟩
    · subst hs; subst hn
      have key := (readFloat_body h0 tl (h0 :: tl) expo st
        (fun a ha => hxbody a (List.mem_cons_of_mem _ ha))
        (by simp [hnp, hnm]) hm hu).2.2 hsd1 _ _ _ hread2
      rw [List.nil_append, key, hexp, hM]
      simp [hnm]
    · subst hs; subst hn
      have key := (readFloat_body '+' (h0 :: tl) (h0 :: tl) expo st hxbody
        (by simp) hm hu).2.2 hsd1 _ _ _ hread2
      rw [show ['+'] ++ h0 :: tl = '+' :: (h0 :: tl) from rfl, key, hexp, hM]
      simp
    · subst hs; subst hn
      have key := (readFloat_body '-' (h0 :: tl) (h0 :: tl) expo st hxbody
        (by simp) hm hu).2.2 hsd1 _ _ _ hread2
      rw [show ['-'] ++ h0 :: tl = '-' :: (h0 :: tl) from rfl, key, hexp, hM]
      simp
  unfold ParseFloat
  simp only [hspecial, hrf]
  simp


/-- On a text in conventional decimal notation whose exponent is below 100000
in magnitude, `strconv.ParseFloat` is the rounding of the number the text
denotes. -/
theorem ParseFloat_decimal (value : String) (neg : Bool) (ip fp : List Char) (ex : Int)
    (h : IsDecimalText value neg ip fp ex) (hex : |ex| < 100000) :
    ∃ num den : ℕ, 1 ≤ den ∧ (num : ℚ) / den = decimalValue ip fp ex ∧
      ParseFloat value = roundToFloat64 neg num den := by
  obtain ⟨sign, point, expo, hv, hsign, hip, hfp, hpoint, hne, hexpo⟩ := h
  obtain ⟨ex', hread, hval⟩ := readExponent_text expo ex hexpo
  have hex' := hval hex
  subst hex'
  have key := ParseFloat_parts value sign ip point fp expo neg ex' ex' hv hsign hip hfp hpoint
    hne hexpo hread _ rfl
  by_cases hM : digitsValue (ip ++ fp) = 0
  · refine ⟨0, 1, le_refl _, ?_, ?_⟩
    · simp [decimalValue, hM]
    · rw [key]; simp [hM]
  · simp only [ne_eq, hM, not_false_eq_true, if_true] at key
    by_cases he : 0 ≤ ex' - (fp.length : ℤ)
    · rw [if_pos he] at key
      obtain ⟨n, hn⟩ := Int.eq_ofNat_of_zero_le he
      rw [hn, Int.toNat_ofNat] at key
      refine ⟨_, 1, le_refl _, ?_, key⟩
      unfold decimalValue
      rw [hn, zpow_natCast]
      push_cast
      ring
    · rw [if_neg he] at key
      obtain ⟨n, hn⟩ := Int.eq_ofNat_of_zero_le (by omega : 0 ≤ -(ex' - (fp.length : ℤ)))
      rw [hn, Int.toNat_ofNat] at key
      refine ⟨_, _, Nat.one_le_pow _ _ (by norm_num), ?_, key⟩
      have hz : ex' - (fp.length : ℤ) = -(n : ℤ) := by omega
      unfold decimalValue
      rw [hz, zpow_neg, zpow_natCast]
      push_cast
      rw [div_eq_mul_inv]


/-- A text without underscore and without the letter x that
`strconv.ParseFloat` takes is, letter case aside, a special text, or it is in
conventional decimal notation. -/
theorem ParseFloat_shape (value : String) (f : Float64) (h : ParseFloat value = some f)
    (hus : '_' ∉ value.toList) (hx : 'x' ∉ value.toList) (hX : 'X' ∉ value.toList) :
    value.toList.map Char.toLower ∈
      ["nan".toList, "inf".toList, "+inf".toList, "-inf".toList,
        "infinity".toList, "+infinity".toList, "-infinity".toList] ∨
    ∃ (neg : Bool) (ip fp : List Char) (ex : Int), IsDecimalText value neg ip fp ex := by
  have hxl : ∀ a ∈ value.toList, a.toLower ≠ 'x' := by
    intro a ha hax
    rcases toLower_eq_x a hax with h1 | h1
    · exact hx (h1 ▸ ha)
    · exact hX (h1 ▸ ha)
  unfold ParseFloat at h
  simp only at h
  rcases hs : special value.toList with _ | ⟨g, n⟩
  swap
  · rw [hs] at h
    simp only at h
    split at h
    · rename_i hn
      exact Or.inl (special_whole _ g n hs hn).2
    · exact absurd h (by simp)
  rw [hs] at h
  simp only at h
  rcases hr : readFloat value.toList with _ | r
  · rw [hr] at h; exact absurd h (by simp)
  rw [hr] at h
  simp only at h
  have hrest : r.rest = [] := by
    by_contra hne
    rw [if_pos hne] at h
    exact absurd h (by simp)
  right
  rcases hl : value.toList with _ | ⟨c, cs⟩
  · rw [hl] at hr; simp [readFloat] at hr
  rw [hl] at hr hus hxl
  have hxcs : ∀ a ∈ cs, a.toLower ≠ 'x' := fun a ha => hxl a (List.mem_cons_of_mem _ ha)
  -- the sign and the text after it
  obtain ⟨sign, body, neg, hsb, hsign, hbody, hneg⟩ :
      ∃ (sign body : List Char) (neg : Bool), c :: cs = sign ++ body ∧
        ((sign = [] ∧ neg = false) ∨ (sign = ['+'] ∧ neg = false) ∨
          (sign = ['-'] ∧ neg = true)) ∧
        (if c = '+' ∨ c = '-' then cs else c :: cs) = body ∧ decide (c = '-') = neg := by
    by_cases hp : c = '+'
    · subst hp
      exact ⟨['+'], cs, false, rfl, Or.inr (Or.inl ⟨rfl, rfl⟩), by simp, by decide⟩
    · by_cases hm : c = '-'
      · subst hm
        exact ⟨['-'], cs, true, rfl, Or.inr (Or.inr ⟨rfl, rfl⟩), by simp, by decide⟩
      · exact ⟨[], c :: cs, false, rfl, Or.inl ⟨rfl, rfl⟩, by simp [hp, hm], by simp [hm]⟩
  have husb : '_' ∉ body := by
    intro hm
    apply hus
    rw [hsb]
    exact List.mem_append_right _ hm
  obtain ⟨ip, point, fp, rest, hb, hip, hfp, hpoint, hrest1⟩ := mantissa_split body husb
  obtain ⟨st, hm, hu, hM, hsd, hdelta⟩ := readMantissa_decimal ip point fp rest hip hfp hpoint hrest1
  rw [← hb] at hm
  obtain ⟨k1, k2, k3⟩ := readFloat_body c cs body rest st hxcs hbody hm hu
  have hsd1 : st.sawdigits = true := by
    by_contra hc
    rw [k1 (by simpa using hc)] at hr
    exact absurd hr (by simp)
  have hne : ip ++ fp ≠ [] := by
    intro he
    rw [hsd, he] at hsd1
    exact absurd hsd1 (by decide)
  have husr : '_' ∉ rest := by
    intro hm
    apply husb
    rw [hb]
    exact List.mem_append_right _ (List.mem_append_right _ (List.mem_append_right _ hm))
  rcases hre : readExponent false (if st.sawdot then st.dp else (st.nd : ℤ)) false rest with
    _ | ⟨dp, us, rest2⟩
  · rw [k2 hsd1 hre] at hr
    exact absurd hr (by simp)
  · rw [k3 hsd1 dp us rest2 hre] at hr
    split at hr
    · exact absurd hr (by simp)
    · rw [Option.some.injEq] at hr
      have hr2 : rest2 = [] := by rw [← hrest, ← hr]
      rw [hr2] at hre
      obtain ⟨ex, hex⟩ := readExponent_whole _ _ _ rest husr hre
      exact ⟨neg, ip, fp, ex, sign, point, rest, by rw [hl, hsb, hb], hsign, hip, hfp, hpoint,
        hne, hex⟩

/-! ## The special texts, in any letter case -/

/-- A text that is, letter case aside, the start of `pre` shares its whole
length with `pre`. -/
theorem commonPrefixLenIgnoreCase_append (s : List Char) :
    ∀ p q : List Char, s.map Char.toLower = p →
      commonPrefixLenIgnoreCase s (p ++ q) = s.length := by
  induction s with
  | nil =>
    intro p q h
    simp [commonPrefixLenIgnoreCase]
  | cons c cs ih =>
    intro p q h
    cases p with
    | nil => simp at h
    | cons a p =>
      simp only [List.map_cons, List.cons.injEq] at h
      simp only [List.cons_append, commonPrefixLenIgnoreCase, h.1, if_true, List.length_cons]
      exact congrArg (· + 1) (ih p q h.2)

theorem specialInf_text (neg : Bool) (nsign : Nat) (s : List Char)
    (h : s.map Char.toLower = "inf".toList ∨ s.map Char.toLower = "infinity".toList) :
    specialInf neg nsign s = some (Float64.inf neg, nsign + s.length) := by
  unfold specialInf
  rcases h with h | h
  · have hlen : s.length = 3 := by
      have := congrArg List.length h
      simpa using this
    have e : "infinity".toList = "inf".toList ++ "inity".toList := by decide
    rw [e, commonPrefixLenIgnoreCase_append s _ _ h, hlen]
    simp
  · have hlen : s.length = 8 := by
      have := congrArg List.length h
      simpa using this
    have e : "infinity".toList = "infinity".toList ++ [] := by decide
    rw [e, commonPrefixLenIgnoreCase_append s _ _ h, hlen]
    simp

/-- The special texts are taken whole by `special`, in any letter case. -/
theorem special_text (s : List Char) :
    (s.map Char.toLower = "nan".toList → special s = some (Float64.nan, s.length)) ∧
    (s.map Char.toLower = "inf".toList ∨ s.map Char.toLower = "infinity".toList →
      special s = some (Float64.inf false, s.length)) ∧
    (s.map Char.toLower = "+inf".toList ∨ s.map Char.toLower = "+infinity".toList →
      special s = some (Float64.inf false, s.length)) ∧
    (s.map Char.toLower = "-inf".toList ∨ s.map Char.toLower = "-infinity".toList →
      special s = some (Float64.inf true, s.length)) := by
  refine ⟨fun h => ?_, fun h => ?_, fun h => ?_, fun h => ?_⟩
  · cases s with
    | nil => simp at h
    | cons c cs =>
      have hc : c.toLower = 'n' := by
        have := h
        simp only [List.map_cons] at this
        exact (List.cons.inj this).1
      have hlen : (c :: cs).length = 3 := by
        have := congrArg List.length h
        simpa using this
      have e : "nan".toList = "nan".toList ++ [] := by decide
      have hcp := commonPrefixLenIgnoreCase_append (c :: cs) _ [] h
      rw [← e, hlen] at hcp
      rcases toLower_eq_n c hc with h1 | h1 <;> subst h1 <;>
        simp only [special] <;> rw [hcp, hlen] <;> simp
  · cases s with
    | nil => rcases h with h | h <;> simp at h
    | cons c cs =>
      have hc : c.toLower = 'i' := by
        rcases h with h | h <;>
          · simp only [List.map_cons] at h
            exact (List.cons.inj h).1
      have hsp := specialInf_text false 0 (c :: cs) h
      rw [Nat.zero_add] at hsp
      rcases toLower_eq_i c hc with h1 | h1 <;> subst h1 <;>
        simp only [special] <;> rw [← hsp] <;> simp
  · cases s with
    | nil => rcases h with h | h <;> simp at h
    | cons c cs =>
      have hc : c.toLower = '+' := by
        rcases h with h | h <;>
          · simp only [List.map_cons] at h
            exact (List.cons.inj h).1
      have hcs : cs.map Char.toLower = "inf".toList ∨
          cs.map Char.toLower = "infinity".toList := by
        rcases h with h | h
        · left
          simp only [List.map_cons] at h
          exact (List.cons.inj h).2
        · right
          simp only [List.map_cons] at h
          exact (List.cons.inj h).2
      have h1 := toLower_eq_low c '+' (by decide) hc
      subst h1
      have hsp := specialInf_text false 1 cs hcs
      simp only [special]
      simp [hsp, Nat.add_comm]
  · cases s with
    | nil => rcases h with h | h <;> simp at h
    | cons c cs =>
      have hc : c.toLower = '-' := by
        rcases h with h | h <;>
          · simp only [List.map_cons] at h
            exact (List.cons.inj h).1
      have hcs : cs.map Char.toLower = "inf".toList ∨
          cs.map Char.toLower = "infinity".toList := by
        rcases h with h | h
        · left
          simp only [List.map_cons] at h
          exact (List.cons.inj h).2
        · right
          simp only [List.map_cons] at h
          exact (List.cons.inj h).2
      have h1 := toLower_eq_low c '-' (by decide) hc
      subst h1
      have hsp := specialInf_text true 1 cs hcs
      simp only [special]
      simp [hsp, Nat.add_comm]

/-- `strconv.ParseFloat` returns a NaN or an infinity, without error, for the
special texts in any letter case. -/
theorem ParseFloat_special (value : String) :
    (value.toList.map Char.toLower = "nan".toList → ParseFloat value = some Float64.nan) ∧
    (value.toList.map Char.toLower ∈
        ["inf".toList, "+inf".toList, "infinity".toList, "+infinity".toList] →
      ParseFloat value = some (Float64.inf false)) ∧
    (value.toList.map Char.toLower ∈ ["-inf".toList, "-infinity".toList] →
      ParseFloat value = some (Float64.inf true)) := by
  obtain ⟨h1, h2, h3, h4⟩ := special_text value.toList
  refine ⟨fun h => ?_, fun h => ?_, fun h => ?_⟩
  · unfold ParseFloat
    simp only [h1 h]
    simp
  · have hsp : special value.toList = some (Float64.inf false, value.toList.length) := by
      simp only [List.mem_cons, List.mem_singleton, List.mem_nil_iff, or_false] at h
      rcases h with h | h | h | h
      · exact h2 (Or.inl h)
      · exact h3 (Or.inl h)
      · exact h2 (Or.inr h)
      · exact h3 (Or.inr h)
    unfold ParseFloat
    simp only [hsp]
    simp
  · have hsp : special value.toList = some (Float64.inf true, value.toList.length) := by
      simp only [List.mem_cons, List.mem_singleton, List.mem_nil_iff, or_false] at h
      rcases h with h | h
      · exact h4 (Or.inl h)
      · exact h4 (Or.inr h)
    unfold ParseFloat
    simp only [hsp]
    simp

/-! ## Correct rounding -/

/-- With enough fuel `log2Fuel` is the floor of the binary logarithm. -/
theorem log2Fuel_spec (fuel : Nat) :
    ∀ n, 1 ≤ n → n ≤ fuel → 2 ^ log2Fuel fuel n ≤ n ∧ n < 2 ^ (log2Fuel fuel n + 1) := by
  induction fuel with
  | zero => intro n h1 h2; omega
  | succ fuel ih =>
    intro n h1 h2
    simp only [log2Fuel]
    split
    · rename_i h
      obtain ⟨a, b⟩ := ih (n / 2) (by omega) (by omega)
      constructor
      · rw [pow_succ]; omega
      · rw [pow_succ]; omega
    · simp; omega

theorem floorLog2_spec (n : Nat) (h : 1 ≤ n) :
    2 ^ floorLog2 n ≤ n ∧ n < 2 ^ (floorLog2 n + 1) :=
  log2Fuel_spec n n h (le_refl n)

/-- The function `ratLog2` is the floor of the binary logarithm of the quotient. -/
theorem ratLog2_spec (num den : Nat) (hn : 1 ≤ num) (hd : 1 ≤ den) :
    (2 : ℚ) ^ ratLog2 num den ≤ (num : ℚ) / den ∧
      (num : ℚ) / den < (2 : ℚ) ^ (ratLog2 num den + 1) := by
  obtain ⟨a1, a2⟩ := floorLog2_spec num hn
  obtain ⟨b1, b2⟩ := floorLog2_spec den hd
  have hdq : (0 : ℚ) < den := by exact_mod_cast hd
  have A1 : (2 : ℚ) ^ (floorLog2 num : ℤ) ≤ num := by
    rw [zpow_natCast]; exact_mod_cast a1
  have A2 : (num : ℚ) < (2 : ℚ) ^ ((floorLog2 num : ℤ) + 1) := by
    have : (num : ℚ) < (2 : ℚ) ^ (floorLog2 num + 1) := by exact_mod_cast a2
    rwa [← zpow_natCast, Nat.cast_add, Nat.cast_one] at this
  have B1 : (2 : ℚ) ^ (floorLog2 den : ℤ) ≤ den := by
    rw [zpow_natCast]; exact_mod_cast b1
  have B2 : (den : ℚ) < (2 : ℚ) ^ ((floorLog2 den : ℤ) + 1) := by
    have : (den : ℚ) < (2 : ℚ) ^ (floorLog2 den + 1) := by exact_mod_cast b2
    rwa [← zpow_natCast, Nat.cast_add, Nat.cast_one] at this
  set a : ℤ := (floorLog2 num : ℤ) with ha
  set b : ℤ := (floorLog2 den : ℤ) with hb
  have hpos : ∀ z : ℤ, (0 : ℚ) < (2 : ℚ) ^ z := fun z => zpow_pos (by norm_num) z
  -- bounds on the quotient
  have up : (num : ℚ) / den < (2 : ℚ) ^ (a - b + 1) := by
    rw [div_lt_iff₀ hdq]
    calc (num : ℚ) < (2 : ℚ) ^ (a + 1) := A2
      _ = (2 : ℚ) ^ (a - b + 1) * (2 : ℚ) ^ b := by
          rw [← zpow_add₀ (by norm_num : (2 : ℚ) ≠ 0)]; congr 1; ring
      _ ≤ (2 : ℚ) ^ (a - b + 1) * den := by
          exact mul_le_mul_of_nonneg_left B1 (le_of_lt (hpos _))
  have lo : (2 : ℚ) ^ (a - b - 1) ≤ (num : ℚ) / den := by
    rw [le_div_iff₀ hdq]
    calc (2 : ℚ) ^ (a - b - 1) * den ≤ (2 : ℚ) ^ (a - b - 1) * (2 : ℚ) ^ (b + 1) := by
          exact mul_le_mul_of_nonneg_left (le_of_lt B2) (le_of_lt (hpos _))
      _ = (2 : ℚ) ^ a := by
          rw [← zpow_add₀ (by norm_num : (2 : ℚ) ≠ 0)]; congr 1; ring
      _ ≤ num := A1
  -- the test of the definition is the comparison with 2 ^ est
  have test : ratLog2 num den = if (2 : ℚ) ^ (a - b) ≤ (num : ℚ) / den then a - b
      else a - b - 1 := by
    unfold ratLog2
    simp only [← ha, ← hb]
    by_cases h0 : 0 ≤ a - b
    · simp only [h0, if_true]
      have hc : (den * 2 ^ (a - b).toNat ≤ num) ↔ (2 : ℚ) ^ (a - b) ≤ (num : ℚ) / den := by
        rw [le_div_iff₀ hdq]
        have e : (2 : ℚ) ^ (a - b) = ((2 ^ (a - b).toNat : ℕ) : ℚ) := by
          rw [Nat.cast_pow, ← zpow_natCast, Int.toNat_of_nonneg h0]; norm_num
        rw [e, mul_comm]
        exact_mod_cast Iff.rfl
      simp only [hc]
    · simp only [h0, if_false]
      have h1 : 0 ≤ -(a - b) := by omega
      have hc : (den ≤ num * 2 ^ (-(a - b)).toNat) ↔ (2 : ℚ) ^ (a - b) ≤ (num : ℚ) / den := by
        rw [le_div_iff₀ hdq]
        have e : ((2 ^ (-(a - b)).toNat : ℕ) : ℚ) = (2 : ℚ) ^ (-(a - b)) := by
          rw [Nat.cast_pow, ← zpow_natCast, Int.toNat_of_nonneg h1]; norm_num
        have e2 : (2 : ℚ) ^ (a - b) * (2 : ℚ) ^ (-(a - b)) = 1 := by
          rw [← zpow_add₀ (by norm_num : (2 : ℚ) ≠ 0)]; simp
        constructor
        · intro h
          have h' : (den : ℚ) ≤ num * (2 : ℚ) ^ (-(a - b)) := by
            rw [← e]; exact_mod_cast h
          calc (2 : ℚ) ^ (a - b) * den ≤ (2 : ℚ) ^ (a - b) * (num * (2 : ℚ) ^ (-(a - b))) :=
                mul_le_mul_of_nonneg_left h' (le_of_lt (hpos _))
            _ = num * ((2 : ℚ) ^ (a - b) * (2 : ℚ) ^ (-(a - b))) := by ring
            _ = num := by rw [e2, mul_one]
        · intro h
          have h' : (den : ℚ) ≤ num * (2 : ℚ) ^ (-(a - b)) := by
            calc (den : ℚ) = ((2 : ℚ) ^ (a - b) * den) * (2 : ℚ) ^ (-(a - b)) := by
                  rw [mul_comm ((2 : ℚ) ^ (a - b)), mul_assoc, e2, mul_one]
              _ ≤ num * (2 : ℚ) ^ (-(a - b)) :=
                  mul_le_mul_of_nonneg_right h (le_of_lt (hpos _))
          rw [← e] at h'
          exact_mod_cast h'
      simp only [hc]
  rw [test]
  by_cases h : (2 : ℚ) ^ (a - b) ≤ (num : ℚ) / den
  · rw [if_pos h]
    exact ⟨h, up⟩
  · rw [if_neg h]
    refine ⟨lo, ?_⟩
    have : a - b - 1 + 1 = a - b := by ring
    rw [this]
    exact lt_of_not_le h


/-- Rounding a quotient to the nearest integer, ties to even. -/
theorem round_half_even_nearest (n d k1 : ℕ) (hd : 0 < d)
    (hk1 : k1 = if d < 2 * (n % d) ∨ (2 * (n % d) = d ∧ (n / d) % 2 = 1)
      then n / d + 1 else n / d) :
    |(k1 : ℚ) - (n : ℚ) / d| ≤ (n : ℚ) / d - (n / d : ℕ) ∧
    ∀ j : ℕ, |(k1 : ℚ) - (n : ℚ) / d| ≤ |(j : ℚ) - (n : ℚ) / d| ∧
      (|(j : ℚ) - (n : ℚ) / d| = |(k1 : ℚ) - (n : ℚ) / d| → j = k1 ∨ k1 % 2 = 0) := by
  have hdq : (0 : ℚ) < d := by exact_mod_cast hd
  set k := n / d with hk
  set r := n % d with hr
  have hn : n = d * k + r := (Nat.div_add_mod n d).symm
  have hrd : r < d := Nat.mod_lt n hd
  set ρ : ℚ := (r : ℚ) / d with hρ
  have hρ0 : 0 ≤ ρ := by positivity
  have hρ1 : ρ < 1 := by
    rw [hρ, div_lt_one hdq]; exact_mod_cast hrd
  have hy : (n : ℚ) / d = k + ρ := by
    rw [hρ]
    have : (n : ℚ) = d * k + r := by exact_mod_cast hn
    rw [this]; field_simp; ring
  have c1 : d < 2 * r ↔ 1 / 2 < ρ := by
    rw [hρ, lt_div_iff₀ hdq]
    constructor
    · intro h
      have : (d : ℚ) < 2 * r := by exact_mod_cast h
      linarith
    · intro h
      have : (d : ℚ) < 2 * r := by linarith
      exact_mod_cast this
  have c2 : 2 * r = d ↔ ρ = 1 / 2 := by
    rw [hρ, div_eq_iff (ne_of_gt hdq)]
    constructor
    · intro h
      have : (2 : ℚ) * r = d := by exact_mod_cast h
      linarith
    · intro h
      have : (2 : ℚ) * r = d := by linarith
      exact_mod_cast this
  rw [hy]
  by_cases hup : d < 2 * r ∨ (2 * r = d ∧ k % 2 = 1)
  · rw [if_pos hup] at hk1
    have hρh : 1 / 2 ≤ ρ := by
      rcases hup with h | ⟨h, _⟩
      · exact le_of_lt (c1.mp h)
      · exact le_of_eq (c2.mp h).symm
    have e1 : |(k1 : ℚ) - (k + ρ)| = 1 - ρ := by
      rw [hk1]; push_cast
      rw [abs_of_nonneg (by linarith)]; ring
    rw [e1]
    refine ⟨by linarith, fun j => ?_⟩
    rcases Nat.lt_or_ge k j with hj | hj
    · have hj' : (k : ℚ) + 1 ≤ j := by exact_mod_cast hj
      have e2 : |(j : ℚ) - (k + ρ)| = j - k - ρ := by
        rw [abs_of_nonneg (by linarith)]; ring
      rw [e2]
      refine ⟨by linarith, fun h => ?_⟩
      left
      have : (j : ℚ) = k + 1 := by linarith
      rw [hk1]; exact_mod_cast this
    · have hj' : (j : ℚ) ≤ k := by exact_mod_cast hj
      have e2 : |(j : ℚ) - (k + ρ)| = k + ρ - j := by
        rw [abs_of_nonpos (by linarith)]; ring
      rw [e2]
      refine ⟨by linarith, fun h => ?_⟩
      right
      have hρe : ρ = 1 / 2 := by linarith
      rcases hup with h1 | ⟨_, h2⟩
      · have := c1.mp h1; linarith
      · rw [hk1]; omega
  · rw [if_neg hup] at hk1
    have hρh : ρ ≤ 1 / 2 := by
      by_contra hc
      exact hup (Or.inl (c1.mpr (lt_of_not_le hc)))
    have e1 : |(k1 : ℚ) - (k + ρ)| = ρ := by
      rw [hk1]
      rw [abs_of_nonpos (by linarith)]; ring
    rw [e1]
    refine ⟨by linarith, fun j => ?_⟩
    rcases Nat.lt_or_ge k j with hj | hj
    · have hj' : (k : ℚ) + 1 ≤ j := by exact_mod_cast hj
      have e2 : |(j : ℚ) - (k + ρ)| = j - k - ρ := by
        rw [abs_of_nonneg (by linarith)]; ring
      rw [e2]
      refine ⟨by linarith, fun h => ?_⟩
      right
      have hρe : ρ = 1 / 2 := by linarith
      have hodd : ¬ (k % 2 = 1) := fun ho => hup (Or.inr ⟨c2.mpr hρe, ho⟩)
      rw [hk1]; omega
    · have hj' : (j : ℚ) ≤ k := by exact_mod_cast hj
      have e2 : |(j : ℚ) - (k + ρ)| = k + ρ - j := by
        rw [abs_of_nonpos (by linarith)]; ring
      rw [e2]
      refine ⟨by linarith, fun h => ?_⟩
      left
      have : (j : ℚ) = k := by linarith
      rw [hk1]; exact_mod_cast this


/-- The double encoded by `s * 2^52 + k1`: its magnitude is `k1 * 2^(s - 1074)`. -/
theorem decode_magnitude (neg : Bool) (s k1 : ℕ) (h : k1 ≤ 2 ^ 53)
    (hs : k1 < 2 ^ 52 → s = 0) :
    (Float64.mk neg ((s * 2 ^ 52 + k1) / 2 ^ 52) ((s * 2 ^ 52 + k1) % 2 ^ 52)).magnitude =
        (k1 : ℚ) * (2 : ℚ) ^ ((s : ℤ) - 1074) ∧
      (s * 2 ^ 52 + k1) % 2 ^ 52 < 2 ^ 52 ∧
      (k1 % 2 = 0 → ((s * 2 ^ 52 + k1) % 2 ^ 52) % 2 = 0) := by
  have h52 : (2 : ℕ) ^ 52 = 4503599627370496 := by norm_num
  have h53 : (2 : ℕ) ^ 53 = 9007199254740992 := by norm_num
  rw [h52] at hs ⊢
  rw [h53] at h
  refine ⟨?_, Nat.mod_lt _ (by norm_num), fun hev => by omega⟩
  unfold Float64.magnitude
  simp only
  by_cases c1 : k1 < 4503599627370496
  · have hs0 := hs c1
    subst hs0
    have e1 : (0 * 4503599627370496 + k1) / 4503599627370496 = 0 := by omega
    have e2 : (0 * 4503599627370496 + k1) % 4503599627370496 = k1 := by omega
    rw [e1, e2]
    simp
  · by_cases c2 : k1 < 9007199254740992
    · have e1 : (s * 4503599627370496 + k1) / 4503599627370496 = s + 1 := by omega
      have e2 : (s * 4503599627370496 + k1) % 4503599627370496 = k1 - 4503599627370496 := by
        omega
      rw [e1, e2, if_neg (by omega)]
      have e3 : 2 ^ 52 + (k1 - 4503599627370496) = k1 := by omega
      rw [e3]
      have e4 : (((s + 1 : ℕ) : ℤ) - 1075) = (s : ℤ) - 1074 := by push_cast; ring
      rw [e4]
    · have hk : k1 = 9007199254740992 := by omega
      subst hk
      have e1 : (s * 4503599627370496 + 9007199254740992) / 4503599627370496 = s + 2 := by
        omega
      have e2 : (s * 4503599627370496 + 9007199254740992) % 4503599627370496 = 0 := by omega
      rw [e1, e2, if_neg (by omega)]
      have e4 : (((s + 2 : ℕ) : ℤ) - 1075) = ((s : ℤ) - 1074) + 1 := by push_cast; ring
      rw [e4, zpow_add₀ (by norm_num : (2 : ℚ) ≠ 0)]
      norm_num
      ring

/-- Every double is a multiple of `2^(s - 1074)`, or lies below
`2^52 * 2^(s - 1074)` with `0 < s`. -/
theorem magnitude_grid (g : Float64) (hf : g.frac < 2 ^ 52) (s : ℕ) :
    (∃ j : ℕ, g.magnitude = (j : ℚ) * (2 : ℚ) ^ ((s : ℤ) - 1074)) ∨
      (0 < s ∧ g.magnitude < (2 : ℚ) ^ 52 * (2 : ℚ) ^ ((s : ℤ) - 1074)) := by
  have two : (2 : ℚ) ≠ 0 := by norm_num
  have hpos : ∀ z : ℤ, (0 : ℚ) < (2 : ℚ) ^ z := fun z => zpow_pos (by norm_num) z
  unfold Float64.magnitude
  by_cases he : g.expo = 0
  · rw [if_pos he]
    by_cases hs : s = 0
    · left
      exact ⟨g.frac, by subst hs; simp⟩
    · right
      refine ⟨Nat.pos_of_ne_zero hs, ?_⟩
      have h1 : (g.frac : ℚ) < (2 : ℚ) ^ 52 := by exact_mod_cast hf
      have h2 : (2 : ℚ) ^ (-1074 : ℤ) ≤ (2 : ℚ) ^ ((s : ℤ) - 1074) :=
        zpow_le_zpow_right₀ (by norm_num) (by omega)
      calc (g.frac : ℚ) * (2 : ℚ) ^ (-1074 : ℤ) < (2 : ℚ) ^ 52 * (2 : ℚ) ^ (-1074 : ℤ) :=
            mul_lt_mul_of_pos_right h1 (hpos _)
        _ ≤ (2 : ℚ) ^ 52 * (2 : ℚ) ^ ((s : ℤ) - 1074) :=
            mul_le_mul_of_nonneg_left h2 (by positivity)
  · rw [if_neg he]
    by_cases hs : s + 1 ≤ g.expo
    · left
      refine ⟨(2 ^ 52 + g.frac) * 2 ^ (g.expo - 1 - s), ?_⟩
      have e : ((g.expo : ℤ) - 1075) = ((g.expo - 1 - s : ℕ) : ℤ) + ((s : ℤ) - 1074) := by
        omega
      rw [e, zpow_add₀ two, zpow_natCast]
      push_cast
      ring
    · right
      have hs' : g.expo ≤ s := by omega
      refine ⟨by omega, ?_⟩
      have h1 : ((2 ^ 52 + g.frac : ℕ) : ℚ) < (2 : ℚ) ^ 53 := by
        have : 2 ^ 52 + g.frac < 2 ^ 53 := by omega
        exact_mod_cast this
      have h2 : (2 : ℚ) ^ ((g.expo : ℤ) - 1075) ≤ (2 : ℚ) ^ ((s : ℤ) - 1075) :=
        zpow_le_zpow_right₀ (by norm_num) (by omega)
      have e : (2 : ℚ) ^ 52 * (2 : ℚ) ^ ((s : ℤ) - 1074) =
          (2 : ℚ) ^ 53 * (2 : ℚ) ^ ((s : ℤ) - 1075) := by
        have : ((s : ℤ) - 1074) = ((s : ℤ) - 1075) + 1 := by ring
        rw [this, zpow_add₀ two]
        norm_num
        ring
      rw [e]
      calc ((2 ^ 52 + g.frac : ℕ) : ℚ) * (2 : ℚ) ^ ((g.expo : ℤ) - 1075)
          < (2 : ℚ) ^ 53 * (2 : ℚ) ^ ((g.expo : ℤ) - 1075) :=
            mul_lt_mul_of_pos_right h1 (hpos _)
        _ ≤ (2 : ℚ) ^ 53 * (2 : ℚ) ^ ((s : ℤ) - 1075) :=
            mul_le_mul_of_nonneg_left h2 (by positivity)


theorem roundToFloat64_unfold (neg : Bool) (num den : ℕ) (h0 : num ≠ 0)
    (q : ℤ) (s n d k1 : ℕ)
    (hq : q = max (ratLog2 num den - 52) (-1074))
    (hn : n = if 0 ≤ q then num else num * 2 ^ (-q).toNat)
    (hd : d = if 0 ≤ q then den * 2 ^ q.toNat else den)
    (hk1 : k1 = if d < 2 * (n % d) ∨ (2 * (n % d) = d ∧ (n / d) % 2 = 1)
      then n / d + 1 else n / d)
    (hs : s = (q + 1074).toNat) :
    roundToFloat64 neg num den =
      if 2047 * 2 ^ 52 ≤ s * 2 ^ 52 + k1 then none
      else some ⟨neg, (s * 2 ^ 52 + k1) / 2 ^ 52, (s * 2 ^ 52 + k1) % 2 ^ 52⟩ := by
  subst hq hn hd hk1 hs
  unfold roundToFloat64
  rw [if_neg h0]

/-- The quantities of the rounding: the scaled quotient and its bounds. -/
theorem scaled_quotient (num den : ℕ) (hn1 : 1 ≤ num) (hd1 : 1 ≤ den)
    (q : ℤ) (s n d : ℕ)
    (hq : q = max (ratLog2 num den - 52) (-1074))
    (hn : n = if 0 ≤ q then num else num * 2 ^ (-q).toNat)
    (hd : d = if 0 ≤ q then den * 2 ^ q.toNat else den)
    (hs : s = (q + 1074).toNat) :
    (s : ℤ) = q + 1074 ∧ 0 < d ∧
      (num : ℚ) / den = (n : ℚ) / d * (2 : ℚ) ^ q ∧
      (n : ℚ) / d < (2 : ℚ) ^ 53 ∧
      (0 < s → (2 : ℚ) ^ 52 ≤ (n : ℚ) / d) ∧
      (∀ z : ℤ, (2 : ℚ) ^ z ≤ (num : ℚ) / den → z - 52 ≤ q) ∧
      (∀ z : ℤ, -1021 ≤ z → (num : ℚ) / den < (2 : ℚ) ^ z → q ≤ z - 53) := by
  have two : (2 : ℚ) ≠ 0 := by norm_num
  have hpos : ∀ z : ℤ, (0 : ℚ) < (2 : ℚ) ^ z := fun z => zpow_pos (by norm_num) z
  obtain ⟨L1, L2⟩ := ratLog2_spec num den hn1 hd1
  set L := ratLog2 num den with hL
  have hq1 : -1074 ≤ q := by rw [hq]; exact le_max_right _ _
  have hsz : (s : ℤ) = q + 1074 := by rw [hs]; exact Int.toNat_of_nonneg (by omega)
  have hdenq : (0 : ℚ) < den := by exact_mod_cast hd1
  have hdpos : 0 < d := by
    rw [hd]; split
    · exact Nat.mul_pos hd1 (by positivity)
    · exact hd1
  have hx : (num : ℚ) / den = (n : ℚ) / d * (2 : ℚ) ^ q := by
    rw [hn, hd]
    by_cases h : 0 ≤ q
    · rw [if_pos h, if_pos h]
      push_cast
      rw [← zpow_natCast, Int.toNat_of_nonneg h]
      field_simp
      ring
    · rw [if_neg h, if_neg h]
      have h1 : 0 ≤ -q := by omega
      have e2 : (2 : ℚ) ^ (-q) * (2 : ℚ) ^ q = 1 := by
        rw [← zpow_add₀ two]; simp
      push_cast
      rw [← zpow_natCast, Int.toNat_of_nonneg h1]
      calc (num : ℚ) / den = (num : ℚ) / den * ((2 : ℚ) ^ (-q) * (2 : ℚ) ^ q) := by
            rw [e2, mul_one]
        _ = (num : ℚ) * (2 : ℚ) ^ (-q) / den * (2 : ℚ) ^ q := by ring
  have hy : (n : ℚ) / d = (num : ℚ) / den * (2 : ℚ) ^ (-q) := by
    rw [hx, mul_assoc, ← zpow_add₀ two]; simp
  have hqL : L - 52 ≤ q := by rw [hq]; exact le_max_left _ _
  refine ⟨hsz, hdpos, hx, ?_, ?_, ?_, ?_⟩
  · -- below 2^53
    rw [hy]
    calc (num : ℚ) / den * (2 : ℚ) ^ (-q) < (2 : ℚ) ^ (L + 1) * (2 : ℚ) ^ (-q) :=
          mul_lt_mul_of_pos_right L2 (hpos _)
      _ = (2 : ℚ) ^ (L + 1 - q) := by rw [← zpow_add₀ two]; congr 1
      _ ≤ (2 : ℚ) ^ (53 : ℤ) := zpow_le_zpow_right₀ (by norm_num) (by omega)
      _ = (2 : ℚ) ^ 53 := by norm_cast
  · intro hs0
    have hqe : q = L - 52 := by
      rw [hq]
      apply max_eq_left
      by_contra hc
      have : q = -1074 := by rw [hq]; exact max_eq_right (by omega)
      omega
    rw [hy]
    calc (2 : ℚ) ^ 52 = (2 : ℚ) ^ (52 : ℤ) := by norm_cast
      _ = (2 : ℚ) ^ L * (2 : ℚ) ^ (-q) := by
          rw [← zpow_add₀ two]; congr 1; omega
      _ ≤ (num : ℚ) / den * (2 : ℚ) ^ (-q) :=
          mul_le_mul_of_nonneg_right L1 (le_of_lt (hpos _))
  · intro z hz
    have hlt : (2 : ℚ) ^ z < (2 : ℚ) ^ (L + 1) := lt_of_le_of_lt hz L2
    have : z < L + 1 := (zpow_lt_zpow_iff_right₀ (by norm_num : (1 : ℚ) < 2)).mp hlt
    omega
  · intro z hz1 hz
    have hlt : (2 : ℚ) ^ L < (2 : ℚ) ^ z := lt_of_le_of_lt L1 hz
    have hLz : L < z := (zpow_lt_zpow_iff_right₀ (by norm_num : (1 : ℚ) < 2)).mp hlt
    rw [hq]
    exact max_le (by omega) (by omega)


/-- `roundToFloat64` is rounding to the nearest double, ties to even, and it
fails exactly from `2^1024 - 2^970` on. -/
theorem roundToFloat64_spec (neg : Bool) (num den : ℕ) (hd1 : 1 ≤ den) :
    ((num : ℚ) / den < (2 : ℚ) ^ 1024 - (2 : ℚ) ^ 970 →
      ∃ f, roundToFloat64 neg num den = some f ∧ f.sign = neg ∧
        IsNearestFloat64 ((num : ℚ) / den) f) ∧
    ((2 : ℚ) ^ 1024 - (2 : ℚ) ^ 970 ≤ (num : ℚ) / den →
      roundToFloat64 neg num den = none) := by
  have two : (2 : ℚ) ≠ 0 := by norm_num
  have hpos : ∀ z : ℤ, (0 : ℚ) < (2 : ℚ) ^ z := fun z => zpow_pos (by norm_num) z
  -- the threshold in terms of P = 2^970
  have hP : (0 : ℚ) < (2 : ℚ) ^ 970 := by positivity
  have e1024 : (2 : ℚ) ^ 1024 = (2 : ℚ) ^ 54 * (2 : ℚ) ^ 970 := by rw [← pow_add]
  have e1023 : (2 : ℚ) ^ (1023 : ℤ) = (2 : ℚ) ^ 53 * (2 : ℚ) ^ 970 := by
    rw [zpow_ofNat, ← pow_add]
  have e971 : (2 : ℚ) ^ (971 : ℤ) = 2 * (2 : ℚ) ^ 970 := by
    rw [zpow_ofNat, show (971 : ℕ) = 970 + 1 from rfl, pow_succ]; ring
  have e1024z : (2 : ℚ) ^ (1024 : ℤ) = (2 : ℚ) ^ 1024 := by
    rw [zpow_ofNat]
  by_cases h0 : num = 0
  · subst h0
    constructor
    · intro _
      refine ⟨⟨neg, 0, 0⟩, by simp [roundToFloat64], rfl, by norm_num, by norm_num, ?_⟩
      intro g _ _
      simp only [Float64.magnitude, if_true, Nat.cast_zero, zero_mul, zero_div, sub_zero,
        abs_zero]
      refine ⟨abs_nonneg _, fun h => Or.inl ?_⟩
      exact abs_eq_zero.mp h
    · intro h
      simp only [Nat.cast_zero, zero_div] at h
      have : (0 : ℚ) < (2 : ℚ) ^ 1024 - (2 : ℚ) ^ 970 := by
        rw [e1024]
        have : (1 : ℚ) * (2 : ℚ) ^ 970 < (2 : ℚ) ^ 54 * (2 : ℚ) ^ 970 :=
          mul_lt_mul_of_pos_right (by norm_num) hP
        linarith
      linarith
  have hn1 : 1 ≤ num := Nat.one_le_iff_ne_zero.mpr h0
  obtain ⟨q, hq⟩ : ∃ q : ℤ, q = max (ratLog2 num den - 52) (-1074) := ⟨_, rfl⟩
  obtain ⟨n, hn⟩ : ∃ n : ℕ, n = if 0 ≤ q then num else num * 2 ^ (-q).toNat := ⟨_, rfl⟩
  obtain ⟨d, hd⟩ : ∃ d : ℕ, d = if 0 ≤ q then den * 2 ^ q.toNat else den := ⟨_, rfl⟩
  obtain ⟨k1, hk1⟩ : ∃ k1 : ℕ, k1 = if d < 2 * (n % d) ∨ (2 * (n % d) = d ∧ (n / d) % 2 = 1)
      then n / d + 1 else n / d := ⟨_, rfl⟩
  obtain ⟨s, hs⟩ : ∃ s : ℕ, s = (q + 1074).toNat := ⟨_, rfl⟩
  have hunf := roundToFloat64_unfold neg num den h0 q s n d k1 hq hn hd hk1 hs
  obtain ⟨hsz, hdpos, hx, hy53, hy52, hlow, hhigh⟩ :=
    scaled_quotient num den hn1 hd1 q s n d hq hn hd hs
  obtain ⟨hr1, hr2⟩ := round_half_even_nearest n d k1 hdpos hk1
  have hdq : (0 : ℚ) < d := by exact_mod_cast hdpos
  set y : ℚ := (n : ℚ) / d with hydef
  set k : ℕ := n / d with hkdef
  have hk_le : (k : ℚ) ≤ y := Nat.cast_div_le
  have hk_lt : y < (k : ℚ) + 1 := by
    rw [hydef, div_lt_iff₀ hdq]
    have : n < d * (k + 1) := Nat.lt_mul_div_succ n hdpos
    have h' : (n : ℚ) < (d : ℚ) * ((k : ℚ) + 1) := by exact_mod_cast this
    linarith
  have hk53 : k < 2 ^ 53 := by
    have : (k : ℚ) < (2 : ℚ) ^ 53 := lt_of_le_of_lt hk_le hy53
    exact_mod_cast this
  have hk52 : 0 < s → 2 ^ 52 ≤ k := by
    intro h
    have : (2 : ℚ) ^ 52 < (k : ℚ) + 1 := lt_of_le_of_lt (hy52 h) hk_lt
    have : 2 ^ 52 < k + 1 := by exact_mod_cast this
    omega
  have hk1k : k1 = k ∨ k1 = k + 1 := by
    rw [hk1]; split
    · right; rfl
    · left; rfl
  have hup : k1 = k + 1 → (k : ℚ) + 1 / 2 ≤ y := by
    intro h
    rw [h] at hr1
    have : |((k + 1 : ℕ) : ℚ) - y| = (k : ℚ) + 1 - y := by
      push_cast
      rw [abs_of_nonneg (by linarith)]
    rw [this] at hr1
    linarith
  have hqz : (2 : ℚ) ^ ((s : ℤ) - 1074) = (2 : ℚ) ^ q := by
    rw [show (s : ℤ) - 1074 = q by omega]
  constructor
  · intro hxT
    have hx1024 : (num : ℚ) / den < (2 : ℚ) ^ (1024 : ℤ) := by
      rw [e1024z]; linarith
    have hq971 : q ≤ 971 := by
      have := hhigh 1024 (by norm_num) hx1024
      omega
    have hk1lt : s = 2045 → k1 < 2 ^ 53 := by
      intro hs2045
      have hqe : q = 971 := by omega
      have hyT : 2 * y < (2 : ℚ) ^ 54 - 1 := by
        rw [hx, hqe, e971, e1024] at hxT
        have h2 : (2 * y) * (2 : ℚ) ^ 970 < ((2 : ℚ) ^ 54 - 1) * (2 : ℚ) ^ 970 := by
          linarith
        exact lt_of_mul_lt_mul_right h2 (le_of_lt hP)
      rcases hk1k with h | h
      · omega
      · have h3 := hup h
        have : (k : ℚ) + 1 < (2 : ℚ) ^ 53 := by
          have e : (2 : ℚ) ^ 54 = 2 * (2 : ℚ) ^ 53 := by rw [pow_succ]; ring
          linarith
        have : k + 1 < 2 ^ 53 := by exact_mod_cast this
        omega
    have hE : ¬ (2047 * 2 ^ 52 ≤ s * 2 ^ 52 + k1) := by
      have hs2045 : s ≤ 2045 := by omega
      have h53 : (2 : ℕ) ^ 53 = 2 * 2 ^ 52 := by rw [pow_succ]; ring
      rcases Nat.lt_or_ge s 2045 with h | h
      · have : k1 ≤ 2 ^ 53 := by omega
        have hs' : s ≤ 2044 := by omega
        have : s * 2 ^ 52 ≤ 2044 * 2 ^ 52 := Nat.mul_le_mul_right _ hs'
        omega
      · have hse : s = 2045 := by omega
        have := hk1lt hse
        subst hse
        omega
    rw [hunf, if_neg hE]
    have hk1le : k1 ≤ 2 ^ 53 := by omega
    have hsk : k1 < 2 ^ 52 → s = 0 := by
      intro h
      by_contra hc
      have := hk52 (Nat.pos_of_ne_zero hc)
      omega
    obtain ⟨hmag, hfrac, hpar⟩ := decode_magnitude neg s k1 hk1le hsk
    rw [hqz] at hmag
    refine ⟨_, rfl, rfl, ?_, hfrac, ?_⟩
    · show (s * 2 ^ 52 + k1) / 2 ^ 52 < 2047
      rw [Nat.div_lt_iff_lt_mul (by positivity)]
      omega
    · intro g _ hgf
      rw [hmag, hx]
      have hqpos := hpos q
      have ef : |(k1 : ℚ) * (2 : ℚ) ^ q - y * (2 : ℚ) ^ q| = |(k1 : ℚ) - y| * (2 : ℚ) ^ q := by
        rw [← sub_mul, abs_mul, abs_of_pos hqpos]
      rw [ef]
      rcases magnitude_grid g hgf s with ⟨j, hj⟩ | ⟨hs0, hlt⟩
      · rw [hqz] at hj
        rw [hj]
        have eg : |(j : ℚ) * (2 : ℚ) ^ q - y * (2 : ℚ) ^ q| = |(j : ℚ) - y| * (2 : ℚ) ^ q := by
          rw [← sub_mul, abs_mul, abs_of_pos hqpos]
        rw [eg]
        obtain ⟨hle, htie⟩ := hr2 j
        refine ⟨mul_le_mul_of_nonneg_right hle (le_of_lt hqpos), fun h => ?_⟩
        have h' : |(j : ℚ) - y| = |(k1 : ℚ) - y| :=
          mul_right_cancel₀ (ne_of_gt hqpos) h
        rcases htie h' with h1 | h1
        · left; rw [h1]
        · right; exact hpar h1
      · rw [hqz] at hlt
        have hk52' : (2 : ℚ) ^ 52 ≤ k := by
          have := hk52 hs0
          exact_mod_cast this
        have hgk : g.magnitude < (k : ℚ) * (2 : ℚ) ^ q :=
          lt_of_lt_of_le hlt (mul_le_mul_of_nonneg_right hk52' (le_of_lt hqpos))
        have hky : (k : ℚ) * (2 : ℚ) ^ q ≤ y * (2 : ℚ) ^ q :=
          mul_le_mul_of_nonneg_right hk_le (le_of_lt hqpos)
        have hfd : |(k1 : ℚ) - y| * (2 : ℚ) ^ q ≤ y * (2 : ℚ) ^ q - (k : ℚ) * (2 : ℚ) ^ q := by
          rw [← sub_mul]
          exact mul_le_mul_of_nonneg_right hr1 (le_of_lt hqpos)
        have eg : |g.magnitude - y * (2 : ℚ) ^ q| = y * (2 : ℚ) ^ q - g.magnitude := by
          rw [abs_of_nonpos (by linarith)]; ring
        rw [eg]
        exact ⟨by linarith, fun h => by linarith⟩
  · intro hxT
    have hT1023 : (2 : ℚ) ^ (1023 : ℤ) ≤ (num : ℚ) / den := by
      rw [e1023]
      rw [e1024] at hxT
      have e : (2 : ℚ) ^ 54 = 2 * (2 : ℚ) ^ 53 := by rw [pow_succ]; ring
      have : (1 : ℚ) * (2 : ℚ) ^ 970 ≤ (2 : ℚ) ^ 53 * (2 : ℚ) ^ 970 :=
        mul_le_mul_of_nonneg_right (by norm_num) (le_of_lt hP)
      rw [e] at hxT
      linarith
    have hq971 : 971 ≤ q := by
      have := hlow 1023 hT1023
      omega
    have hs2045 : 2045 ≤ s := by omega
    have hk52' := hk52 (by omega)
    have hE : 2047 * 2 ^ 52 ≤ s * 2 ^ 52 + k1 := by
      have h53 : (2 : ℕ) ^ 53 = 2 * 2 ^ 52 := by rw [pow_succ]; ring
      rcases Nat.lt_or_ge 2045 s with h | h
      · have hs' : 2046 ≤ s := h
        have : 2046 * 2 ^ 52 ≤ s * 2 ^ 52 := Nat.mul_le_mul_right _ hs'
        have : k ≤ k1 := by omega
        omega
      · have hse : s = 2045 := by omega
        have hqe : q = 971 := by omega
        have hyT : (2 : ℚ) ^ 54 - 1 ≤ 2 * y := by
          rw [hx, hqe, e971, e1024] at hxT
          have h2 : ((2 : ℚ) ^ 54 - 1) * (2 : ℚ) ^ 970 ≤ (2 * y) * (2 : ℚ) ^ 970 := by
            linarith
          exact le_of_mul_le_mul_right h2 hP
        have e : (2 : ℚ) ^ 54 = 2 * (2 : ℚ) ^ 53 := by rw [pow_succ]; ring
        have hkq : (2 : ℚ) ^ 53 - 1 < (k : ℚ) + 1 / 2 := by linarith
        have hk' : k = 2 ^ 53 - 1 := by
          have h1 : (2 : ℚ) ^ 53 - 2 < (k : ℚ) := by linarith
          have h2 : ((2 ^ 53 - 2 : ℕ) : ℚ) < (k : ℚ) := by
            have : ((2 ^ 53 - 2 : ℕ) : ℚ) = (2 : ℚ) ^ 53 - 2 := by norm_num
            rw [this]; exact h1
          have h3 : 2 ^ 53 - 2 < k := by exact_mod_cast h2
          omega
        have hk1e : k1 = k + 1 := by
          rcases hk1k with h | h
          · exfalso
            obtain ⟨hle, htie⟩ := hr2 (k + 1)
            rw [h] at hle htie
            have a1 : |(k : ℚ) - y| = y - k := by
              rw [abs_of_nonpos (by linarith)]; ring
            have a2 : |((k + 1 : ℕ) : ℚ) - y| = (k : ℚ) + 1 - y := by
              push_cast
              rw [abs_of_nonneg (by linarith)]
            rw [a1, a2] at hle htie
            have hkq' : (k : ℚ) = (2 : ℚ) ^ 53 - 1 := by
              rw [hk']; norm_num
            have hyeq : y = (k : ℚ) + 1 / 2 := by linarith
            rcases htie (by rw [hyeq]; ring) with h1 | h1
            · omega
            · rw [hk'] at h1
              norm_num at h1
          · exact h
        rw [hk1e, hk', hse]
        norm_num
    rw [hunf, if_pos hE]

set_option exponentiation.threshold 5000 in
set_option maxRecDepth 100000 in
/-- Values whose magnitude is out of range are errors: `1e400`, its negative
and `1.8e308`, which rounds to `2^1024`; the largest double is not. -/
theorem ParseFloat_out_of_range :
    ParseFloat "1e400" = none ∧ ParseFloat "-1e400" = none ∧ ParseFloat "1.8e308" = none ∧
    ParseFloat "1.7976931348623157e308" = some ⟨false, 2046, 2 ^ 52 - 1⟩ := by
  decide

/-! ## The capped exponent, and the float columns settled -/

/-- A text in conventional decimal notation starts with a sign, a point or a
digit. -/
theorem IsDecimalText_head (value : String) (neg : Bool) (ip fp : List Char) (ex : Int)
    (h : IsDecimalText value neg ip fp ex) :
    ∃ c cs, value.toList = c :: cs ∧ (c = '+' ∨ c = '-' ∨ c = '.' ∨ isDigit c = true) := by
  obtain ⟨sign, point, expo, hv, hsign, hip, hfp, hpoint, hne, hexpo⟩ := h
  obtain ⟨h0, tl, hbody, hh0⟩ : ∃ h0 tl, ip ++ (point ++ (fp ++ expo)) = h0 :: tl ∧
      (isDigit h0 = true ∨ h0 = '.') := by
    cases ip with
    | cons a as => exact ⟨a, _, rfl, Or.inl (hip a (by simp))⟩
    | nil =>
      rcases hpoint with hp | ⟨_, hf⟩
      · subst hp; exact ⟨'.', _, rfl, Or.inr rfl⟩
      · subst hf; exact absurd rfl hne
  rcases hsign with ⟨hs, _⟩ | ⟨hs, _⟩ | ⟨hs, _⟩
  · refine ⟨h0, tl, by rw [hv, hs, hbody]; rfl, ?_⟩
    rcases hh0 with h | h
    · exact Or.inr (Or.inr (Or.inr h))
    · exact Or.inr (Or.inr (Or.inl h))
  · exact ⟨'+', h0 :: tl, by rw [hv, hs, hbody]; rfl, Or.inl rfl⟩
  · exact ⟨'-', h0 :: tl, by rw [hv, hs, hbody]; rfl, Or.inr (Or.inl rfl)⟩

/-- A positive number below `2^-1075`, half the smallest subnormal, rounds to
zero. -/
theorem roundToFloat64_tiny (neg : Bool) (num den : ℕ) (hd : 1 ≤ den)
    (h : (num : ℚ) / den < (2 : ℚ) ^ (-1075 : ℤ)) :
    roundToFloat64 neg num den = some ⟨neg, 0, 0⟩ := by
  have two : (2 : ℚ) ≠ 0 := by norm_num
  have hpos : ∀ z : ℤ, (0 : ℚ) < (2 : ℚ) ^ z := fun z => zpow_pos (by norm_num) z
  have hx0 : (0 : ℚ) ≤ (num : ℚ) / den := by positivity
  have h1 : (2 : ℚ) ^ (-1075 : ℤ) ≤ (2 : ℚ) ^ (0 : ℤ) :=
    zpow_le_zpow_right₀ (by norm_num) (by norm_num)
  rw [zpow_zero] at h1
  have hbig : (1 : ℚ) ≤ (2 : ℚ) ^ 1024 - (2 : ℚ) ^ 970 := by
    have e : (2 : ℚ) ^ 1024 = (2 : ℚ) ^ 970 * (2 : ℚ) ^ 54 := by rw [← pow_add]
    have h970 : (1 : ℚ) ≤ (2 : ℚ) ^ 970 := one_le_pow₀ (by norm_num)
    have h54 : (2 : ℚ) ≤ (2 : ℚ) ^ 54 := by
      calc (2 : ℚ) = (2 : ℚ) ^ 1 := by norm_num
        _ ≤ (2 : ℚ) ^ 54 := pow_le_pow_right₀ (by norm_num) (by norm_num)
    rw [e]
    nlinarith
  obtain ⟨f, hf, hs, he, hfr, hall⟩ :=
    (roundToFloat64_spec neg num den hd).1 (by linarith)
  have h0 := (hall ⟨false, 0, 0⟩ (by norm_num) (by positivity)).1
  have hz : (Float64.mk false 0 0).magnitude = 0 := by simp [Float64.magnitude]
  rw [hz, zero_sub, abs_neg, abs_of_nonneg hx0] at h0
  have hle : f.magnitude ≤ 2 * ((num : ℚ) / den) := by
    have := (abs_le.mp h0).2
    linarith
  have hlt : f.magnitude < (2 : ℚ) ^ (-1074 : ℤ) := by
    have e : (2 : ℚ) ^ (-1074 : ℤ) = 2 * (2 : ℚ) ^ (-1075 : ℤ) := by
      rw [show (-1074 : ℤ) = 1 + -1075 from by norm_num, zpow_add₀ two, zpow_one]
    rw [e]
    calc f.magnitude ≤ 2 * ((num : ℚ) / den) := hle
      _ < 2 * (2 : ℚ) ^ (-1075 : ℤ) := mul_lt_mul_of_pos_left h (by norm_num)
  have hexpo : f.expo = 0 := by
    by_contra hne
    unfold Float64.magnitude at hlt
    rw [if_neg hne] at hlt
    have h2 : (2 : ℚ) ^ (-1074 : ℤ) ≤ (2 : ℚ) ^ ((f.expo : ℤ) - 1075) :=
      zpow_le_zpow_right₀ (by norm_num) (by omega)
    have h3 : (1 : ℚ) ≤ ((2 ^ 52 + f.frac : ℕ) : ℚ) := by
      have : 1 ≤ 2 ^ 52 + f.frac := Nat.succ_le_of_lt (by positivity)
      exact_mod_cast this
    have h4 := hpos ((f.expo : ℤ) - 1075)
    have h5 : (2 : ℚ) ^ (-1074 : ℤ) ≤
        ((2 ^ 52 + f.frac : ℕ) : ℚ) * (2 : ℚ) ^ ((f.expo : ℤ) - 1075) :=
      calc (2 : ℚ) ^ (-1074 : ℤ) ≤ (2 : ℚ) ^ ((f.expo : ℤ) - 1075) := h2
        _ = 1 * (2 : ℚ) ^ ((f.expo : ℤ) - 1075) := (one_mul _).symm
        _ ≤ ((2 ^ 52 + f.frac : ℕ) : ℚ) * (2 : ℚ) ^ ((f.expo : ℤ) - 1075) :=
          mul_le_mul_of_nonneg_right h3 (le_of_lt h4)
    exact absurd hlt (not_lt.mpr h5)
  have hfrac : f.frac = 0 := by
    by_contra hne
    unfold Float64.magnitude at hlt
    rw [if_pos hexpo] at hlt
    have h3 : (1 : ℚ) ≤ (f.frac : ℚ) := by
      have : 1 ≤ f.frac := Nat.pos_of_ne_zero hne
      exact_mod_cast this
    have h4 := hpos (-1074)
    have h5 : (2 : ℚ) ^ (-1074 : ℤ) ≤ (f.frac : ℚ) * (2 : ℚ) ^ (-1074 : ℤ) :=
      calc (2 : ℚ) ^ (-1074 : ℤ) = 1 * (2 : ℚ) ^ (-1074 : ℤ) := (one_mul _).symm
        _ ≤ (f.frac : ℚ) * (2 : ℚ) ^ (-1074 : ℤ) :=
          mul_le_mul_of_nonneg_right h3 (le_of_lt h4)
    exact absurd hlt (not_lt.mpr h5)
  rw [hf]
  cases f
  simp only at hs hexpo hfrac
  rw [hs, hexpo, hfrac]

/-- A run of zeros has the value 0. -/
theorem digitsValue_zeros (zs : List Char) (hz : ∀ c ∈ zs, c = '0') : digitsValue zs = 0 := by
  induction zs with
  | nil => exact digitsValue_nil
  | cons c cs ih =>
    rw [digitsValue_cons, ih (fun x hx => hz x (List.mem_cons_of_mem _ hx)),
      hz c (List.mem_cons_self _ _)]
    have : digitVal '0' = 0 := by decide
    rw [this]
    simp

/-- A negative power of ten below `10^-1075` rounds to zero. -/
theorem roundToFloat64_tiny_power (m : ℕ) (hm : 1075 ≤ m) :
    roundToFloat64 false 1 (10 ^ m) = some ⟨false, 0, 0⟩ := by
  apply roundToFloat64_tiny false 1 (10 ^ m) (Nat.one_le_pow _ _ (by norm_num))
  have h1 : (2 : ℚ) ^ 1075 < (10 : ℚ) ^ m := by
    calc (2 : ℚ) ^ 1075 ≤ (2 : ℚ) ^ m := pow_le_pow_right₀ (by norm_num) hm
      _ < (10 : ℚ) ^ m := pow_lt_pow_left₀ (by norm_num) (by norm_num) (by omega)
  have h2 : (0 : ℚ) < (2 : ℚ) ^ 1075 := by positivity
  rw [Nat.cast_one, Nat.cast_pow, one_div, zpow_neg, zpow_ofNat]
  exact (inv_lt_inv₀ (lt_trans h2 h1) h2).mpr h1

/-- The exponent is read capped: a text of 100000 zeros after the point, the
digit 1 and the exponent 100001 denotes the number 1, and
`strconv.ParseFloat` returns zero for it. -/
theorem ParseFloat_capped_exponent (zs : List Char) (hz : ∀ c ∈ zs, c = '0')
    (hlen : zs.length = 100000) :
    IsDecimalText (String.mk ("0.".toList ++ zs ++ "1e100001".toList)) false
      ['0'] (zs ++ ['1']) 100001 ∧
    decimalValue ['0'] (zs ++ ['1']) 100001 = 1 ∧
    ParseFloat (String.mk ("0.".toList ++ zs ++ "1e100001".toList)) = some ⟨false, 0, 0⟩ := by
  have hfpd : ∀ c ∈ zs ++ ['1'], isDigit c = true := by
    intro c hc
    rcases List.mem_append.mp hc with h | h
    · rw [hz c h]; decide
    · have : c = '1' := by simpa using h
      rw [this]; decide
  have hipd : ∀ c ∈ ['0'], isDigit c = true := by
    intro c hc
    have : c = '0' := by simpa using hc
    rw [this]; decide
  have hM : digitsValue (['0'] ++ (zs ++ ['1'])) = 1 := by
    have e0 : digitVal '0' = 0 := by decide
    have e1 : digitVal '1' = 1 := by decide
    rw [digitsValue_append, digitsValue_append, digitsValue_zeros zs hz,
      digitsValue_cons, digitsValue_cons, digitsValue_nil, e0, e1]
    simp
  have hlenfp : (zs ++ ['1']).length = 100001 := by
    rw [List.length_append, hlen]; rfl
  have hexpo : IsExponentText "e100001".toList 100001 := by
    refine Or.inr ⟨'e', [], "100001".toList, rfl, Or.inl rfl, by decide, by decide,
      Or.inl ⟨Or.inl rfl, ?_⟩⟩
    have : digitsValue "100001".toList = 100001 := by
      simp [digitsValue, digitVal, Nat.ofDigits]
    rw [this]; rfl
  have hv : (String.mk ("0.".toList ++ zs ++ "1e100001".toList)).toList =
      [] ++ (['0'] ++ (['.'] ++ ((zs ++ ['1']) ++ "e100001".toList))) := by
    show "0.".toList ++ zs ++ "1e100001".toList = _
    simp
  have hread : ∀ dp : Int,
      readExponent false dp false "e100001".toList = some (dp + 10000, false, []) := by
    intro dp
    rfl
  refine ⟨⟨[], ['.'], "e100001".toList, hv, Or.inl ⟨rfl, rfl⟩, hipd, hfpd, Or.inl rfl,
    by simp, hexpo⟩, ?_, ?_⟩
  · unfold decimalValue
    rw [hM, hlenfp]
    norm_num
  · have key := ParseFloat_parts _ [] ['0'] ['.'] (zs ++ ['1']) "e100001".toList false
      100001 10000 hv (Or.inl ⟨rfl, rfl⟩) hipd hfpd (Or.inl rfl) (by simp) hexpo hread
      (-90001) (by rw [hM, hlenfp]; norm_num)
    rw [if_neg (by norm_num), hM] at key
    have ht : (-(-90001 : ℤ)).toNat = 90001 := by decide
    rw [ht] at key
    rw [key]
    exact roundToFloat64_tiny_power 90001 (by norm_num)

/-- C15 fails at the texts "NaN", "Inf", "+Inf", "-Inf" and "Infinity":
`strconv.ParseFloat` returns a NaN or an infinity for them without error, so
the coercion of a float column succeeds on them, and the row
`10,1,2,NaN,0,car,1.2` is not dropped: it yields a record whose cost is a
NaN.  It fails as well at texts that are not in conventional notation and
are accepted, `1_000` with a digit separator and the hexadecimal `0x1p-2`,
and at a text in conventional notation that denotes the number 1 and is
accepted with the value zero, because the exponent is read capped: `0.`,
100000 zeros, `1e100001`. -/
theorem C15_special_texts_counterexample :
    (ParseFloat "NaN" = some Float64.nan ∧
      ParseFloat "Inf" = some (Float64.inf false) ∧
      ParseFloat "+Inf" = some (Float64.inf false) ∧
      ParseFloat "-Inf" = some (Float64.inf true) ∧
      ParseFloat "Infinity" = some (Float64.inf false) ∧
      columnFails 3 "NaN" = false ∧ columnFails 4 "Inf" = false ∧
      columnFails 6 "-Inf" = false ∧
      (importNodes [["10", "1", "2", "NaN", "0", "car", "1.2"]]).map
        (fun n => n.ConnectTo.Cost) = [Float64.nan]) ∧
    (ParseFloat "1_000" = some ⟨false, 1032, 488 * 2 ^ 43⟩ ∧
      ParseFloat "0x1p-2" = some ⟨false, 1021, 0⟩ ∧
      columnFails 3 "1_000" = false ∧ columnFails 6 "0x1p-2" = false) ∧
    (IsDecimalText (String.mk ("0.".toList ++ List.replicate 100000 '0' ++ "1e100001".toList))
        false ['0'] (List.replicate 100000 '0' ++ ['1']) 100001 ∧
      decimalValue ['0'] (List.replicate 100000 '0' ++ ['1']) 100001 = 1 ∧
      ParseFloat (String.mk ("0.".toList ++ List.replicate 100000 '0' ++ "1e100001".toList)) =
        some ⟨false, 0, 0⟩) :=
  ⟨by decide, by decide,
    ParseFloat_capped_exponent (List.replicate 100000 '0')
      (fun _ hc => List.eq_of_mem_replicate hc) (List.length_replicate _ _)⟩

/-- C15, amended: for a float column (index 3, 4 or 6) the coercion is
`strconv.ParseFloat`.  The texts "nan", "inf", "+inf", "infinity",
"+infinity", "-inf" and "-infinity" are accepted in any letter case, with a
NaN or an infinity of the sign written as value.  A text in conventional
decimal notation (an optional sign, digits with an optional point, an
optional exponent) whose exponent is below 100000 in magnitude is accepted
exactly when the magnitude it denotes is below `2^1024 - 2^970`, where
rounding reaches `2^1024`; the value is then the denoted one: the sign
written, and the finite double nearest to the denoted magnitude, the one
with the even fraction on a tie.  Every other text without underscore and
without the letter x fails, and every text accepted with a value that is
not finite is one of the special texts.  When the coercion fails the column logs its
index and stores the error, and the row is dropped; when it succeeds the
field of the column holds the value and nothing else changes. -/
theorem C15_float_columns :
    (∀ value : String,
      (value.toList.map Char.toLower = "nan".toList → ParseFloat value = some Float64.nan) ∧
      (value.toList.map Char.toLower ∈
          ["inf".toList, "+inf".toList, "infinity".toList, "+infinity".toList] →
        ParseFloat value = some (Float64.inf false)) ∧
      (value.toList.map Char.toLower ∈ ["-inf".toList, "-infinity".toList] →
        ParseFloat value = some (Float64.inf true))) ∧
    (∀ (value : String) (neg : Bool) (ip fp : List Char) (ex : Int),
      IsDecimalText value neg ip fp ex → |ex| < 100000 →
        (decimalValue ip fp ex < (2 : ℚ) ^ 1024 - (2 : ℚ) ^ 970 →
          ∃ f : Float64, ParseFloat value = some f ∧ f.sign = neg ∧
            IsNearestFloat64 (decimalValue ip fp ex) f) ∧
        ((2 : ℚ) ^ 1024 - (2 : ℚ) ^ 970 ≤ decimalValue ip fp ex →
          ParseFloat value = none)) ∧
    (∀ value : String,
      '_' ∉ value.toList → 'x' ∉ value.toList → 'X' ∉ value.toList →
      value.toList.map Char.toLower ∉
        ["nan".toList, "inf".toList, "+inf".toList, "-inf".toList,
          "infinity".toList, "+infinity".toList, "-infinity".toList] →
      (¬ ∃ (neg : Bool) (ip fp : List Char) (ex : Int), IsDecimalText value neg ip fp ex) →
      ParseFloat value = none) ∧
    (∀ (value : String) (f : Float64), ParseFloat value = some f → f.isFinite = false →
      value.toList.map Char.toLower ∈
        ["nan".toList, "inf".toList, "+inf".toList, "-inf".toList,
          "infinity".toList, "+infinity".toList, "-infinity".toList]) ∧
    (∀ (record : List String) (idx : Nat) (value : String), idx = 3 ∨ idx = 4 ∨ idx = 6 →
      record[idx]? = some value → ParseFloat value = none → importNodes [record] = []) ∧
    (∀ (value : String) (st : RowState), ParseFloat value = none →
      parseColumn 3 value st = failColumn 3 "incorrect field" st ∧
      parseColumn 4 value st = failColumn 4 "incorrect field" st ∧
      parseColumn 6 value st = failColumn 6 "incorrect field" st) ∧
    (∀ (value : String) (f : Float64) (st : RowState), ParseFloat value = some f →
      parseColumn 3 value st = { st with csvRecord := { st.csvRecord with EdgeCost := f } } ∧
      parseColumn 4 value st =
        { st with csvRecord := { st.csvRecord with EdgeReverseCost := f } } ∧
      parseColumn 6 value st =
        { st with csvRecord := { st.csvRecord with EdgeDistanceKM := f } }) := by
  refine ⟨ParseFloat_special, ?_, ?_, ParseFloat_not_finite, ?_, ?_, ?_⟩
  · intro value neg ip fp ex h hex
    obtain ⟨num, den, hden, hval, hpf⟩ := ParseFloat_decimal value neg ip fp ex h hex
    rw [hpf, ← hval]
    exact roundToFloat64_spec neg num den hden
  · intro value hus hx hX hsp hdec
    rcases hp : ParseFloat value with _ | f
    · rfl
    · rcases ParseFloat_shape value f hp hus hx hX with h | h
      · exact absurd h hsp
      · exact absurd h hdec
  · intro record idx value hidx hv hp
    have hf : columnFails idx value = true := by
      rcases hidx with h | h | h <;> subst h <;> simp [columnFails, hp]
    have hne := (parseRow_error_iff record).mpr
      ⟨idx, value, columnFails_lt idx value hf, hv, hf⟩
    rw [importNodes_single, if_neg hne]
  · intro value st hp
    simp [parseColumn, hp]
  · intro value f st hp
    simp [parseColumn, hp]

/-- The amended C15 at concrete texts: "NaN" is accepted with a NaN, "1.5" is
accepted with the double nearest to the number it denotes, "abc" fails and
the row `10,1,2,abc,0,car,1.2` is dropped. -/
theorem C15_float_columns_witness :
    ParseFloat "NaN" = some Float64.nan ∧
    (∃ f : Float64, ParseFloat "1.5" = some f ∧ f.sign = false ∧
      IsNearestFloat64 (decimalValue ['1'] ['5'] 0) f) ∧
    ParseFloat "abc" = none ∧
    importNodes [["10", "1", "2", "abc", "0", "car", "1.2"]] = [] := by
  obtain ⟨h1, h2, h3, _, h4, _, _⟩ := C15_float_columns
  have habc : ParseFloat "abc" = none := by
    refine h3 "abc" (by decide) (by decide) (by decide) (by decide) ?_
    rintro ⟨neg, ip, fp, ex, h⟩
    obtain ⟨c, cs, hv, hc⟩ := IsDecimalText_head _ _ _ _ _ h
    have hca : 'a' = c := (List.cons.inj (hv : 'a' :: ['b', 'c'] = c :: cs)).1
    subst hca
    rcases hc with h | h | h | h <;> exact absurd h (by decide)
  refine ⟨(h1 "NaN").1 (by decide), ?_, habc, h4 _ 3 "abc" (Or.inl rfl) (by decide) habc⟩
  have hdec : IsDecimalText "1.5" false ['1'] ['5'] 0 :=
    ⟨[], ['.'], [], by decide, Or.inl ⟨rfl, rfl⟩, by decide, by decide, Or.inl rfl,
      by decide, Or.inl ⟨rfl, rfl⟩⟩
  have hval : decimalValue ['1'] ['5'] 0 = 3 / 2 := by
    have hd : digitsValue (['1'] ++ ['5']) = 15 := by decide
    unfold decimalValue
    rw [hd]
    norm_num
  refine (h2 "1.5" false ['1'] ['5'] 0 hdec (by norm_num)).1 ?_
  rw [hval]
  have e : (2 : ℚ) ^ 1024 = (2 : ℚ) ^ 970 * (2 : ℚ) ^ 54 := by rw [← pow_add]
  have h970 : (1 : ℚ) ≤ (2 : ℚ) ^ 970 := one_le_pow₀ (by norm_num)
  have h54 : (4 : ℚ) ≤ (2 : ℚ) ^ 54 := by
    calc (4 : ℚ) = (2 : ℚ) ^ 2 := by norm_num
      _ ≤ (2 : ℚ) ^ 54 := pow_le_pow_right₀ (by norm_num) (by norm_num)
  rw [e]
  nlinarith


/-! ## Serialization (C12 to C14) -/

theorem mem_strMember (k key s : String) (v : JSON) :
    (k, v) ∈ strMember key s ↔ (k = key ∧ s ≠ "" ∧ v = JSON.str s) := by
  unfold strMember
  by_cases h : s = "" <;> simp [h]

theorem mem_intMember (k key : String) (n : Int) (v : JSON) :
    (k, v) ∈ intMember key n ↔ (k = key ∧ n ≠ 0 ∧ v = JSON.int n) := by
  unfold intMember
  by_cases h : n = 0 <;> simp [h]

theorem Float64.isFinite_of_isZero (f : Float64) (h : f.isZero = true) :
    f.isFinite = true := by
  unfold Float64.isZero at h
  unfold Float64.isFinite
  simp only [Bool.and_eq_true, beq_iff_eq] at h
  simp [h.1]

theorem floatMember_eq_none (key : String) (f : Float64) :
    floatMember key f = none ↔ f.isFinite = false := by
  unfold floatMember
  cases hz : f.isZero
  · cases hf : f.isFinite <;> simp
  · simp [Float64.isFinite_of_isZero f hz]

theorem mem_floatMember (k key : String) (f : Float64) (l : List (String × JSON))
    (v : JSON) (h : floatMember key f = some l) :
    (k, v) ∈ l ↔ (k = key ∧ f.isZero = false ∧ v = JSON.float f) := by
  unfold floatMember at h
  cases hz : f.isZero
  · cases hf : f.isFinite
    · simp [hz, hf] at h
    · simp only [hz, hf, Bool.false_eq_true, if_false, if_true, Option.some.injEq] at h
      rw [← h]; simp
  · simp only [hz, if_true, Option.some.injEq] at h
    rw [← h]; simp

/-- The encoding of an edge fails exactly when its cost or its distance is
not finite. -/
theorem marshalEdge_eq_none (e : Edge) :
    marshalEdge e = none ↔ (e.Cost.isFinite = false ∨ e.Distance.isFinite = false) := by
  unfold marshalEdge
  rcases hc : floatMember "connect_to|cost" e.Cost with _ | lc
  · simp [(floatMember_eq_none _ _).mp hc]
  · rcases hd : floatMember "connect_to|distance" e.Distance with _ | ld
    · simp [(floatMember_eq_none _ _).mp hd]
    · have h1 : e.Cost.isFinite ≠ false := fun h =>
        absurd ((floatMember_eq_none "connect_to|cost" _).mpr h) (by simp [hc])
      have h2 : e.Distance.isFinite ≠ false := fun h =>
        absurd ((floatMember_eq_none "connect_to|distance" _).mpr h) (by simp [hd])
      simp [h1, h2]

theorem marshalNode_eq_none (n : Node) :
    marshalNode n = none ↔
      (n.ConnectTo.Cost.isFinite = false ∨ n.ConnectTo.Distance.isFinite = false) := by
  rw [← marshalEdge_eq_none]
  unfold marshalNode
  cases marshalEdge n.ConnectTo <;> simp

theorem marshalNode_object (n : Node) (j : JSON) (h : marshalNode n = some j) :
    ∃ members, j = JSON.object members := by
  unfold marshalNode at h
  cases he : marshalEdge n.ConnectTo with
  | none => rw [he] at h; exact absurd h (by simp)
  | some e =>
    rw [he] at h
    simp only [Option.some.injEq] at h
    exact ⟨_, h.symm⟩

theorem marshalElems_eq_none (nodes : List Node) :
    marshalElems nodes = none ↔ ∃ n ∈ nodes, marshalNode n = none := by
  induction nodes with
  | nil => simp [marshalElems]
  | cons n rest ih =>
    simp only [marshalElems, List.mem_cons, exists_eq_or_imp]
    cases hn : marshalNode n with
    | none => simp
    | some j =>
      cases hr : marshalElems rest with
      | none => simp [← ih, hr]
      | some js => simp [← ih, hr]

theorem marshalElems_some (nodes : List Node) :
    ∀ js, marshalElems nodes = some js →
      js.length = nodes.length ∧ ∀ e ∈ js, ∃ members, e = JSON.object members := by
  induction nodes with
  | nil =>
    intro js h
    simp only [marshalElems, Option.some.injEq] at h
    rw [← h]; simp
  | cons n rest ih =>
    intro js h
    simp only [marshalElems] at h
    cases hn : marshalNode n with
    | none => rw [hn] at h; exact absurd h (by simp)
    | some j =>
      cases hr : marshalElems rest with
      | none => rw [hn, hr] at h; exact absurd h (by simp)
      | some rs =>
        rw [hn, hr] at h
        simp only [Option.some.injEq] at h
        obtain ⟨h1, h2⟩ := ih rs hr
        rw [← h]
        refine ⟨by simp [h1], ?_⟩
        intro e he
        rcases List.mem_cons.mp he with he | he
        · rw [he]; exact marshalNode_object n j hn
        · exact h2 e he


/-- C12 fails at two records.  At the zero record, whose edge is the zero
`Edge`, the key `connect_to` is not omitted: the object is
`{"connect_to":{"connect_to|reverse":false}}`.  At the record emitted for the
row `10,1,2,NaN,0,car,1.2`, whose cost is a NaN and so neither zero nor
empty, there is no key `connect_to|cost` with that value: the encoder
returns an error and no object. -/
theorem C12_struct_and_nan_counterexample :
    marshalNode ⟨"", 0, ⟨"", 0, 0, false, Float64.zero, Float64.zero, ""⟩⟩ =
      some (JSON.object
        [("connect_to", JSON.object [("connect_to|reverse", JSON.bool false)])]) ∧
    importNodes [["10", "1", "2", "NaN", "0", "car", "1.2"]] =
      [⟨"_:1", 1, ⟨"_:2", 2, 10, false, Float64.nan, ⟨false, 1023, 0x3333333333333⟩,
        "car"⟩⟩] ∧
    marshalNode ⟨"_:1", 1, ⟨"_:2", 2, 10, false, Float64.nan,
      ⟨false, 1023, 0x3333333333333⟩, "car"⟩⟩ = none :=
  ⟨rfl, by decide, rfl⟩

/-- C12, amended: when the serialization of a record succeeds, its JSON
object always has the key `connect_to`, an object that always has the key
`connect_to|reverse`; each of the keys `uid` and `node_id` and, inside
`connect_to`, `uid`, `node_id`, `connect_to|edge_id`, `connect_to|cost`,
`connect_to|distance` and `connect_to|mode` is omitted exactly when its value
is the empty string or zero, and is present with that value otherwise; the
objects have no other key. -/
theorem C12_keys (n : Node) (j : JSON) (h : marshalNode n = some j) :
    ∃ members edge, j = JSON.object members ∧
      (∀ v, ("connect_to", v) ∈ members ↔ v = JSON.object edge) ∧
      (∀ v, ("connect_to|reverse", v) ∈ edge ↔ v = JSON.bool n.ConnectTo.Reverse) ∧
      (∀ v, ("uid", v) ∈ members ↔ (n.ID ≠ "" ∧ v = JSON.str n.ID)) ∧
      (∀ v, ("node_id", v) ∈ members ↔ (n.NodeID ≠ 0 ∧ v = JSON.int n.NodeID)) ∧
      (∀ v, ("uid", v) ∈ edge ↔
        (n.ConnectTo.TargetID ≠ "" ∧ v = JSON.str n.ConnectTo.TargetID)) ∧
      (∀ v, ("node_id", v) ∈ edge ↔
        (n.ConnectTo.NodeID ≠ 0 ∧ v = JSON.int n.ConnectTo.NodeID)) ∧
      (∀ v, ("connect_to|edge_id", v) ∈ edge ↔
        (n.ConnectTo.EdgeID ≠ 0 ∧ v = JSON.int n.ConnectTo.EdgeID)) ∧
      (∀ v, ("connect_to|cost", v) ∈ edge ↔
        (n.ConnectTo.Cost.isZero = false ∧ v = JSON.float n.ConnectTo.Cost)) ∧
      (∀ v, ("connect_to|distance", v) ∈ edge ↔
        (n.ConnectTo.Distance.isZero = false ∧ v = JSON.float n.ConnectTo.Distance)) ∧
      (∀ v, ("connect_to|mode", v) ∈ edge ↔
        (n.ConnectTo.Mode ≠ "" ∧ v = JSON.str n.ConnectTo.Mode)) ∧
      (∀ k v, (k, v) ∈ members → k ∈ ["uid", "node_id", "connect_to"]) ∧
      (∀ k v, (k, v) ∈ edge →
        k ∈ ["uid", "node_id", "connect_to|edge_id", "connect_to|reverse",
          "connect_to|cost", "connect_to|distance", "connect_to|mode"]) := by
  unfold marshalNode at h
  rcases he : marshalEdge n.ConnectTo with _ | e
  · rw [he] at h; exact absurd h (by simp)
  rw [he] at h
  simp only [Option.some.injEq] at h
  unfold marshalEdge at he
  rcases hc : floatMember "connect_to|cost" n.ConnectTo.Cost with _ | lc
  · rw [hc] at he; exact absurd he (by simp)
  rcases hd : floatMember "connect_to|distance" n.ConnectTo.Distance with _ | ld
  · rw [hc, hd] at he; exact absurd he (by simp)
  rw [hc, hd] at he
  simp only [Option.some.injEq] at he
  have mc := fun k v => mem_floatMember k _ _ lc v hc
  have md := fun k v => mem_floatMember k _ _ ld v hd
  refine ⟨strMember "uid" n.ID ++ intMember "node_id" n.NodeID ++ [("connect_to", e)],
    strMember "uid" n.ConnectTo.TargetID ++ intMember "node_id" n.ConnectTo.NodeID ++
      intMember "connect_to|edge_id" n.ConnectTo.EdgeID ++
      [("connect_to|reverse", JSON.bool n.ConnectTo.Reverse)] ++ lc ++ ld ++
      strMember "connect_to|mode" n.ConnectTo.Mode,
    h.symm, ?_, ?_, ?_, ?_, ?_, ?_, ?_, ?_, ?_, ?_, ?_, ?_⟩
  · intro v
    simp [mem_strMember, mem_intMember, ← he]
  · intro v
    simp [mem_strMember, mem_intMember, mc, md]
  · intro v
    simp [mem_strMember, mem_intMember]
  · intro v
    simp [mem_strMember, mem_intMember]
  · intro v
    simp [mem_strMember, mem_intMember, mc, md]
  · intro v
    simp [mem_strMember, mem_intMember, mc, md]
  · intro v
    simp [mem_strMember, mem_intMember, mc, md]
  · intro v
    simp [mem_strMember, mem_intMember, mc, md]
  · intro v
    simp [mem_strMember, mem_intMember, mc, md]
  · intro v
    simp [mem_strMember, mem_intMember, mc, md]
  · intro k v hk
    simp only [List.mem_append, mem_strMember, mem_intMember, List.mem_singleton,
      Prod.mk.injEq] at hk
    rcases hk with (hk | hk) | hk <;> simp [hk.1]
  · intro k v hk
    simp only [List.mem_append, mem_strMember, mem_intMember, List.mem_singleton,
      Prod.mk.injEq, mc, md] at hk
    rcases hk with (((((hk | hk) | hk) | hk) | hk) | hk) | hk <;> simp [hk.1]

/-- C12 (amended) at the record of scenario S1, whose serialization
succeeds: its object has the key `connect_to`, whose object has the key
`connect_to|reverse` with value `false`. -/
theorem C12_keys_witness :
    marshalNode ⟨"_:1", 1, ⟨"_:2", 2, 10, false, ⟨false, 1025, 2 ^ 50⟩,
        ⟨false, 1023, 0x3333333333333⟩, "car"⟩⟩ =
      some (JSON.object [("uid", JSON.str "_:1"), ("node_id", JSON.int 1),
        ("connect_to", JSON.object [("uid", JSON.str "_:2"), ("node_id", JSON.int 2),
          ("connect_to|edge_id", JSON.int 10), ("connect_to|reverse", JSON.bool false),
          ("connect_to|cost", JSON.float ⟨false, 1025, 2 ^ 50⟩),
          ("connect_to|distance", JSON.float ⟨false, 1023, 0x3333333333333⟩),
          ("connect_to|mode", JSON.str "car")])]) ∧
    ∃ members edge,
      JSON.object [("uid", JSON.str "_:1"), ("node_id", JSON.int 1),
        ("connect_to", JSON.object [("uid", JSON.str "_:2"), ("node_id", JSON.int 2),
          ("connect_to|edge_id", JSON.int 10), ("connect_to|reverse", JSON.bool false),
          ("connect_to|cost", JSON.float ⟨false, 1025, 2 ^ 50⟩),
          ("connect_to|distance", JSON.float ⟨false, 1023, 0x3333333333333⟩),
          ("connect_to|mode", JSON.str "car")])] = JSON.object members ∧
      (∀ v, ("connect_to", v) ∈ members ↔ v = JSON.object edge) ∧
      (∀ v, ("connect_to|reverse", v) ∈ edge ↔ v = JSON.bool false) := by
  obtain ⟨members, edge, h1, h2, h3, _⟩ :=
    C12_keys ⟨"_:1", 1, ⟨"_:2", 2, 10, false, ⟨false, 1025, 2 ^ 50⟩,
        ⟨false, 1023, 0x3333333333333⟩, "car"⟩⟩ _ rfl
  exact ⟨rfl, members, edge, h1, h2, h3⟩

theorem mem_importNodes_iff (records : List (List String)) (n : Node) :
    n ∈ importNodes records ↔
      ∃ R ∈ (readAll records).csvData,
        n = sourceNode R ∨ (R.EdgeReverseCost.gtZero = true ∧ n = SourceNodeReverse R) := by
  constructor
  · exact mem_importNodes records n
  · rintro ⟨R, hR, hn⟩
    unfold importNodes
    rw [projectAll_eq_flatMap, List.mem_flatMap]
    refine ⟨R, hR, ?_⟩
    unfold projectRow projectRecord
    rcases hn with hn | ⟨hg, hn⟩
    · cases hg : R.EdgeReverseCost.gtZero <;> simp [hn]
    · simp [hg, hn]

theorem marshalNodes_eq_none (nodes : List Node) :
    marshalNodes nodes = none ↔
      ∃ n ∈ nodes, n.ConnectTo.Cost.isFinite = false ∨ n.ConnectTo.Distance.isFinite = false := by
  have hE := marshalElems_eq_none nodes
  simp only [marshalNode_eq_none] at hE
  rw [← hE]
  cases nodes with
  | nil => simp [marshalNodes, marshalElems]
  | cons n rest => simp [marshalNodes]

theorem importNodes_eq_nil_iff (records : List (List String)) :
    importNodes records = [] ↔ (readAll records).csvData = [] := by
  have h := length_flatMap_projectRow (readAll records).csvData
  have hn : importNodes records = (readAll records).csvData.flatMap projectRow := by
    simp [importNodes, projectAll_eq_flatMap]
  rw [← hn] at h
  constructor
  · intro h0
    rw [h0] at h
    exact List.length_eq_zero.mp (by simpa using h.1)
  · intro h0
    rw [h0] at h
    exact List.length_eq_zero.mp (by simpa using h.2)

theorem length_flatMap_projectRow_eq (csvData : List CSVRecord) :
    (csvData.flatMap projectRow).length =
      csvData.length + (csvData.filter (fun R => R.EdgeReverseCost.gtZero)).length := by
  induction csvData with
  | nil => simp
  | cons R rest ih =>
    simp only [List.flatMap_cons, List.length_append, List.length_cons, ih, List.filter_cons]
    cases hg : R.EdgeReverseCost.gtZero <;>
      simp [projectRow, projectRecord, hg] <;> omega

/-- C13 fails at the input with no row and at the input whose one row is
rejected: the artifact is the JSON value `null`, not an array; and at the
input `10,1,2,NaN,0,car,1.2` there is no artifact, the encoder returns an
error. -/
theorem C13_null_counterexample :
    outputArtifact [] = some JSON.null ∧
    outputArtifact [["10", "1", "2", "notafloat", "4.5", "car", "1.2"]] = some JSON.null ∧
    outputArtifact [["10", "1", "2", "NaN", "0", "car", "1.2"]] = none :=
  ⟨rfl, rfl, rfl⟩

/-- C13, amended: for an input without an accepted row the artifact is the
JSON value `null`; for an input with an accepted row the artifact, when the
serialization succeeds, is an array of objects as long as the record set,
which has two records for each accepted row with `edge_reverse_cost > 0` and
one for each other accepted row; the serialization succeeds when the cost and
the distance of every record are finite. -/
theorem C13_artifact (records : List (List String)) :
    ((readAll records).csvData = [] → outputArtifact records = some JSON.null) ∧
    ((readAll records).csvData ≠ [] → ∀ j, outputArtifact records = some j →
      ∃ elems, j = JSON.array elems ∧ elems.length = (importNodes records).length ∧
        ∀ e ∈ elems, ∃ members, e = JSON.object members) ∧
    (importNodes records).length =
      (readAll records).csvData.length +
        ((readAll records).csvData.filter (fun R => R.EdgeReverseCost.gtZero)).length ∧
    ((∀ n ∈ importNodes records,
        n.ConnectTo.Cost.isFinite = true ∧ n.ConnectTo.Distance.isFinite = true) →
      ∃ j, outputArtifact records = some j) := by
  refine ⟨?_, ?_, ?_, ?_⟩
  · intro h0
    unfold outputArtifact
    rw [(importNodes_eq_nil_iff records).mpr h0]
    rfl
  · intro h0 j hj
    unfold outputArtifact at hj
    have hne : importNodes records ≠ [] :=
      fun h => h0 ((importNodes_eq_nil_iff records).mp h)
    rcases hl : importNodes records with _ | ⟨n, rest⟩
    · exact absurd hl hne
    · rw [hl] at hj
      simp only [marshalNodes, Option.map_eq_some'] at hj
      obtain ⟨js, hjs, hj2⟩ := hj
      obtain ⟨h1, h2⟩ := marshalElems_some _ js hjs
      exact ⟨js, hj2.symm, h1, h2⟩
  · have hn : importNodes records = (readAll records).csvData.flatMap projectRow := by
      simp [importNodes, projectAll_eq_flatMap]
    rw [hn]
    exact length_flatMap_projectRow_eq _
  · intro hfin
    cases ho : outputArtifact records with
    | some j => exact ⟨j, rfl⟩
    | none =>
      unfold outputArtifact at ho
      obtain ⟨n, hn, hbad⟩ := (marshalNodes_eq_none _).mp ho
      obtain ⟨hc, hd⟩ := hfin n hn
      rcases hbad with hbad | hbad
      · rw [hc] at hbad; exact absurd hbad (by decide)
      · rw [hd] at hbad; exact absurd hbad (by decide)

/-- C13 (amended) at the input of scenario S2, one accepted row with a
reverse cost above zero: the artifact is an array of two objects. -/
theorem C13_artifact_witness :
    (readAll [["10", "1", "2", "5.0", "4.5", "car", "1.2"]]).csvData ≠ [] ∧
    ∃ j elems, outputArtifact [["10", "1", "2", "5.0", "4.5", "car", "1.2"]] = some j ∧
      j = JSON.array elems ∧ elems.length = 2 ∧
      ∀ e ∈ elems, ∃ members, e = JSON.object members := by
  have hne : (readAll [["10", "1", "2", "5.0", "4.5", "car", "1.2"]]).csvData ≠ [] := by
    decide
  have hw := C13_artifact [["10", "1", "2", "5.0", "4.5", "car", "1.2"]]
  obtain ⟨j, hj⟩ := hw.2.2.2 (by decide)
  obtain ⟨elems, h1, h2, h3⟩ := hw.2.1 hne j hj
  have hlen : (importNodes [["10", "1", "2", "5.0", "4.5", "car", "1.2"]]).length = 2 := by
    decide
  exact ⟨hne, j, elems, hj, h1, by rw [h2, hlen], h3⟩

/-- C14 fails at the input `10,1,2,NaN,0,car,1.2`: the row is accepted, the
cost of its record is a NaN, and `json.Marshal` returns an error; so it does
at the input `10,1,2,5.0,Inf,car,1.2`, whose reverse record has an infinite
cost. -/
theorem C14_marshal_error_counterexample :
    (parseRow ["10", "1", "2", "NaN", "0", "car", "1.2"]).csvRecord.ParseError = none ∧
    outputArtifact [["10", "1", "2", "NaN", "0", "car", "1.2"]] = none ∧
    (parseRow ["10", "1", "2", "5.0", "Inf", "car", "1.2"]).csvRecord.ParseError = none ∧
    outputArtifact [["10", "1", "2", "5.0", "Inf", "car", "1.2"]] = none :=
  ⟨by decide, rfl, by decide, rfl⟩

/-- C14, amended: the serialization of the record set fails exactly when
some record has a cost or a distance that is not finite, a NaN or an
infinity; that is exactly when some accepted row has a cost or a distance
that is not finite, or a reverse cost above zero that is not finite, the
positive infinity. -/
theorem C14_marshal_error_iff (records : List (List String)) :
    (outputArtifact records = none ↔
      ∃ n ∈ importNodes records,
        n.ConnectTo.Cost.isFinite = false ∨ n.ConnectTo.Distance.isFinite = false) ∧
    (outputArtifact records = none ↔
      ∃ R ∈ (readAll records).csvData,
        R.EdgeCost.isFinite = false ∨ R.EdgeDistanceKM.isFinite = false ∨
          (R.EdgeReverseCost.gtZero = true ∧ R.EdgeReverseCost.isFinite = false)) := by
  have h1 : outputArtifact records = none ↔
      ∃ n ∈ importNodes records,
        n.ConnectTo.Cost.isFinite = false ∨ n.ConnectTo.Distance.isFinite = false := by
    unfold outputArtifact
    exact marshalNodes_eq_none _
  refine ⟨h1, ?_⟩
  rw [h1]
  constructor
  · rintro ⟨n, hn, hbad⟩
    obtain ⟨R, hR, hcase⟩ := (mem_importNodes_iff records n).mp hn
    refine ⟨R, hR, ?_⟩
    rcases hcase with hs | ⟨hg, hs⟩
    · rw [hs] at hbad
      rcases hbad with hb | hb
      · exact Or.inl hb
      · exact Or.inr (Or.inl hb)
    · rw [hs] at hbad
      rcases hbad with hb | hb
      · exact Or.inr (Or.inr ⟨hg, hb⟩)
      · exact Or.inr (Or.inl hb)
  · rintro ⟨R, hR, hbad⟩
    rcases hbad with hb | hb | ⟨hg, hb⟩
    · exact ⟨sourceNode R, (mem_importNodes_iff records _).mpr ⟨R, hR, Or.inl rfl⟩,
        Or.inl hb⟩
    · exact ⟨sourceNode R, (mem_importNodes_iff records _).mpr ⟨R, hR, Or.inl rfl⟩,
        Or.inr hb⟩
    · exact ⟨SourceNodeReverse R,
        (mem_importNodes_iff records _).mpr ⟨R, hR, Or.inr ⟨hg, rfl⟩⟩, Or.inl hb⟩

end GoRouting
